import Mathlib

/-!
dedup: the directory walker (`src/recdir.c`) and the orchestrator (`dedup.c`).

A shallow embedding of the explicit-frame-stack directory walker and of the
dispatch loop of `main`, followed by the properties proved about them.

Conventions of the embedding

* A C string is the list of its characters (`CStr`).
* The file system is seen through the calls the walker makes.  A directory
  is the stream of entries `readdir` hands out for it (`DirStream`); every
  entry carries what the later calls on its joined path answer: `access`,
  `opendir` (with the stream of the subdirectory) and `closedir`.
* `errno`, standard output, standard error, the table of directory handles
  and the heap blocks of yielded paths are fields of `World`, threaded
  through every operation.
* `size_t` subtraction wraps modulo `2 ^ 64`.  `++depth` and
  `frames_sz += 16` are modelled without wrap-around: the frame array would
  have to hold `2 ^ 64` frames first.
* Loops that C runs until a condition holds take a fuel argument; results
  are stated for every sufficiently large fuel.
* Worker threads run `process_file` to completion at scheduling points of
  the main thread, chosen by a scheduler that is a parameter; at the latest
  they run when they are joined.
* A path block is named by the count of allocations before it; `frees`
  lists the blocks passed to `free`.  The walker frees the block it holds
  at the head of the next `recdirread`.  In the orchestrator a worker that
  reads a freed block, and a `recdirread` that frees a block a worker has
  freed, are undefined behaviour.
-/

namespace Dedup

/-! ## Data model -/

/-- C string: the characters before the terminating NUL. -/
abbrev CStr := List Char

/-- `#define FRAMES_REALLOC_SIZE 16` -/
def FRAMES_REALLOC_SIZE : Nat := 16

/-- Modulus of `size_t` arithmetic. -/
def SIZE_MOD : Nat := 2 ^ 64

/-- `errno` after a failed `access`. -/
def EACCES : Nat := 13
/-- `errno` after a failed `opendir` of an existing, readable directory. -/
def EMFILE : Nat := 24
/-- `errno` after a failed `opendir` of the empty path. -/
def ENOENT : Nat := 2
/-- `errno` after a failed `closedir`. -/
def EBADF : Nat := 9

/-- The `d_type` values `recdirread` distinguishes: `DT_DIR`, `DT_REG`, and
every other value (symbolic links, devices, sockets, unknown). -/
inductive DType where
  | DT_DIR
  | DT_REG
  | DT_OTHER
deriving DecidableEq, Repr

/-- The fields of `struct dirent` the walker reads. -/
structure dirent where
  d_name : CStr
  d_type : DType
deriving DecidableEq, Repr

/-- Answers of the operating system for the joined path of an entry:
`access(path, R_OK) == 0`, `opendir(path) != NULL`, and `closedir(dir) == 0`
for the handle `opendir` returned. -/
structure OsAttr where
  access_ok : Bool
  open_ok : Bool
  close_ok : Bool
deriving DecidableEq, Repr

/-- What `readdir` returns on successive calls for one directory.
`eos`: `NULL`, `errno` untouched (end of directory).
`fail e`: `NULL` with `errno = e` (read error).
`ent d a sub rest`: the entry `d`; `a` and `sub` say what the file system
holds under the entry's path (`sub` is the stream of the directory the
entry names, when it names one); `rest` is what later calls return. -/
inductive DirStream where
  | eos : DirStream
  | fail (e : Nat) : DirStream
  | ent (d : dirent) (a : OsAttr) (sub : DirStream) (rest : DirStream) : DirStream
deriving DecidableEq, Repr

/-- What a path names in the file system, as far as `opendir` is concerned. -/
structure FsNode where
  attr : OsAttr
  sub : DirStream
deriving DecidableEq, Repr

/-- An open directory handle (`DIR *`): its identity, the entries not yet
read, and what `closedir` will answer. -/
structure DIR where
  id : Nat
  stream : DirStream
  close_ok : Bool
deriving DecidableEq, Repr

/-- A heap block holding a path (`emalloc` in `makepath`). -/
structure HeapStr where
  addr : Nat
  str : CStr
deriving DecidableEq, Repr

/-- Process state outside the walker: `errno`, the lines written by `printf`,
the calls of `perror` (argument, `errno` at the call; `none` is the
uninitialised local `path`), the number of handles `opendir` has returned
(handle ids are `0 .. opened - 1`), the handle ids passed to `closedir`, the
number of path blocks allocated and the addresses passed to `free`. -/
structure World where
  errno : Nat
  out : List CStr
  err : List (Option CStr × Nat)
  opened : Nat
  closed : List Nat
  mallocs : Nat
  frees : List Nat
deriving DecidableEq, Repr

/-- `RECDIR_FRAME` -/
structure RECDIR_FRAME where
  path : CStr
  dir : DIR
deriving DecidableEq, Repr

/-- `struct RECDIR_`.  `frames` lists the live frames `frames[depth-1]`,
..., `frames[0]`, top of the stack first.  `exclude_reg` is the compiled
pattern, as the predicate `regexec(...) == 0`.  `fmt` is the minimum field
width of the event tag in the log format, `none` for a `NULL` format. -/
structure RECDIR where
  frames : List RECDIR_FRAME
  exclude_reg : Option (CStr → Bool)
  fmt : Option Nat
  frames_sz : Nat
  maxdepth : Nat
  mindepth : Nat
  depth : Nat
  fpath : Option HeapStr

/-- The two tests `recdiropen` makes on `verbose`: `verbose & VERBOSE_STACK`
and `verbose & VERBOSE_HASH` (the masks are declared in `args.h`). -/
structure Verbose where
  stack : Bool
  hash : Bool
deriving DecidableEq, Repr

/-- How a call ends: it returns, an `assert` fails, it runs into undefined
behaviour, or the fuel of the model runs out. -/
inductive Outcome (α : Type) where
  | done (a : α)
  | abort
  | ub
  | timeout
deriving DecidableEq, Repr

/-! ## Library calls -/

/-- `printf("%-Ns  %s\n", tag, path)` with `N = width`. -/
def printf_fmt (width : Nat) (tag path : CStr) : CStr :=
  tag ++ List.replicate (width - tag.length) ' ' ++ [' ', ' '] ++ path ++ ['\n']

/-- `RECDIR_LOG(tag, path)`: `if (recdir->fmt) printf(recdir->fmt, tag, path)`. -/
def RECDIR_LOG (r : RECDIR) (w : World) (tag path : CStr) : World :=
  match r.fmt with
  | some width => { w with out := w.out ++ [printf_fmt width tag path] }
  | none => w

/-- `perror(path)` -/
def perror (path : Option CStr) (w : World) : World :=
  { w with err := w.err ++ [(path, w.errno)] }

/-- `opendir(path)`: fails on the empty path and where the file system says
so; otherwise returns a fresh handle positioned at the first entry. -/
def opendir (path : CStr) (node : FsNode) (w : World) : Option DIR × World :=
  if path = [] then (none, { w with errno := ENOENT })
  else if node.attr.open_ok then
    (some { id := w.opened, stream := node.sub, close_ok := node.attr.close_ok },
     { w with opened := w.opened + 1 })
  else (none, { w with errno := EMFILE })

/-- `closedir(dir)` -/
def closedir (dir : DIR) (w : World) : Int × World :=
  let w1 := { w with closed := w.closed ++ [dir.id] }
  if dir.close_ok then (0, w1) else (-1, { w1 with errno := EBADF })

/-- The inner loop of `recdirread`:
`while ((ent = readdir(top->dir)) != NULL && (strcmp(ent->d_name, ".") == 0 || strcmp(ent->d_name, "..") == 0));`
Returns `ent` (with what its path names), the stream left in the handle, and
`errno`. -/
def readdir_loop (s : DirStream) (errno : Nat) : Option (dirent × FsNode) × DirStream × Nat :=
  match s with
  | .eos => (none, .eos, errno)
  | .fail e => (none, .fail e, e)
  | .ent d a sub rest =>
    if d.d_name = ['.'] ∨ d.d_name = ['.', '.'] then readdir_loop rest errno
    else (some (d, ⟨a, sub⟩), rest, errno)

/-! ## `recdir.c` -/

/-- `makepath`: `p1[p1sz - 1] != '/' ? "%s/%s" : "%s%s"`.  For the empty `p1`
the C code reads `p1[-1]`; the walker never passes it (`opendir` refuses the
empty path), and the model takes the first format there. -/
def makepath (p1 p2 : CStr) : CStr :=
  if p1.getLast? ≠ some '/' then p1 ++ '/' :: p2 else p1 ++ p2

/-- `recdirtop`: `&recdir->frames[recdir->depth - 1]`; index `-1` is outside
the array. -/
def recdirtop (r : RECDIR) : Option RECDIR_FRAME :=
  if r.depth = 0 then none else r.frames.head?

/-- `recdirpush` -/
def recdirpush (r : RECDIR) (path : CStr) (node : FsNode) (w : World) : Int × RECDIR × World :=
  match opendir path node w with
  | (none, w1) => (1, r, w1)
  | (some dir, w1) =>
    let r1 := { r with depth := r.depth + 1 }
    let r2 := if r1.depth ≥ r1.frames_sz
      then { r1 with frames_sz := r1.frames_sz + FRAMES_REALLOC_SIZE } else r1
    (0, { r2 with frames := { path := path, dir := dir } :: r2.frames }, w1)

/-- `recdirpop` -/
def recdirpop (r : RECDIR) (w : World) : Outcome (Int × RECDIR × World) :=
  if r.depth = 0 then .abort
  else match r.frames with
    | [] => .ub
    | top :: below =>
      let (excode, w1) := closedir top.dir w
      let r1 := { r with frames := below, depth := r.depth - 1 }
      let r2 := if r1.depth < (r1.frames_sz + SIZE_MOD - FRAMES_REALLOC_SIZE) % SIZE_MOD
        then { r1 with frames_sz := (r1.frames_sz + SIZE_MOD - FRAMES_REALLOC_SIZE) % SIZE_MOD }
        else r1
      .done (excode, r2, w1)

/-- The block `ecalloc(1, sizeof(struct RECDIR_))` returns. -/
def RECDIR.zero : RECDIR :=
  { frames := [], exclude_reg := none, fmt := none, frames_sz := 0,
    maxdepth := 0, mindepth := 0, depth := 0, fpath := none }

/-- `recdiropen`; `root` is what `path` names in the file system. -/
def recdiropen (path : CStr) (root : FsNode) (exclude_reg : Option (CStr → Bool))
    (maxdepth mindepth : Nat) (verbose : Verbose) (w : World) : Option RECDIR × World :=
  match recdirpush RECDIR.zero path root w with
  | (0, r, w1) =>
    let r1 := if verbose.stack then { r with fmt := some (if verbose.hash then 64 else 10) } else r
    let r2 := { r1 with maxdepth := maxdepth, mindepth := mindepth, exclude_reg := exclude_reg }
    (some r2, RECDIR_LOG r2 w1 "OPEN".toList path)
  | (_, _, w1) => (none, w1)

/-- `recdirclose`: `free(recdir->frames); free(recdir);` -/
def recdirclose (_r : RECDIR) (w : World) : World := w

/-- How one pass through the body of `while (1)` in `recdirread` ends: at a
`continue` (or the `break` out of the `switch`), at a `return`, at a failed
`assert`, or in undefined behaviour.  `path` is the local variable. -/
inductive Step where
  | continue_ (path : Option CStr) (r : RECDIR) (w : World)
  | return_ (v : Option CStr) (r : RECDIR) (w : World)
  | abort
  | ub

/-- `if (recdirpop(recdir) < 0 || recdir->depth == 0) return NULL; continue;` -/
def pop_or_return (path : Option CStr) (r : RECDIR) (w : World) : Step :=
  match recdirpop r w with
  | .done (excode, r1, w1) =>
    if excode < 0 ∨ r1.depth = 0 then .return_ none r1 w1 else .continue_ path r1 w1
  | .abort => .abort
  | .ub => .ub
  | .timeout => .ub

/-- `recdir->exclude_reg != NULL && regexec(recdir->exclude_reg, path, 0, NULL, 0) == 0` -/
def excluded (exclude_reg : Option (CStr → Bool)) (path : CStr) : Bool :=
  match exclude_reg with
  | some reg => reg path
  | none => false

/-- The `switch (ent->d_type)` of `recdirread`. -/
def recdirread_switch (top : RECDIR_FRAME) (d : dirent) (node : FsNode) (path : CStr)
    (r : RECDIR) (w : World) : Step :=
  match d.d_type with
  | .DT_DIR =>
    if r.maxdepth ≤ r.depth then .continue_ (some path) r w
    else if excluded r.exclude_reg path then
      .continue_ (some path) r (RECDIR_LOG r w "EXCLUDE".toList path)
    else
      match recdirpush r path node w with
      | (0, r1, w1) =>
        match recdirtop r1 with
        | some top1 => .continue_ (some path) r1 (RECDIR_LOG r1 w1 "OPEN".toList top1.path)
        | none => .ub
      | (_, _, _) => .abort
  | .DT_REG =>
    if r.mindepth > r.depth then .continue_ (some path) r w
    else
      let fpath : HeapStr := { addr := w.mallocs, str := makepath top.path d.d_name }
      .return_ (some fpath.str) { r with fpath := some fpath } { w with mallocs := w.mallocs + 1 }
  | .DT_OTHER => .continue_ (some path) r (RECDIR_LOG r w "SKIP [T]".toList path)

/-- One pass through the body of `while (1)` in `recdirread`. -/
def recdirread_body (path : Option CStr) (r : RECDIR) (w : World) : Step :=
  match recdirtop r with
  | none => .ub
  | some top =>
    match readdir_loop top.dir.stream w.errno with
    | (ent, stream1, errno1) =>
      let r1 := { r with frames := { top with dir := { top.dir with stream := stream1 } } :: r.frames.tail }
      let w1 := { w with errno := errno1 }
      if errno1 ≠ 0 then
        pop_or_return path r1 { perror path w1 with errno := 0 }
      else
        match ent with
        | none => pop_or_return path r1 (RECDIR_LOG r1 w1 "CLOSE".toList top.path)
        | some (d, node) =>
          let path1 := makepath top.path d.d_name
          if node.attr.access_ok = false then
            .continue_ (some path1) r1 { perror (some path1) { w1 with errno := EACCES } with errno := 0 }
          else recdirread_switch top d node path1 r1 w1

/-- The `while (1)` of `recdirread`, run for at most `fuel` passes. -/
def recdirread_loop : Nat → Option CStr → RECDIR → World → Outcome (Option CStr × RECDIR × World)
  | 0, _, _, _ => .timeout
  | fuel + 1, path, r, w =>
    match recdirread_body path r w with
    | .continue_ path1 r1 w1 => recdirread_loop fuel path1 r1 w1
    | .return_ v r1 w1 => .done (v, r1, w1)
    | .abort => .abort
    | .ub => .ub

/-- `recdirread`: release the path produced by the previous call, then loop. -/
def recdirread (fuel : Nat) (r : RECDIR) (w : World) : Outcome (Option CStr × RECDIR × World) :=
  match r.fpath with
  | some p => recdirread_loop fuel none { r with fpath := none } { w with frees := w.frees ++ [p.addr] }
  | none => recdirread_loop fuel none r w

/-- Calling `recdirread` until it returns `NULL`, collecting the paths it
returned: at most `fuel` calls, each of at most `fuel` passes. -/
def drain : Nat → RECDIR → World → Outcome (List CStr × RECDIR × World)
  | 0, _, _ => .timeout
  | fuel + 1, r, w =>
    match recdirread (fuel + 1) r w with
    | .done (none, r1, w1) => .done ([], r1, w1)
    | .done (some p, r1, w1) =>
      match drain fuel r1 w1 with
      | .done (ps, r2, w2) => .done (p :: ps, r2, w2)
      | .abort => .abort
      | .ub => .ub
      | .timeout => .timeout
    | .abort => .abort
    | .ub => .ub
    | .timeout => .timeout

/-! ## `dedup.c` -/

/-- `#define THREADS_CAP 1024` -/
def THREADS_CAP : Nat := 1024

/-- `Args` (declared in `args.h`), the fields `main` and `process_file` read;
`db` is `none` for a `NULL` store path. -/
structure Args where
  path : CStr
  exclude_reg : Option (CStr → Bool)
  maxdepth : Nat
  mindepth : Nat
  verbose : Verbose
  nbytes : Nat
  db : Option CStr

/-- `ExecutionData`; `sql` says whether the store handle is non-`NULL`. -/
structure ExecutionData where
  sql : Bool
  args : Args
  excode : Int
  fpath : Option HeapStr

/-- What lies outside `dedup.c` and `recdir.c`: the directory `args.path`
names, the answers of `sql_open`, `sql_insert` and `fopen`, the digest text
`hash2cstr` produces for the file at a path, the scheduler (whether the
worker in slot `i` of the thread table runs to completion at scheduling
point `t`) and the delivery of `SIGINT` (at scheduling point `t`). -/
structure Env where
  root : FsNode
  sql_open_ok : Bool
  sql_insert_ok : CStr → Bool
  fopen_ok : CStr → Bool
  hash_cstr : CStr → CStr
  sched : Nat → Nat → Bool
  sigint : Nat → Bool

/-- A created thread: the `ExecutionData` block it owns and whether its
`process_file` has run. -/
structure Thread where
  data : ExecutionData
  ran : Bool

/-- The state of the process: the world of the walker, the flag
`terminated`, the thread table `threads[0 .. threads_sz - 1]`, the rows
inserted into the store, the paths handed to `pthread_create`, the number of
`pthread_join` calls, and the number of scheduling points passed. -/
structure Proc where
  w : World
  terminated : Bool
  threads : List Thread
  stored : List CStr
  dispatched : List CStr
  joined : Nat
  clock : Nat

/-- `process_file`, run to completion on the block `data`.  Returns the
block as the worker leaves it, or `none` for undefined behaviour: the worker
reads `data->fpath` (in `fopen`, `perror`, `printf`, `sql_insert`) and passes
it to `free`, so a path block that has been freed already is read after its
release.  The worker's `errno` is its own. -/
def process_file (env : Env) (data : ExecutionData) (p : Proc) : Option (ExecutionData × Proc) :=
  match data.fpath with
  | none => some (data, p)
  | some fp =>
    if fp.addr ∈ p.w.frees then none
    else if env.fopen_ok fp.str = false then
      some (data, { p with w := { p.w with err := p.w.err ++ [(some fp.str, EACCES)] } })
    else
      let p1 := if data.args.verbose.hash
        then { p with w := { p.w with out := p.w.out ++ [printf_fmt 64 (env.hash_cstr fp.str) fp.str] } }
        else p
      if data.sql = true ∧ env.sql_insert_ok fp.str = false then
        some ({ data with excode := 1 }, { p1 with terminated := true })
      else
        some (data, { p1 with
          stored := if data.sql then p1.stored ++ [fp.str] else p1.stored,
          w := { p1.w with frees := p1.w.frees ++ [fp.addr] } })

/-- Run the workers of the table, from slot `i` on, that have not run yet
and that `sel` selects; `none` when one of them runs into undefined
behaviour. -/
def run_pending (env : Env) (sel : Nat → Bool) :
    List Thread → Nat → Proc → Option (List Thread × Proc)
  | [], _, p => some ([], p)
  | th :: rest, i, p =>
    if th.ran = false ∧ sel i = true then
      match process_file env th.data p with
      | none => none
      | some (d, p1) =>
        match run_pending env sel rest (i + 1) p1 with
        | none => none
        | some (rest1, p2) => some ({ data := d, ran := true } :: rest1, p2)
    else
      match run_pending env sel rest (i + 1) p with
      | none => none
      | some (rest1, p2) => some (th :: rest1, p2)

/-- `terminate`, the handler of `SIGINT`: `terminated = 1` (its message on
standard error is not recorded). -/
def terminate (p : Proc) : Proc :=
  { p with terminated := true }

/-- What happens beside the main thread between two of its steps: `SIGINT`
may arrive and created workers may run. -/
def sched_point (env : Env) (p : Proc) : Option Proc :=
  let p1 := if env.sigint p.clock then terminate p else p
  match run_pending env (env.sched p.clock) p1.threads 0 p1 with
  | none => none
  | some (ths, p2) => some { p2 with threads := ths, clock := p.clock + 1 }

/-- `for (i = 0; i < threads_sz; i++) pthread_join(threads[i], NULL);` with
`threads_sz = 0` after it: every worker of the table has run when the joins
return. -/
def join_all (env : Env) (p : Proc) : Option Proc :=
  match run_pending env (fun _ => true) p.threads 0 p with
  | none => none
  | some (ths, p1) => some { p1 with threads := [], joined := p.joined + ths.length }

/-- The block `free(recdir->fpath)` at the head of `recdirread` is about to
release has been released already, by the worker it was handed to: the call
is a double free. -/
def fpath_freed (r : RECDIR) (w : World) : Bool :=
  match r.fpath with
  | some fp => decide (fp.addr ∈ w.frees)
  | none => false

/-- The dispatch loop of `main`:
`while ((fpath = recdirread(recdir)) != NULL && !terminated) { ... }`,
for at most `fuel` iterations.  It ends in undefined behaviour when a worker
reads a freed path block or `recdirread` frees one a second time. -/
def main_loop (env : Env) (data : ExecutionData) : Nat → RECDIR → Proc → Outcome (RECDIR × Proc)
  | 0, _, _ => .timeout
  | fuel + 1, r, p =>
    match sched_point env p with
    | none => .ub
    | some p0 =>
      if fpath_freed r p0.w then .ub
      else
        match recdirread (fuel + 1) r p0.w with
        | .done (none, r1, w1) => .done (r1, { p0 with w := w1 })
        | .done (some path, r1, w1) =>
          match sched_point env { p0 with w := w1 } with
          | none => .ub
          | some p1 =>
            if p1.terminated then .done (r1, p1)
            else
              let data_copy : ExecutionData := { data with fpath := r1.fpath }
              let p2 := { p1 with threads := p1.threads ++ [{ data := data_copy, ran := false }],
                                  dispatched := p1.dispatched ++ [path] }
              match (if p2.threads.length ≥ THREADS_CAP then join_all env p2 else some p2) with
              | none => .ub
              | some p3 => main_loop env data fuel r1 p3
        | .abort => .abort
        | .ub => .ub
        | .timeout => .timeout

/-- How `main` ends: `return data.excode`, or `die(...)`. -/
inductive ExitStatus where
  | returned (code : Int)
  | died
deriving DecidableEq, Repr

/-- The label `cleanup` of `main`: `recdirclose` when the walker was opened,
then `if (errno != 0) die(...)`, then `return data.excode`. -/
def cleanup (data : ExecutionData) (recdir : Option RECDIR) (p : Proc) : ExitStatus × Proc :=
  let p1 := match recdir with
    | some r => { p with w := recdirclose r p.w }
    | none => p
  if p1.w.errno ≠ 0 then (.died, p1) else (.returned data.excode, p1)

/-- The process state `main` starts in. -/
def Proc.init (w : World) : Proc :=
  { w := w, terminated := false, threads := [], stored := [], dispatched := [], joined := 0,
    clock := 0 }

/-- `main`, after `argsparse` has filled `args`. -/
def main (env : Env) (args : Args) (fuel : Nat) (w : World) : Outcome (ExitStatus × Proc) :=
  let data : ExecutionData := { sql := false, args := args, excode := 0, fpath := none }
  if args.db.isSome = true ∧ env.sql_open_ok = false then
    .done (cleanup { data with excode := 1 } none (Proc.init { w with errno := 0 }))
  else
    let data1 := { data with sql := args.db.isSome }
    match recdiropen args.path env.root args.exclude_reg args.maxdepth args.mindepth args.verbose w with
    | (none, w1) =>
      .done (cleanup { data1 with excode := 1 } none
        (Proc.init { perror (some args.path) w1 with errno := 0 }))
    | (some r, w1) =>
      match main_loop env data1 fuel r (Proc.init w1) with
      | .done (r1, p1) =>
        match join_all env p1 with
        | none => .ub
        | some p2 => .done (cleanup data1 (some r1) p2)
      | .abort => .abort
      | .ub => .ub
      | .timeout => .timeout

/-- The exit status of a finished `main`. -/
def exit_status (o : Outcome (ExitStatus × Proc)) : Option ExitStatus :=
  match o with
  | .done (st, _) => some st
  | _ => none

/-- The termination flag when `main` has finished. -/
def exit_terminated (o : Outcome (ExitStatus × Proc)) : Option Bool :=
  match o with
  | .done (_, p) => some p.terminated
  | _ => none

/-- The rows in the store when `main` has finished. -/
def exit_stored (o : Outcome (ExitStatus × Proc)) : Option (List CStr) :=
  match o with
  | .done (_, p) => some p.stored
  | _ => none

/-! ## Reference listings and predicates on directory trees -/

/-- The names the inner loop of `recdirread` skips. -/
def is_dot (name : CStr) : Bool :=
  decide (name = ['.'] ∨ name = ['.', '.'])

/-- The recursive listing of the spec, in its words: `walk(dir, d)` is the
concatenation, over the entries of `dir` in the order the OS iteration
returns them, of `[dir/name]` for a regular file when `d >= mindepth`,
`walk(dir/name, d+1)` for a subdirectory that is descended into
(`d < maxdepth` and path not excluded), and `[]` otherwise.  The entries of
a directory are those other than `.` and `..`; `dir/name` is the joined
path. -/
def walk_spec (exclude_reg : Option (CStr → Bool)) (maxdepth mindepth : Nat) :
    DirStream → CStr → Nat → List CStr
  | .eos, _, _ => []
  | .fail _, _, _ => []
  | .ent d _ sub rest, dir, depth =>
    (if is_dot d.d_name then []
     else match d.d_type with
      | .DT_REG => if depth ≥ mindepth then [makepath dir d.d_name] else []
      | .DT_DIR =>
        if depth < maxdepth ∧ excluded exclude_reg (makepath dir d.d_name) = false
        then walk_spec exclude_reg maxdepth mindepth sub (makepath dir d.d_name) (depth + 1)
        else []
      | .DT_OTHER => [])
    ++ walk_spec exclude_reg maxdepth mindepth rest dir depth

/-- The listing the walker produces when entries may fail the readability
check and `readdir` may fail: as `walk_spec`, except that an entry whose
path fails `access` contributes nothing. -/
def listing (exclude_reg : Option (CStr → Bool)) (maxdepth mindepth : Nat) :
    DirStream → CStr → Nat → List CStr
  | .eos, _, _ => []
  | .fail _, _, _ => []
  | .ent d a sub rest, dir, depth =>
    (if is_dot d.d_name then []
     else if a.access_ok = false then []
     else match d.d_type with
      | .DT_REG => if depth ≥ mindepth then [makepath dir d.d_name] else []
      | .DT_DIR =>
        if depth < maxdepth ∧ excluded exclude_reg (makepath dir d.d_name) = false
        then listing exclude_reg maxdepth mindepth sub (makepath dir d.d_name) (depth + 1)
        else []
      | .DT_OTHER => [])
    ++ listing exclude_reg maxdepth mindepth rest dir depth

/-- What a frame stack still has to produce: the listing of the top frame's
unread entries, then that of the frame below, and so on. -/
def stack_listing (exclude_reg : Option (CStr → Bool)) (maxdepth mindepth : Nat) :
    List RECDIR_FRAME → List CStr
  | [] => []
  | f :: below =>
    listing exclude_reg maxdepth mindepth f.dir.stream f.path (below.length + 1)
      ++ stack_listing exclude_reg maxdepth mindepth below

/-- No operating-system error anywhere in the tree: `readdir` never fails and
every entry passes `access`, `opendir` and `closedir`. -/
def benign : DirStream → Bool
  | .eos => true
  | .fail _ => false
  | .ent _ a sub rest =>
    a.access_ok && a.open_ok && a.close_ok && benign sub && benign rest

/-- No failure that stops the walk: every directory entry can be opened and
closed.  Unreadable entries and `readdir` errors are allowed. -/
def no_fatal : DirStream → Bool
  | .eos => true
  | .fail _ => true
  | .ent d a sub rest =>
    (d.d_type != .DT_DIR || (a.open_ok && a.close_ok && no_fatal sub)) && no_fatal rest

/-- Every directory entry can be opened (`opendir` does not fail). -/
def opens_ok : DirStream → Bool
  | .eos => true
  | .fail _ => true
  | .ent d a sub rest =>
    (d.d_type != .DT_DIR || (a.open_ok && opens_ok sub)) && opens_ok rest

/-- Upper bound on the passes through `while (1)` a stream can cause: two
per entry (one to read it, one to pop the frame it may push). -/
def weight : DirStream → Nat
  | .eos => 0
  | .fail _ => 0
  | .ent _ _ sub rest => 2 + weight sub + weight rest

/-- Upper bound on the passes through `while (1)` until the stack is empty. -/
def stack_weight : List RECDIR_FRAME → Nat
  | [] => 0
  | f :: below => 1 + weight f.dir.stream + stack_weight below

/-- The names of a directory's entries, `.` and `..` left out. -/
def names : DirStream → List CStr
  | .eos => []
  | .fail _ => []
  | .ent d _ _ rest => if is_dot d.d_name then names rest else d.d_name :: names rest

/-- A file name: not empty and without `/`. -/
def valid_name (name : CStr) : Bool :=
  name != [] && !name.contains '/'

/-- A directory tree as a file system holds it: every name is a file name,
and no directory holds two entries of the same name. -/
def well_formed : DirStream → Bool
  | .eos => true
  | .fail _ => true
  | .ent d _ sub rest =>
    (is_dot d.d_name ||
      (valid_name d.d_name && !(names rest).contains d.d_name && well_formed sub))
    && well_formed rest

/-- Every regular file of the tree none of whose ancestor directories below
the root has a path matching the exclusion pattern, with the depth of the
directory that holds it (`depth` for the directory listed by the stream). -/
def all_files (exclude_reg : Option (CStr → Bool)) : DirStream → CStr → Nat → List (CStr × Nat)
  | .eos, _, _ => []
  | .fail _, _, _ => []
  | .ent d _ sub rest, dir, depth =>
    (if is_dot d.d_name then []
     else match d.d_type with
      | .DT_REG => [(makepath dir d.d_name, depth)]
      | .DT_DIR =>
        if excluded exclude_reg (makepath dir d.d_name) then []
        else all_files exclude_reg sub (makepath dir d.d_name) (depth + 1)
      | .DT_OTHER => [])
    ++ all_files exclude_reg rest dir depth

/-- The joined paths of all subdirectories of the tree. -/
def dir_paths : DirStream → CStr → List CStr
  | .eos, _ => []
  | .fail _, _ => []
  | .ent d _ sub rest, dir =>
    (if is_dot d.d_name then []
     else match d.d_type with
      | .DT_DIR => makepath dir d.d_name :: dir_paths sub (makepath dir d.d_name)
      | _ => [])
    ++ dir_paths rest dir

/-- Height of the tree: the depth of its deepest directory, the directory
listed by the stream being at depth 1. -/
def height : DirStream → Nat
  | .eos => 1
  | .fail _ => 1
  | .ent d _ sub rest =>
    max (if is_dot d.d_name then 1
         else match d.d_type with
          | .DT_DIR => height sub + 1
          | _ => 1)
      (height rest)

/-- The regular files directly in a directory. -/
def files_here : DirStream → CStr → List CStr
  | .eos, _ => []
  | .fail _, _ => []
  | .ent d _ _ rest, dir =>
    (if is_dot d.d_name then []
     else match d.d_type with
      | .DT_REG => [makepath dir d.d_name]
      | _ => [])
    ++ files_here rest dir

/-- Handle ids held by the frames of the stack. -/
def frame_ids (frames : List RECDIR_FRAME) : List Nat :=
  frames.map (fun f => f.dir.id)

/-- The yielded paths of a finished `drain`. -/
def yielded (o : Outcome (List CStr × RECDIR × World)) : Option (List CStr) :=
  match o with
  | .done (ps, _, _) => some ps
  | _ => none

/-- The process state of a finished `drain`. -/
def final_world (o : Outcome (List CStr × RECDIR × World)) : Option World :=
  match o with
  | .done (_, _, w) => some w
  | _ => none


/-! ## Invariants and auxiliary definitions used in the proofs -/

/-- The stream the inner loop of `recdirread` stops at: leading `.` and `..`
entries dropped. -/
def skip_dots : DirStream → DirStream
  | .eos => .eos
  | .fail e => .fail e
  | .ent d a sub rest => if is_dot d.d_name then skip_dots rest else .ent d a sub rest

/-- Invariant of the walker when nothing fatal happens: `depth` counts the
frames, `errno` is clear, and every frame can be closed and holds a stream
without fatal failures. -/
def Inv (r : RECDIR) (w : World) : Prop :=
  r.depth = r.frames.length ∧ w.errno = 0 ∧
    ∀ f ∈ r.frames, f.dir.close_ok = true ∧ no_fatal f.dir.stream = true

/-- The second walker state carries the parameters of the first. -/
def same_params (r r' : RECDIR) : Prop :=
  r'.exclude_reg = r.exclude_reg ∧ r'.maxdepth = r.maxdepth ∧ r'.mindepth = r.mindepth ∧ r'.fmt = r.fmt

/-- What the walker still has to produce from its current state. -/
def remaining (r : RECDIR) : List CStr :=
  stack_listing r.exclude_reg r.maxdepth r.mindepth r.frames

/-- `frames_sz` after `recdirpop` has decremented `depth` to the given value. -/
def pop_sz (frames_sz depth : Nat) : Nat :=
  if depth < (frames_sz + SIZE_MOD - FRAMES_REALLOC_SIZE) % SIZE_MOD
  then (frames_sz + SIZE_MOD - FRAMES_REALLOC_SIZE) % SIZE_MOD else frames_sz

/-- `frames_sz` after `recdirpush` has incremented `depth` to the given value. -/
def push_sz (frames_sz depth : Nat) : Nat :=
  if depth ≥ frames_sz then frames_sz + FRAMES_REALLOC_SIZE else frames_sz

/-- What one pass of the loop body establishes, when nothing fatal happens. -/
def StepOk (r : RECDIR) : Step → Prop
  | .continue_ _ r' w' => Inv r' w' ∧ r'.frames ≠ [] ∧ same_params r r' ∧
      remaining r' = remaining r ∧ stack_weight r'.frames < stack_weight r.frames
  | .return_ (some p) r' w' => Inv r' w' ∧ r'.frames ≠ [] ∧ same_params r r' ∧
      remaining r = p :: remaining r' ∧ stack_weight r'.frames < stack_weight r.frames ∧
      ∃ a, r'.fpath = some ⟨a, p⟩
  | .return_ none r' _ => remaining r = [] ∧ r'.frames = [] ∧ r'.depth = 0 ∧ same_params r r'
  | .abort => False
  | .ub => False

/-- Invariant of the walker under any behaviour of the operating system:
`depth` counts the frames and is at most `maxdepth`, the root's frame set
aside. -/
def GInv (r : RECDIR) (_w : World) : Prop :=
  r.depth = r.frames.length ∧ r.depth ≤ max r.maxdepth 1

/-- Handle discipline: the handles `opendir` has returned are those held by
the frames together with those passed to `closedir`, each exactly once. -/
def Handles (r : RECDIR) (w : World) : Prop :=
  List.Perm (frame_ids r.frames ++ w.closed) (List.range w.opened)

/-- Every directory entry still to be read by some frame can be opened. -/
def stack_opens_ok (frames : List RECDIR_FRAME) : Prop :=
  ∀ f ∈ frames, opens_ok f.dir.stream = true

/-- What one pass of the loop body establishes, whatever the operating system
answers. -/
def StepG (r : RECDIR) (w : World) : Step → Prop
  | .continue_ _ r' w' => GInv r' w' ∧ r'.frames ≠ [] ∧ same_params r r' ∧
      stack_weight r'.frames < stack_weight r.frames ∧
      (stack_opens_ok r.frames → stack_opens_ok r'.frames) ∧ (Handles r w → Handles r' w') ∧
      (r.maxdepth ≤ 1 → w'.opened = w.opened)
  | .return_ (some _) r' w' => GInv r' w' ∧ r'.frames ≠ [] ∧ same_params r r' ∧
      stack_weight r'.frames < stack_weight r.frames ∧
      (stack_opens_ok r.frames → stack_opens_ok r'.frames) ∧ w'.errno = 0 ∧
      (Handles r w → Handles r' w') ∧ (r.maxdepth ≤ 1 → w'.opened = w.opened)
  | .return_ none r' w' => GInv r' w' ∧ same_params r r' ∧ (r'.depth = 0 ∨ w'.errno = EBADF) ∧
      (w'.errno = 0 ∨ w'.errno = EBADF) ∧ (Handles r w → Handles r' w') ∧
      (r.maxdepth ≤ 1 → w'.opened = w.opened)
  | .abort => ¬ stack_opens_ok r.frames
  | .ub => False

/-- The directory path with exactly the separator `makepath` puts after it. -/
def base (dir : CStr) : CStr :=
  if dir.getLast? ≠ some '/' then dir ++ ['/'] else dir

/-- Empty, or starting with the separator. -/
def tail_like (x : CStr) : Prop := x = [] ∨ ∃ y, x = '/' :: y

/-- The path lies in the directory `dir`, below one of the entries of `s`:
it is `dir`, the separator, the name of an entry, and then nothing or a
separator and more. -/
def Shaped (s : DirStream) (dir : CStr) (p : CStr) : Prop :=
  ∃ n, n ∈ names s ∧ valid_name n = true ∧ ∃ x, p = base dir ++ n ++ x ∧ tail_like x

/-- Depth and handle count after a pass that ends in `continue` or `return`. -/
def no_push_after (r : RECDIR) (w : World) : Step → Prop
  | .continue_ _ r' w' => r'.depth ≤ r.depth ∧ w'.opened = w.opened
  | .return_ _ r' w' => r'.depth ≤ r.depth ∧ w'.opened = w.opened
  | .abort => True
  | .ub => True

/-- No frame above the root's holds a path that matches the pattern. -/
def no_excluded_frame (r : RECDIR) : Prop :=
  ∀ f, f ∈ r.frames.dropLast → excluded r.exclude_reg f.path = false

/-- A pass through the loop body keeps excluded paths off the stack. -/
def keeps_no_excluded (r : RECDIR) : Step → Prop
  | .continue_ _ r' _ => no_excluded_frame r → no_excluded_frame r'
  | .return_ _ r' _ => no_excluded_frame r → no_excluded_frame r'
  | .abort => True
  | .ub => True

/-! ## Example trees and sets of eligible files -/

/-- An entry for which every system call succeeds. -/
def attr_ok : OsAttr := { access_ok := true, open_ok := true, close_ok := true }

/-- A regular file entry, followed by the rest of the directory. -/
def file_entry (name : String) (rest : DirStream) : DirStream :=
  .ent { d_name := name.toList, d_type := .DT_REG } attr_ok .eos rest

/-- A subdirectory entry with its contents, followed by the rest of the
directory. -/
def dir_entry (name : String) (sub rest : DirStream) : DirStream :=
  .ent { d_name := name.toList, d_type := .DT_DIR } attr_ok sub rest

/-- The tree of the spec's examples: `root/{a.txt, sub/{b.txt}}`. -/
def example_tree : DirStream :=
  file_entry "a.txt" (dir_entry "sub" (file_entry "b.txt" .eos) .eos)

/-- The root directory of the example tree. -/
def example_root : FsNode := { attr := attr_ok, sub := example_tree }

/-- The process state before the scan: `errno` clear, nothing written, no
directory handle opened, no path allocated. -/
def World.init : World :=
  { errno := 0, out := [], err := [], opened := 0, closed := [], mallocs := 0, frees := [] }

/-- A pattern matching every path that contains `sub`. -/
def matches_sub : CStr → Bool :=
  fun p => decide ("sub".toList <:+: p)

/-- The walker state `recdiropen` returns for a root that opens. -/
def opened_state (path : CStr) (root : FsNode) (exclude_reg : Option (CStr → Bool))
    (maxdepth mindepth : Nat) (verbose : Verbose) (w : World) : RECDIR :=
  { frames := [{ path := path, dir := { id := w.opened, stream := root.sub, close_ok := root.attr.close_ok } }],
    exclude_reg := exclude_reg,
    fmt := if verbose.stack then some (if verbose.hash then 64 else 10) else none,
    frames_sz := FRAMES_REALLOC_SIZE, maxdepth := maxdepth, mindepth := mindepth, depth := 1,
    fpath := none }

/-- The process state `recdiropen` leaves for a root that opens. -/
def opened_world (path : CStr) (verbose : Verbose) (w : World) : World :=
  { w with opened := w.opened + 1,
           out := if verbose.stack
             then w.out ++ [printf_fmt (if verbose.hash then 64 else 10) "OPEN".toList path]
             else w.out }

/-- The set of files the claim on eligibility names: regular files without an
excluded ancestor whose depth lies in `[mindepth, maxdepth)`. -/
def eligible_half_open (exclude_reg : Option (CStr → Bool)) (maxdepth mindepth : Nat)
    (s : DirStream) (dir : CStr) : List CStr :=
  ((all_files exclude_reg s dir 1).filter
    (fun x => decide (mindepth ≤ x.2 ∧ x.2 < maxdepth))).map Prod.fst

/-- The set of files the walker yields: regular files without an excluded
ancestor whose depth is at least `mindepth` and at most `maxdepth`, the
files of the root itself (depth 1) being in reach whatever `maxdepth` is. -/
def eligible_closed (exclude_reg : Option (CStr → Bool)) (maxdepth mindepth : Nat)
    (s : DirStream) (dir : CStr) : List CStr :=
  ((all_files exclude_reg s dir 1).filter
    (fun x => decide (mindepth ≤ x.2 ∧ x.2 ≤ max maxdepth 1))).map Prod.fst

/-- The walker states reached from a successful `recdiropen` in a process
that holds no directory handle yet: after every pass through the loop body,
after every returned path, and after the release of the previous path at
the start of a call. -/
inductive Reachable : RECDIR → World → Prop
  | opened (path : CStr) (root : FsNode) (exclude_reg : Option (CStr → Bool))
      (maxdepth mindepth : Nat) (verbose : Verbose) (w : World) (r : RECDIR) (w1 : World) :
      w.opened = 0 → w.closed = [] →
      recdiropen path root exclude_reg maxdepth mindepth verbose w = (some r, w1) →
      Reachable r w1
  | pass (path path1 : Option CStr) (r r1 : RECDIR) (w w1 : World) :
      Reachable r w → recdirread_body path r w = .continue_ path1 r1 w1 → Reachable r1 w1
  | yield (path : Option CStr) (p : CStr) (r r1 : RECDIR) (w w1 : World) :
      Reachable r w → recdirread_body path r w = .return_ (some p) r1 w1 → Reachable r1 w1
  | call (p : HeapStr) (r : RECDIR) (w : World) :
      Reachable r w → r.fpath = some p →
      Reachable { r with fpath := none } { w with frees := w.frees ++ [p.addr] }

/-- The lines written to standard output by a finished `drain`. -/
def logged (o : Outcome (List CStr × RECDIR × World)) : Option (List CStr) :=
  match o with
  | .done (_, _, w) => some w.out
  | _ => none

/-- Value returned, depth, handles opened, handles closed and `errno` after
a finished call of `recdirread`. -/
def call_summary (o : Outcome (Option CStr × RECDIR × World)) :
    Option (Option CStr × Nat × Nat × List Nat × Nat) :=
  match o with
  | .done (v, r, w) => some (v, r.depth, w.opened, w.closed, w.errno)
  | _ => none

/-- `recdirpush` repeated, each time on a directory that opens. -/
def push_times : Nat → RECDIR → World → RECDIR × World
  | 0, r, w => (r, w)
  | k + 1, r, w =>
    match recdirpush r "d".toList example_root w with
    | (_, r1, w1) => push_times k r1 w1

/-- The walker fifteen directories deep: the state after `recdiropen` and
fourteen more pushes. -/
def depth_fifteen : RECDIR × World :=
  push_times 14 (opened_state "root".toList example_root none 100 1 ⟨false, false⟩ World.init)
    (opened_world "root".toList ⟨false, false⟩ World.init)

/-- One `recdirpush` of a directory that opens. -/
def push_once (s : RECDIR × World) : RECDIR × World :=
  (recdirpush s.1 "d".toList example_root s.2).2

/-- One `recdirpop`; the walker is left as it is if the call does not return. -/
def pop_once (s : RECDIR × World) : RECDIR × World :=
  match recdirpop s.1 s.2 with
  | .done (_, r, w) => (r, w)
  | _ => s

/-- Depth and capacity of a walker state. -/
def depth_and_capacity (r : RECDIR) : Nat × Nat := (r.depth, r.frames_sz)

/-- The capacity is the least multiple of 16 above the depth, and fits in a
`size_t` with room for one more increment. -/
def cap_ok (r : RECDIR) : Prop :=
  r.frames_sz = FRAMES_REALLOC_SIZE * (r.depth / FRAMES_REALLOC_SIZE + 1) ∧
    r.frames_sz + FRAMES_REALLOC_SIZE < SIZE_MOD

/-- The process state of a finished `main`. -/
def exit_world (o : Outcome (ExitStatus × Proc)) : Option World :=
  match o with
  | .done (_, p) => some p.w
  | _ => none

/-- A scan of the example tree, without a store, interrupted by `SIGINT`
while the first path is being produced. -/
def interrupted_env : Env :=
  { root := example_root, sql_open_ok := true, sql_insert_ok := fun _ => true,
    fopen_ok := fun _ => true, hash_cstr := fun _ => [],
    sched := fun _ _ => true, sigint := fun t => decide (t = 1) }

/-- Arguments of the interrupted scan. -/
def interrupted_args : Args :=
  { path := "root".toList, exclude_reg := none, maxdepth := 100, mindepth := 1,
    verbose := { stack := false, hash := false }, nbytes := 0, db := none }

/-- A root holding the one file `a.txt`. -/
def single_file_root : FsNode :=
  { attr := attr_ok, sub := file_entry "a.txt" .eos }

/-- A scan of `root/{a.txt}` into a store whose insert fails; the worker
runs as soon as it is created. -/
def failing_insert_env : Env :=
  { root := single_file_root, sql_open_ok := true, sql_insert_ok := fun _ => false,
    fopen_ok := fun _ => true, hash_cstr := fun _ => [],
    sched := fun _ _ => true, sigint := fun _ => false }

/-- Arguments of a scan into a store. -/
def failing_insert_args : Args :=
  { path := "root".toList, exclude_reg := none, maxdepth := 100, mindepth := 1,
    verbose := { stack := false, hash := false }, nbytes := 0, db := some "db".toList }

/-- A root holding `a.txt` and a subdirectory `sub` that passes the
readability check but cannot be opened. -/
def open_fail_root : FsNode :=
  { attr := attr_ok,
    sub := file_entry "a.txt"
      (.ent { d_name := "sub".toList, d_type := .DT_DIR }
        { access_ok := true, open_ok := false, close_ok := true } .eos .eos) }

/-- `errno` after `printf` has probed a standard output that is not a
terminal. -/
def ENOTTY : Nat := 25

/-- A scan of the example tree without a store: no interrupt, every worker
runs as soon as it is created. -/
def plain_env : Env :=
  { root := example_root, sql_open_ok := true, sql_insert_ok := fun _ => true,
    fopen_ok := fun _ => true, hash_cstr := fun _ => [],
    sched := fun _ _ => true, sigint := fun _ => false }

/-- The same scan with workers that run only when they are joined. -/
def lazy_env : Env :=
  { root := example_root, sql_open_ok := true, sql_insert_ok := fun _ => true,
    fopen_ok := fun _ => true, hash_cstr := fun _ => [],
    sched := fun _ _ => false, sigint := fun _ => false }

/-- Arguments of the scan without a store. -/
def plain_args : Args :=
  { path := "root".toList, exclude_reg := none, maxdepth := 100, mindepth := 1,
    verbose := { stack := false, hash := false }, nbytes := 0, db := none }

/-- The paths handed to `pthread_create` when `main` has finished. -/
def exit_dispatched (o : Outcome (ExitStatus × Proc)) : Option (List CStr) :=
  match o with
  | .done (_, p) => some p.dispatched
  | _ => none

/-- The outcome of a call, without the state it leaves. -/
def outcome_kind {α : Type} (o : Outcome α) : Outcome Unit :=
  match o with
  | .done _ => .done ()
  | .abort => .abort
  | .ub => .ub
  | .timeout => .timeout

/-- The addresses passed to `free` when `main` has finished. -/
def exit_frees (o : Outcome (ExitStatus × Proc)) : Option (List Nat) :=
  match o with
  | .done (_, p) => some p.w.frees
  | _ => none

/-- A root holding an unreadable file `x`, then `a.txt` and `sub/{b.txt}`. -/
def unreadable_root : FsNode :=
  { attr := attr_ok,
    sub := .ent { d_name := "x".toList, d_type := .DT_REG }
      { access_ok := false, open_ok := true, close_ok := true } .eos example_tree }

/-- How one iteration of the dispatch loop of `main` ends: the loop is left,
or it goes round again. -/
inductive LoopStep where
  | leave (r : RECDIR) (p : Proc)
  | again (r : RECDIR) (p : Proc)

/-- The body of the dispatch loop up to `threads_sz++`: the copy of `data`
with the path just read is handed to `pthread_create`, which stores the new
thread in slot `threads_sz` of the table. -/
def dispatch (data : ExecutionData) (r1 : RECDIR) (path : CStr) (p1 : Proc) : Proc :=
  { p1 with threads := p1.threads ++ [{ data := { data with fpath := r1.fpath }, ran := false }],
            dispatched := p1.dispatched ++ [path] }

/-- `if (threads_sz >= THREADS_CAP) { join all; threads_sz = 0; }` -/
def barrier (env : Env) (p2 : Proc) : Option Proc :=
  if p2.threads.length ≥ THREADS_CAP then join_all env p2 else some p2

/-- One iteration of the dispatch loop of `main`. -/
def main_iter (env : Env) (data : ExecutionData) (fuel : Nat) (r : RECDIR) (p : Proc) :
    Outcome LoopStep :=
  match sched_point env p with
  | none => .ub
  | some p0 =>
    if fpath_freed r p0.w then .ub
    else
      match recdirread fuel r p0.w with
      | .done (none, r1, w1) => .done (.leave r1 { p0 with w := w1 })
      | .done (some path, r1, w1) =>
        match sched_point env { p0 with w := w1 } with
        | none => .ub
        | some p1 =>
          if p1.terminated then .done (.leave r1 p1)
          else
            match barrier env (dispatch data r1 path p1) with
            | none => .ub
            | some p3 => .done (.again r1 p3)
      | .abort => .abort
      | .ub => .ub
      | .timeout => .timeout

/-- What a worker leaves alone: the bookkeeping of `main`, and of the world
everything but the output, the error stream and the list of freed blocks. -/
def worker_frame (p p1 : Proc) : Prop :=
  p1.dispatched = p.dispatched ∧ p1.joined = p.joined ∧ p1.clock = p.clock ∧
  p1.threads = p.threads ∧ p1.w.errno = p.w.errno ∧ p1.w.opened = p.w.opened ∧
  p1.w.closed = p.w.closed ∧ p1.w.mallocs = p.w.mallocs ∧
  (p.terminated = true → p1.terminated = true)

/-- The thread table at the head of the dispatch loop: a slot is free, and
every thread created so far is in the table or has been joined. -/
def table_ok (p : Proc) : Prop :=
  p.threads.length < THREADS_CAP ∧ p.dispatched.length = p.joined + p.threads.length

/-- The event tags of the structural log. -/
def log_tags : List CStr :=
  ["OPEN".toList, "CLOSE".toList, "EXCLUDE".toList, "SKIP [T]".toList]

/-- The first stream is what is left of the second after some reads. -/
inductive Tail : DirStream → DirStream → Prop
  | refl (s : DirStream) : Tail s s
  | skip (d : dirent) (a : OsAttr) (sub rest s1 : DirStream) :
      Tail s1 rest → Tail s1 (.ent d a sub rest)

/-- The frame after reads that leave the stream `s` in its handle. -/
def advance (top : RECDIR_FRAME) (s : DirStream) : RECDIR_FRAME :=
  { top with dir := { top.dir with stream := s } }

/-- What a pass writes to standard output: nothing, or one line in the
format of `recdir->fmt` with one of the four event tags. -/
def LogStep (r : RECDIR) (w w1 : World) : Prop :=
  w1.out = w.out ∨
  ∃ width tag p, r.fmt = some width ∧ tag ∈ log_tags ∧
    w1.out = w.out ++ [printf_fmt width tag p]

/-- The top frame is popped by `recdirpop`. -/
def Popped (r r1 : RECDIR) : Prop :=
  ∃ top below, r.frames = top :: below ∧ r.depth ≠ 0 ∧
    r1.frames = below ∧ r1.depth = r.depth - 1 ∧
    r1.frames_sz = pop_sz r.frames_sz (r.depth - 1)

/-- The top frame has read on and the stack is as it was. -/
def Stayed (r r1 : RECDIR) : Prop :=
  ∃ top below s1, r.frames = top :: below ∧ r.depth ≠ 0 ∧ Tail s1 top.dir.stream ∧
    r1.frames = advance top s1 :: below ∧ r1.depth = r.depth ∧ r1.frames_sz = r.frames_sz

/-- The top frame has read a directory entry and `recdirpush` has put a frame
for it on the stack. -/
def Pushed (r r1 : RECDIR) : Prop :=
  ∃ top below d a sub rest id, r.frames = top :: below ∧ r.depth ≠ 0 ∧
    Tail (.ent d a sub rest) top.dir.stream ∧ is_dot d.d_name = false ∧ d.d_type = .DT_DIR ∧
    r.depth < r.maxdepth ∧ excluded r.exclude_reg (makepath top.path d.d_name) = false ∧
    r1.frames = ⟨makepath top.path d.d_name, ⟨id, sub, a.close_ok⟩⟩ :: advance top rest :: below ∧
    r1.depth = r.depth + 1 ∧ r1.frames_sz = push_sz r.frames_sz (r.depth + 1)

/-- The top frame has read the regular file whose path is returned. -/
def Yielded (r r1 : RECDIR) (p : CStr) : Prop :=
  ∃ top below d a sub rest, r.frames = top :: below ∧ r.depth ≠ 0 ∧
    Tail (.ent d a sub rest) top.dir.stream ∧ is_dot d.d_name = false ∧ d.d_type = .DT_REG ∧
    r.mindepth ≤ r.depth ∧ p = makepath top.path d.d_name ∧
    r1.frames = advance top rest :: below ∧ r1.depth = r.depth ∧ r1.frames_sz = r.frames_sz

/-- The shape of one pass through the body of `while (1)` in `recdirread`. -/
def StepS (r : RECDIR) (w : World) : Step → Prop
  | .continue_ _ r1 w1 => same_params r r1 ∧ LogStep r w w1 ∧
      (Popped r r1 ∨ Stayed r r1 ∨ Pushed r r1)
  | .return_ none r1 w1 => same_params r r1 ∧ LogStep r w w1 ∧ Popped r r1
  | .return_ (some p) r1 w1 => same_params r r1 ∧ w1.out = w.out ∧ Yielded r r1 p
  | .abort => True
  | .ub => r.depth = 0 ∨ r.frames = []

/-- The states a walk passes through from the state `r0`, `w0`: at the entry
of `recdirread`, between two passes of its loop, and when it has returned. -/
inductive Walk (r0 : RECDIR) (w0 : World) : RECDIR → World → Prop
  | start : Walk r0 w0 r0 w0
  | pass (path path1 : Option CStr) (r r1 : RECDIR) (w w1 : World) :
      Walk r0 w0 r w → recdirread_body path r w = .continue_ path1 r1 w1 → Walk r0 w0 r1 w1
  | ret (path : Option CStr) (v : Option CStr) (r r1 : RECDIR) (w w1 : World) :
      Walk r0 w0 r w → recdirread_body path r w = .return_ v r1 w1 → Walk r0 w0 r1 w1
  | call (p : HeapStr) (r : RECDIR) (w : World) :
      Walk r0 w0 r w → r.fpath = some p →
      Walk r0 w0 { r with fpath := none } { w with frees := w.frees ++ [p.addr] }

/-- The stack of frames, top first, lies along a branch of the tree `root`
whose path is `rootpath`: the bottom frame holds `rootpath` and reads `root`;
every other frame holds `makepath` of the path of the frame below it and the
name of a directory entry of the directory that frame reads, and reads that
entry.  The last argument is the directory the top frame reads. -/
inductive Chain (rootpath : CStr) (root : DirStream) : List RECDIR_FRAME → DirStream → Prop
  | bottom (f : RECDIR_FRAME) :
      f.path = rootpath → Tail f.dir.stream root → Chain rootpath root [f] root
  | above (f g : RECDIR_FRAME) (below : List RECDIR_FRAME) (dir : DirStream) (d : dirent)
      (a : OsAttr) (sub rest : DirStream) :
      Chain rootpath root (g :: below) dir → Tail (.ent d a sub rest) dir →
      is_dot d.d_name = false → d.d_type = .DT_DIR →
      f.path = makepath g.path d.d_name → Tail f.dir.stream sub →
      Chain rootpath root (f :: g :: below) sub

/-- The frame stack of a walker state lies along a branch of the tree, and
`depth` counts its frames. -/
def on_branch (rootpath : CStr) (root : DirStream) (r : RECDIR) : Prop :=
  r.depth = r.frames.length ∧ (r.frames = [] ∨ ∃ dir, Chain rootpath root r.frames dir)

/-! ## Iterations of the dispatch loop on the example tree -/

/-- The block `main` hands to every worker of the scan without a store,
before the path is filled in. -/
def plain_data : ExecutionData :=
  { sql := false, args := plain_args, excode := 0, fpath := none }

/-- The walker and process state an iteration of the dispatch loop ends in. -/
def loop_state (o : Outcome LoopStep) : Option (RECDIR × Proc) :=
  match o with
  | .done (.again r p) => some (r, p)
  | .done (.leave r p) => some (r, p)
  | _ => none

/-- Whether the iteration goes round again. -/
def goes_on (o : Outcome LoopStep) : Bool :=
  match o with
  | .done (.again _ _) => true
  | _ => false

/-- The first iteration of the dispatch loop on the example tree. -/
def first_iter (env : Env) : Outcome LoopStep :=
  main_iter env plain_data 10
    (opened_state "root".toList example_root none 100 1 ⟨false, false⟩ World.init)
    (Proc.init (opened_world "root".toList ⟨false, false⟩ World.init))

/-- The iteration of the dispatch loop that follows the given one. -/
def next_iter (env : Env) (o : Outcome LoopStep) : Outcome LoopStep :=
  match loop_state o with
  | some (r, p) => main_iter env plain_data 10 r p
  | none => o

/-- The heap as a loop state shows it: the address of the path block the
walker holds, the addresses passed to `free` so far, and for each thread of
the table the address of its path block and whether it has run. -/
def heap_view (o : Outcome LoopStep) : Option (Option Nat × List Nat × List (Option Nat × Bool)) :=
  (loop_state o).map (fun s =>
    (s.1.fpath.map (fun fp => fp.addr), s.2.w.frees,
      s.2.threads.map (fun t => (t.data.fpath.map (fun fp => fp.addr), t.ran))))

/-- The process state after the scheduling point that opens the iteration
following the given one. -/
def then_sched (env : Env) (o : Outcome LoopStep) : Option Proc :=
  (loop_state o).bind (fun s => sched_point env s.2)

/-- Whether the walker's next `free(recdir->fpath)` releases a block that is
released already, after the scheduling point that follows the given
iteration. -/
def then_double_free (env : Env) (o : Outcome LoopStep) : Option Bool :=
  (loop_state o).bind (fun s => (sched_point env s.2).map (fun p => fpath_freed s.1 p.w))

/-- What the final joins of `main` do after the given iteration has left the
loop. -/
def then_join (env : Env) (o : Outcome LoopStep) : Option (Option Proc) :=
  (loop_state o).map (fun s => join_all env s.2)

/-! ## The dot-skipping loop, `recdirpush`, `recdirpop` -/

theorem is_dot_iff (n : CStr) : is_dot n = true ↔ (n = ['.'] ∨ n = ['.', '.']) := by
  simp [is_dot]

theorem readdir_loop_eq (s : DirStream) (e : Nat) :
    readdir_loop s e = match skip_dots s with
      | .eos => (none, .eos, e)
      | .fail e1 => (none, .fail e1, e1)
      | .ent d a sub rest => (some (d, ⟨a, sub⟩), rest, e) := by
  induction s with
  | eos => rfl
  | fail e1 => rfl
  | ent d a sub rest _ ih =>
    unfold readdir_loop skip_dots
    by_cases h : is_dot d.d_name = true
    · have h2 := (is_dot_iff _).1 h
      simp only [h2, if_true, h, ih]
    · have h2 : ¬ (d.d_name = ['.'] ∨ d.d_name = ['.', '.']) := fun hh => h ((is_dot_iff _).2 hh)
      simp [h2, h]

theorem skip_dots_not_dot {s : DirStream} {d a sub rest} (h : skip_dots s = .ent d a sub rest) :
    is_dot d.d_name = false := by
  induction s with
  | eos => simp [skip_dots] at h
  | fail e1 => simp [skip_dots] at h
  | ent d1 a1 sub1 rest1 _ ih =>
    unfold skip_dots at h
    by_cases hd : is_dot d1.d_name = true
    · simp only [hd, if_true] at h; exact ih h
    · simp only [hd] at h
      simp at h
      rw [← h.1]; simpa using hd

theorem listing_skip_dots (ex mx mn) (s : DirStream) (dir : CStr) (depth : Nat) :
    listing ex mx mn (skip_dots s) dir depth = listing ex mx mn s dir depth := by
  induction s with
  | eos => rfl
  | fail e1 => rfl
  | ent d1 a1 sub1 rest1 _ ih =>
    unfold skip_dots
    by_cases hd : is_dot d1.d_name = true
    · simp only [hd, if_true, ih]
      conv_rhs => unfold listing
      simp [hd]
    · simp only [hd]; simp

theorem weight_skip_dots (s : DirStream) : weight (skip_dots s) ≤ weight s := by
  induction s with
  | eos => simp [skip_dots]
  | fail e1 => simp [skip_dots]
  | ent d1 a1 sub1 rest1 _ ih =>
    unfold skip_dots
    by_cases hd : is_dot d1.d_name = true
    · simp only [hd, if_true]; simp only [weight]; omega
    · simp only [hd]; simp

theorem no_fatal_skip_dots {s : DirStream} (h : no_fatal s = true) : no_fatal (skip_dots s) = true := by
  induction s with
  | eos => simp [skip_dots, no_fatal]
  | fail e1 => simp [skip_dots, no_fatal]
  | ent d1 a1 sub1 rest1 _ ih =>
    unfold skip_dots
    by_cases hd : is_dot d1.d_name = true
    · simp only [hd, if_true]
      apply ih
      simp only [no_fatal, Bool.and_eq_true] at h
      exact h.2
    · simp only [hd]; simpa using h

theorem makepath_ne_nil (p1 p2 : CStr) : makepath p1 p2 ≠ [] := by
  unfold makepath
  split
  · simp
  · rename_i h
    intro h2
    simp at h2
    simp [h2.1] at h

theorem recdirpop_eq (r : RECDIR) (w : World) (top : RECDIR_FRAME)
    (below : List RECDIR_FRAME) (hfr : r.frames = top :: below) (hd : r.depth ≠ 0) :
    recdirpop r w = .done ((closedir top.dir w).1,
      { r with frames := below, depth := r.depth - 1, frames_sz := pop_sz r.frames_sz (r.depth - 1) },
      (closedir top.dir w).2) := by
  unfold recdirpop pop_sz
  simp only [hfr, hd, if_false]
  split_ifs <;> rfl

theorem recdirpush_eq (r : RECDIR) (w : World) (path : CStr) (node : FsNode)
    (hp : path ≠ []) (ho : node.attr.open_ok = true) :
    recdirpush r path node w = (0,
      { r with frames := ⟨path, ⟨w.opened, node.sub, node.attr.close_ok⟩⟩ :: r.frames,
               depth := r.depth + 1, frames_sz := push_sz r.frames_sz (r.depth + 1) },
      { w with opened := w.opened + 1 }) := by
  unfold recdirpush opendir push_sz
  simp only [hp, ho, if_false, if_true]
  split_ifs <;> rfl

theorem pop_or_return_eq (path : Option CStr) (r : RECDIR) (w : World) (top : RECDIR_FRAME)
    (below : List RECDIR_FRAME) (hfr : r.frames = top :: below) (hd : r.depth = below.length + 1)
    (hc : top.dir.close_ok = true) :
    pop_or_return path r w =
      if below = [] then
        .return_ none { r with frames := below, depth := below.length, frames_sz := pop_sz r.frames_sz below.length }
          { w with closed := w.closed ++ [top.dir.id] }
      else
        .continue_ path { r with frames := below, depth := below.length, frames_sz := pop_sz r.frames_sz below.length }
          { w with closed := w.closed ++ [top.dir.id] } := by
  unfold pop_or_return
  rw [recdirpop_eq r w top below hfr (by omega)]
  simp only [closedir, hc, if_true, hd, Nat.add_sub_cancel, lt_self_iff_false, false_or,
    List.length_eq_zero]

theorem RECDIR_LOG_errno (r : RECDIR) (w : World) (t p : CStr) : (RECDIR_LOG r w t p).errno = w.errno := by
  unfold RECDIR_LOG; split <;> rfl

theorem stack_weight_pos {fs : List RECDIR_FRAME} (h : fs ≠ []) : 0 < stack_weight fs := by
  cases fs with
  | nil => exact absurd rfl h
  | cons f b => simp [stack_weight]

theorem RECDIR_LOG_opened (r : RECDIR) (w : World) (t p : CStr) : (RECDIR_LOG r w t p).opened = w.opened := by
  unfold RECDIR_LOG; split <;> rfl
theorem RECDIR_LOG_closed (r : RECDIR) (w : World) (t p : CStr) : (RECDIR_LOG r w t p).closed = w.closed := by
  unfold RECDIR_LOG; split <;> rfl

/-! ## One pass of the loop body -/

theorem pop_ok (path : Option CStr) (r r1 : RECDIR) (w1 : World) (top1 : RECDIR_FRAME)
    (below : List RECDIR_FRAME) (hp : same_params r r1) (hfr : r1.frames = top1 :: below)
    (hd : r1.depth = below.length + 1) (hc : top1.dir.close_ok = true) (he : w1.errno = 0)
    (hbelow : ∀ f ∈ below, f.dir.close_ok = true ∧ no_fatal f.dir.stream = true)
    (hrem : remaining r = stack_listing r.exclude_reg r.maxdepth r.mindepth below)
    (hw : stack_weight below < stack_weight r.frames) :
    StepOk r (pop_or_return path r1 w1) := by
  rw [pop_or_return_eq path r1 w1 top1 below hfr hd hc]
  obtain ⟨h1, h2, h3, h4⟩ := hp
  by_cases hb : below = []
  · subst hb
    simp only [if_true, StepOk]
    exact ⟨by simpa [stack_listing] using hrem, trivial, rfl, h1, h2, h3, h4⟩
  · simp only [hb, if_false, StepOk]
    refine ⟨⟨rfl, he, hbelow⟩, hb, ⟨h1, h2, h3, h4⟩, ?_, hw⟩
    simp only [remaining, h1, h2, h3]
    exact hrem.symm

theorem body_refines (path : Option CStr) (r : RECDIR) (w : World) (hI : Inv r w)
    (hne : r.frames ≠ []) : StepOk r (recdirread_body path r w) := by
  obtain ⟨hd, he, hf⟩ := hI
  obtain ⟨frames, ex, fmt, fsz, mx, mn, depth, fpath⟩ := r
  cases frames with
  | nil => exact absurd rfl hne
  | cons top below =>
    simp only [List.length_cons] at hd
    subst hd
    have htop := hf top (List.mem_cons_self _ _)
    have hbelow : ∀ f ∈ below, f.dir.close_ok = true ∧ no_fatal f.dir.stream = true :=
      fun f hm => hf f (List.mem_cons_of_mem _ hm)
    have hl := (listing_skip_dots ex mx mn top.dir.stream top.path (below.length + 1)).symm
    have hw := weight_skip_dots top.dir.stream
    have hnf := no_fatal_skip_dots htop.2
    clear hf hne
    unfold recdirread_body
    simp only [recdirtop, Nat.add_one_ne_zero, if_false, List.head?_cons, readdir_loop_eq, he,
      List.tail_cons]
    cases hs : skip_dots top.dir.stream with
    | eos =>
      rw [hs] at hl hw
      simp only [listing] at hl
      simp only [ne_eq, not_true_eq_false, if_false]
      apply pop_ok _ _ _ _ _ below ⟨rfl, rfl, rfl, rfl⟩ rfl rfl (by exact htop.1)
        (by simp [RECDIR_LOG_errno]) hbelow
      · simp [remaining, stack_listing, hl]
      · simp [stack_weight]
    | fail e1 =>
      rw [hs] at hl hw
      simp only [listing] at hl
      by_cases he1 : e1 = 0
      · simp only [he1, ne_eq, not_true_eq_false, if_false]
        apply pop_ok _ _ _ _ _ below ⟨rfl, rfl, rfl, rfl⟩ rfl rfl (by exact htop.1)
          (by simp [RECDIR_LOG_errno]) hbelow
        · simp [remaining, stack_listing, hl]
        · simp [stack_weight]
      · simp only [ne_eq, he1, not_false_eq_true, if_true]
        apply pop_ok _ _ _ _ _ below ⟨rfl, rfl, rfl, rfl⟩ rfl rfl (by exact htop.1)
          rfl hbelow
        · simp [remaining, stack_listing, hl]
        · simp [stack_weight]
    | ent d a sub rest =>
      rw [hs] at hl hw hnf
      have hdot := skip_dots_not_dot hs
      simp only [ne_eq, not_true_eq_false, if_false]
      simp only [listing, hdot] at hl
      simp only [weight] at hw
      simp only [no_fatal, Bool.and_eq_true, Bool.or_eq_true, bne_iff_ne, ne_eq] at hnf
      by_cases hacc : a.access_ok = false
      · simp only [hacc, if_true]
        simp only [hacc] at hl
        refine ⟨⟨rfl, rfl, ?_⟩, by simp, ⟨rfl, rfl, rfl, rfl⟩, ?_, ?_⟩
        · intro f hm
          rcases List.mem_cons.1 hm with h | h
          · subst h; exact ⟨htop.1, hnf.2⟩
          · exact hbelow f h
        · simp [remaining, stack_listing, hl]
        · simp [stack_weight]; omega
      · simp only [hacc, if_false]
        simp only [hacc] at hl
        have hfr : ∀ f ∈ (⟨top.path, ⟨top.dir.id, rest, top.dir.close_ok⟩⟩ : RECDIR_FRAME) :: below,
            f.dir.close_ok = true ∧ no_fatal f.dir.stream = true := by
          intro f hm
          rcases List.mem_cons.1 hm with h | h
          · subst h; exact ⟨htop.1, hnf.2⟩
          · exact hbelow f h
        unfold recdirread_switch
        cases hty : d.d_type with
        | DT_DIR =>
          simp only [hty] at hl hnf ⊢
          by_cases hmx : mx ≤ below.length + 1
          · simp only [hmx, if_true]
            have hmx2 : ¬ (below.length + 1 < mx) := by omega
            simp only [hmx2, false_and, if_false] at hl
            refine ⟨⟨rfl, rfl, hfr⟩, by simp, ⟨rfl, rfl, rfl, rfl⟩, ?_, ?_⟩
            · simp [remaining, stack_listing, hl]
            · simp [stack_weight]; omega
          · simp only [hmx, if_false]
            have hmx2 : below.length + 1 < mx := by omega
            simp only [hmx2, true_and] at hl
            by_cases hex : excluded ex (makepath top.path d.d_name) = true
            · simp only [hex, if_true]
              simp only [hex] at hl
              refine ⟨⟨rfl, ?_, hfr⟩, by simp, ⟨rfl, rfl, rfl, rfl⟩, ?_, ?_⟩
              · simp [RECDIR_LOG_errno]
              · simp [remaining, stack_listing, hl]
              · simp [stack_weight]; omega
            · simp only [hex]
              simp only [Bool.not_eq_true] at hex
              simp only [hex, if_true] at hl
              have hopen : a.open_ok = true ∧ a.close_ok = true ∧ no_fatal sub = true := by
                rcases hnf.1 with h | h
                · exact absurd trivial h
                · exact ⟨h.1.1, h.1.2, h.2⟩
              rw [recdirpush_eq _ _ _ ⟨a, sub⟩ (makepath_ne_nil _ _) hopen.1]
              simp only [recdirtop, Nat.add_one_ne_zero, if_false, List.head?_cons]
              refine ⟨⟨by simp, ?_, ?_⟩, by simp, ⟨rfl, rfl, rfl, rfl⟩, ?_, ?_⟩
              · simp [RECDIR_LOG_errno]
              · intro f hm
                rcases List.mem_cons.1 hm with h | h
                · subst h; exact ⟨hopen.2.1, hopen.2.2⟩
                · exact hfr f h
              · simp [remaining, stack_listing, hl]
              · simp [stack_weight]; omega
        | DT_REG =>
          simp only [hty] at hl ⊢
          by_cases hmn : mn > below.length + 1
          · simp only [hmn, if_true]
            have hmn2 : ¬ (below.length + 1 ≥ mn) := by omega
            simp only [hmn2, if_false] at hl
            refine ⟨⟨rfl, rfl, hfr⟩, by simp, ⟨rfl, rfl, rfl, rfl⟩, ?_, ?_⟩
            · simp [remaining, stack_listing, hl]
            · simp [stack_weight]; omega
          · simp only [hmn, if_false]
            have hmn2 : below.length + 1 ≥ mn := by omega
            simp only [hmn2, if_true] at hl
            refine ⟨⟨rfl, rfl, hfr⟩, by simp, ⟨rfl, rfl, rfl, rfl⟩, ?_, ?_, ⟨_, rfl⟩⟩
            · simp [remaining, stack_listing, hl]
            · simp [stack_weight]; omega
        | DT_OTHER =>
          simp only [hty] at hl ⊢
          refine ⟨⟨rfl, ?_, hfr⟩, by simp, ⟨rfl, rfl, rfl, rfl⟩, ?_, ?_⟩
          · simp [RECDIR_LOG_errno]
          · simp [remaining, stack_listing, hl]
          · simp [stack_weight]; omega

theorem opens_ok_skip_dots {s : DirStream} (h : opens_ok s = true) : opens_ok (skip_dots s) = true := by
  induction s with
  | eos => simp [skip_dots, opens_ok]
  | fail e1 => simp [skip_dots, opens_ok]
  | ent d1 a1 sub1 rest1 _ ih =>
    unfold skip_dots
    by_cases hd : is_dot d1.d_name = true
    · simp only [hd, if_true]
      apply ih
      simp only [opens_ok, Bool.and_eq_true] at h
      exact h.2
    · simp only [hd]; simpa using h

theorem pop_general (path : Option CStr) (r r1 : RECDIR) (w w1 : World) (top1 : RECDIR_FRAME)
    (below : List RECDIR_FRAME) (hp : same_params r r1) (hfr : r1.frames = top1 :: below)
    (hd : r1.depth = below.length + 1) (he : w1.errno = 0)
    (hperm : Handles r w →
      List.Perm (frame_ids (top1 :: below) ++ w1.closed) (List.range w1.opened))
    (hw : stack_weight below < stack_weight r.frames)
    (hmx : r1.depth ≤ max r1.maxdepth 1)
    (hop : stack_opens_ok r.frames → stack_opens_ok below) (hopn : w1.opened = w.opened) :
    StepG r w (pop_or_return path r1 w1) := by
  unfold pop_or_return
  rw [recdirpop_eq r1 w1 top1 below hfr (by omega)]
  obtain ⟨h1, h2, h3, h4⟩ := hp
  have hperm2 : Handles r w →
      List.Perm (frame_ids below ++ (w1.closed ++ [top1.dir.id])) (List.range w1.opened) := by
    intro hh
    refine List.Perm.trans ?_ (hperm hh)
    simp only [frame_ids, List.map_cons, List.cons_append]
    rw [← List.append_assoc]
    exact List.perm_append_singleton _ _
  simp only [closedir, hd, Nat.add_sub_cancel]
  by_cases hc : top1.dir.close_ok = true
  · simp only [hc, if_true, lt_self_iff_false, false_or]
    by_cases hb : below.length = 0
    · simp only [hb, if_true, StepG]
      exact ⟨⟨by simp [hb], by simp⟩, ⟨h1, h2, h3, h4⟩, by simp, Or.inl he, hperm2, fun _ => hopn⟩
    · simp only [hb, if_false, StepG]
      refine ⟨⟨rfl, ?_⟩, ?_, ⟨h1, h2, h3, h4⟩, hw, hop, hperm2, fun _ => hopn⟩
      · show below.length ≤ max r1.maxdepth 1
        omega
      · intro h; simp [h] at hb
  · simp only [hc, if_false, Int.reduceNeg, Left.neg_neg_iff, zero_lt_one, true_or, if_true, StepG]
    refine ⟨⟨rfl, ?_⟩, ⟨h1, h2, h3, h4⟩, Or.inr rfl, Or.inr rfl, hperm2, fun _ => hopn⟩
    show below.length ≤ max r1.maxdepth 1
    omega

theorem body_general (path : Option CStr) (r : RECDIR) (w : World) (hI : GInv r w)
    (hne : r.frames ≠ []) : StepG r w (recdirread_body path r w) := by
  obtain ⟨hd, hmx⟩ := hI
  obtain ⟨frames, ex, fmt, fsz, mx, mn, depth, fpath⟩ := r
  cases frames with
  | nil => exact absurd rfl hne
  | cons top below =>
    simp only [List.length_cons] at hd
    subst hd
    have hw := weight_skip_dots top.dir.stream
    have hopb : stack_opens_ok (top :: below) → stack_opens_ok below :=
      fun h f hm => h f (List.mem_cons_of_mem _ hm)
    have hopt : stack_opens_ok (top :: below) → opens_ok (skip_dots top.dir.stream) = true :=
      fun h => opens_ok_skip_dots (h top (List.mem_cons_self _ _))
    have hpop : ∀ (s1 : DirStream) (w1 : World), w1.errno = 0 → w1.closed = w.closed →
        w1.opened = w.opened →
        StepG ⟨top :: below, ex, fmt, fsz, mx, mn, below.length + 1, fpath⟩ w
          (pop_or_return path
            ⟨⟨top.path, ⟨top.dir.id, s1, top.dir.close_ok⟩⟩ :: below, ex, fmt, fsz, mx, mn,
              below.length + 1, fpath⟩ w1) := by
      intro s1 w1 h0 hcl hop
      apply pop_general path _ _ w w1 _ below ⟨rfl, rfl, rfl, rfl⟩ rfl rfl h0
      · intro hperm; rw [hcl, hop]; exact hperm
      · simp [stack_weight]
      · exact hmx
      · exact hopb
      · exact hop
    unfold recdirread_body
    simp only [recdirtop, Nat.add_one_ne_zero, if_false, List.head?_cons, readdir_loop_eq,
      List.tail_cons]
    cases hs : skip_dots top.dir.stream with
    | eos =>
      by_cases he : w.errno = 0
      · simp only [he, ne_eq, not_true_eq_false, if_false]
        exact hpop _ _ (by simp [RECDIR_LOG_errno]) (by simp [RECDIR_LOG_closed])
          (by simp [RECDIR_LOG_opened])
      · simp only [ne_eq, he, not_false_eq_true, if_true]
        exact hpop _ _ rfl rfl rfl
    | fail e1 =>
      by_cases he : e1 = 0
      · simp only [he, ne_eq, not_true_eq_false, if_false]
        exact hpop _ _ (by simp [RECDIR_LOG_errno]) (by simp [RECDIR_LOG_closed])
          (by simp [RECDIR_LOG_opened])
      · simp only [ne_eq, he, not_false_eq_true, if_true]
        exact hpop _ _ rfl rfl rfl
    | ent d a sub rest =>
      rw [hs] at hw hopt
      simp only [weight] at hw
      simp only [opens_ok, Bool.and_eq_true, Bool.or_eq_true, bne_iff_ne, ne_eq] at hopt
      by_cases he : w.errno = 0
      · simp only [he, ne_eq, not_true_eq_false, if_false]
        have hop1 : stack_opens_ok (top :: below) →
            stack_opens_ok ((⟨top.path, ⟨top.dir.id, rest, top.dir.close_ok⟩⟩ : RECDIR_FRAME) :: below) := by
          intro h f hm
          rcases List.mem_cons.1 hm with h1 | h1
          · subst h1; exact (hopt h).2
          · exact hopb h f h1
        have hcont : ∀ (p : Option CStr) (w1 : World), w1.closed = w.closed → w1.opened = w.opened →
            StepG ⟨top :: below, ex, fmt, fsz, mx, mn, below.length + 1, fpath⟩ w
              (.continue_ p ⟨⟨top.path, ⟨top.dir.id, rest, top.dir.close_ok⟩⟩ :: below, ex, fmt,
                fsz, mx, mn, below.length + 1, fpath⟩ w1) := by
          intro p w1 hcl hop
          refine ⟨⟨rfl, hmx⟩, by simp, ⟨rfl, rfl, rfl, rfl⟩, ?_, hop1, ?_, fun _ => hop⟩
          · simp [stack_weight]; omega
          · intro hperm; simp only [Handles]; rw [hcl, hop]; exact hperm
        by_cases hacc : a.access_ok = false
        · simp only [hacc, if_true]
          exact hcont _ _ rfl rfl
        · simp only [hacc, if_false]
          unfold recdirread_switch
          cases hty : d.d_type with
          | DT_DIR =>
            simp only [hty] at hopt ⊢
            by_cases hmx1 : mx ≤ below.length + 1
            · simp only [hmx1, if_true]
              exact hcont _ _ rfl rfl
            · simp only [hmx1, if_false]
              by_cases hex : excluded ex (makepath top.path d.d_name) = true
              · simp only [hex, if_true]
                exact hcont _ _ (by simp [RECDIR_LOG_closed]) (by simp [RECDIR_LOG_opened])
              · simp only [hex]
                by_cases hopen : a.open_ok = true
                · rw [recdirpush_eq _ _ _ ⟨a, sub⟩ (makepath_ne_nil _ _) hopen]
                  simp only [recdirtop, Nat.add_one_ne_zero, if_false, List.head?_cons]
                  refine ⟨⟨by simp, ?_⟩, by simp, ⟨rfl, rfl, rfl, rfl⟩, ?_, ?_, ?_,
                    fun h => absurd h (by show ¬ mx ≤ 1; omega)⟩
                  · show below.length + 1 + 1 ≤ max mx 1
                    omega
                  · simp [stack_weight]; omega
                  · intro h f hm
                    rcases List.mem_cons.1 hm with h1 | h1
                    · subst h1
                      rcases (hopt h).1 with h2 | h2
                      · exact absurd trivial h2
                      · exact h2.2
                    · exact hop1 h f h1
                  · intro hperm
                    simp only [Handles, RECDIR_LOG_closed, RECDIR_LOG_opened, frame_ids,
                      List.map_cons, List.cons_append, List.range_succ]
                    refine List.Perm.trans ?_ (List.perm_append_singleton _ _).symm
                    exact List.Perm.cons _ hperm
                · have : recdirpush ⟨⟨top.path, ⟨top.dir.id, rest, top.dir.close_ok⟩⟩ :: below, ex,
                      fmt, fsz, mx, mn, below.length + 1, fpath⟩ (makepath top.path d.d_name)
                      ⟨a, sub⟩ ⟨0, w.out, w.err, w.opened, w.closed, w.mallocs, w.frees⟩ =
                      (1, ⟨⟨top.path, ⟨top.dir.id, rest, top.dir.close_ok⟩⟩ :: below, ex,
                      fmt, fsz, mx, mn, below.length + 1, fpath⟩,
                      ⟨EMFILE, w.out, w.err, w.opened, w.closed, w.mallocs, w.frees⟩) := by
                    simp [recdirpush, opendir, makepath_ne_nil, hopen]
                  rw [this]
                  simp only [StepG]
                  intro h
                  rcases (hopt h).1 with h2 | h2
                  · exact absurd trivial h2
                  · exact hopen h2.1
          | DT_REG =>
            simp only [hty]
            by_cases hmn : mn > below.length + 1
            · simp only [hmn, if_true]
              exact hcont _ _ rfl rfl
            · simp only [hmn, if_false]
              refine ⟨⟨rfl, hmx⟩, by simp, ⟨rfl, rfl, rfl, rfl⟩, ?_, hop1, rfl, fun hperm => hperm,
                fun _ => rfl⟩
              simp [stack_weight]; omega
          | DT_OTHER =>
            simp only [hty]
            exact hcont _ _ (by simp [RECDIR_LOG_closed]) (by simp [RECDIR_LOG_opened])
      · simp only [ne_eq, he, not_false_eq_true, if_true]
        exact hpop _ _ rfl rfl rfl

/-! ## The loop of `recdirread` and the drain of the walker -/

theorem loop_refines : ∀ (n : Nat) (path : Option CStr) (r : RECDIR) (w : World),
    Inv r w → r.frames ≠ [] → stack_weight r.frames ≤ n →
    ∃ v r' w', recdirread_loop n path r w = .done (v, r', w') ∧ StepOk r (.return_ v r' w') := by
  intro n
  induction n with
  | zero =>
    intro path r w _ hne hw
    have := stack_weight_pos hne
    omega
  | succ n ih =>
    intro path r w hI hne hw
    have hb := body_refines path r w hI hne
    unfold recdirread_loop
    cases hs : recdirread_body path r w with
    | continue_ p1 r1 w1 =>
      rw [hs] at hb
      obtain ⟨hI1, hne1, hp1, hrem1, hw1⟩ := hb
      obtain ⟨v, r', w', hrun, hok⟩ := ih p1 r1 w1 hI1 hne1 (by omega)
      refine ⟨v, r', w', hrun, ?_⟩
      obtain ⟨q1, q2, q3, q4⟩ := hp1
      cases v with
      | none =>
        obtain ⟨a1, a2, a3, b1, b2, b3, b4⟩ := hok
        exact ⟨by rw [← hrem1]; exact a1, a2, a3, b1.trans q1, b2.trans q2, b3.trans q3, b4.trans q4⟩
      | some p =>
        obtain ⟨a1, a2, ⟨b1, b2, b3, b4⟩, a4, a5, a6⟩ := hok
        exact ⟨a1, a2, ⟨b1.trans q1, b2.trans q2, b3.trans q3, b4.trans q4⟩,
          by rw [← hrem1]; exact a4, by omega, a6⟩
    | return_ v r1 w1 =>
      rw [hs] at hb
      exact ⟨v, r1, w1, rfl, hb⟩
    | abort => rw [hs] at hb; exact hb.elim
    | ub => rw [hs] at hb; exact hb.elim

theorem StepOk_fpath (r : RECDIR) (x : Option HeapStr) (s : Step) :
    StepOk { r with fpath := x } s ↔ StepOk r s := by
  cases s with
  | continue_ p r' w' => rfl
  | return_ v r' w' => cases v <;> rfl
  | abort => rfl
  | ub => rfl

theorem recdirread_refines (n : Nat) (r : RECDIR) (w : World) (hI : Inv r w)
    (hne : r.frames ≠ []) (hw : stack_weight r.frames ≤ n) :
    ∃ v r' w', recdirread n r w = .done (v, r', w') ∧ StepOk r (.return_ v r' w') := by
  unfold recdirread
  cases hf : r.fpath with
  | none => exact loop_refines n none r w hI hne hw
  | some p =>
    obtain ⟨v, r', w', h1, h2⟩ := loop_refines n none { r with fpath := none }
      { w with frees := w.frees ++ [p.addr] } ⟨hI.1, hI.2.1, hI.2.2⟩ hne hw
    exact ⟨v, r', w', h1, (StepOk_fpath r none _).1 h2⟩

theorem drain_refines : ∀ (n : Nat) (r : RECDIR) (w : World),
    Inv r w → r.frames ≠ [] → stack_weight r.frames < n →
    ∃ r' w', drain n r w = .done (remaining r, r', w') ∧ r'.frames = [] ∧ r'.depth = 0 := by
  intro n
  induction n with
  | zero => intro r w _ _ hw; omega
  | succ n ih =>
    intro r w hI hne hw
    obtain ⟨v, r1, w1, hrun, hok⟩ := recdirread_refines (n + 1) r w hI hne (by omega)
    unfold drain
    rw [hrun]
    cases v with
    | none =>
      obtain ⟨a1, a2, a3, _⟩ := hok
      exact ⟨r1, w1, by simp [a1], a2, a3⟩
    | some p =>
      obtain ⟨a1, a2, _, a4, a5, _⟩ := hok
      obtain ⟨r2, w2, hd, hf, hz⟩ := ih r1 w1 a1 a2 (by omega)
      exact ⟨r2, w2, by simp [hd, a4], hf, hz⟩

theorem loop_general : ∀ (n : Nat) (path : Option CStr) (r : RECDIR) (w : World),
    GInv r w → r.frames ≠ [] → stack_weight r.frames ≤ n →
    (∃ v r' w', recdirread_loop n path r w = .done (v, r', w') ∧ StepG r w (.return_ v r' w')) ∨
    (recdirread_loop n path r w = .abort ∧ ¬ stack_opens_ok r.frames) := by
  intro n
  induction n with
  | zero =>
    intro path r w _ hne hw
    have := stack_weight_pos hne
    omega
  | succ n ih =>
    intro path r w hI hne hw
    have hb := body_general path r w hI hne
    unfold recdirread_loop
    cases hs : recdirread_body path r w with
    | continue_ p1 r1 w1 =>
      rw [hs] at hb
      obtain ⟨hI1, hne1, hp1, hw1, hop1, hh1, ho1⟩ := hb
      obtain ⟨q1, q2, q3, q4⟩ := hp1
      rcases ih p1 r1 w1 hI1 hne1 (by omega) with ⟨v, r', w', hrun, hok⟩ | ⟨hrun, hno⟩
      · refine Or.inl ⟨v, r', w', hrun, ?_⟩
        cases v with
        | none =>
          obtain ⟨a1, ⟨b1, b2, b3, b4⟩, a3, a4, a5, a6⟩ := hok
          exact ⟨a1, ⟨b1.trans q1, b2.trans q2, b3.trans q3, b4.trans q4⟩, a3, a4,
            fun h => a5 (hh1 h), fun h => (a6 (by omega)).trans (ho1 h)⟩
        | some p =>
          obtain ⟨a1, a2, ⟨b1, b2, b3, b4⟩, a4, a5, a6, a7, a8⟩ := hok
          exact ⟨a1, a2, ⟨b1.trans q1, b2.trans q2, b3.trans q3, b4.trans q4⟩, by omega,
            fun h => a5 (hop1 h), a6, fun h => a7 (hh1 h),
            fun h => (a8 (by omega)).trans (ho1 h)⟩
      · exact Or.inr ⟨hrun, fun h => hno (hop1 h)⟩
    | return_ v r1 w1 =>
      rw [hs] at hb
      exact Or.inl ⟨v, r1, w1, rfl, hb⟩
    | abort => rw [hs] at hb; exact Or.inr ⟨rfl, hb⟩
    | ub => rw [hs] at hb; exact hb.elim

theorem StepG_fpath (r : RECDIR) (w : World) (x : Option HeapStr) (fr : List Nat) (s : Step) :
    StepG { r with fpath := x } { w with frees := fr } s ↔ StepG r w s := by
  cases s with
  | continue_ p r' w' => rfl
  | return_ v r' w' => cases v <;> rfl
  | abort => rfl
  | ub => rfl

theorem recdirread_general (n : Nat) (r : RECDIR) (w : World) (hI : GInv r w)
    (hne : r.frames ≠ []) (hw : stack_weight r.frames ≤ n) :
    (∃ v r' w', recdirread n r w = .done (v, r', w') ∧ StepG r w (.return_ v r' w')) ∨
    (recdirread n r w = .abort ∧ ¬ stack_opens_ok r.frames) := by
  unfold recdirread
  cases hf : r.fpath with
  | none => exact loop_general n none r w hI hne hw
  | some p =>
    rcases loop_general n none { r with fpath := none }
      { w with frees := w.frees ++ [p.addr] } ⟨hI.1, hI.2⟩ hne hw with
      ⟨v, r', w', h1, h2⟩ | ⟨h1, h2⟩
    · exact Or.inl ⟨v, r', w', h1, (StepG_fpath r w none _ _).1 h2⟩
    · exact Or.inr ⟨h1, h2⟩

theorem drain_general : ∀ (n : Nat) (r : RECDIR) (w : World),
    GInv r w → r.frames ≠ [] → stack_weight r.frames < n →
    (∃ ps r' w', drain n r w = .done (ps, r', w') ∧ GInv r' w' ∧ same_params r r' ∧
      (r'.depth = 0 ∨ w'.errno = EBADF) ∧ (Handles r w → Handles r' w') ∧
      (r.maxdepth ≤ 1 → w'.opened = w.opened)) ∨
    (drain n r w = .abort ∧ ¬ stack_opens_ok r.frames) := by
  intro n
  induction n with
  | zero => intro r w _ _ hw; omega
  | succ n ih =>
    intro r w hI hne hw
    unfold drain
    rcases recdirread_general (n + 1) r w hI hne (by omega) with ⟨v, r1, w1, hrun, hok⟩ | ⟨hrun, hno⟩
    · rw [hrun]
      cases v with
      | none =>
        obtain ⟨a1, a2, a3, _, a5, a6⟩ := hok
        exact Or.inl ⟨[], r1, w1, rfl, a1, a2, a3, a5, a6⟩
      | some p =>
        obtain ⟨a1, a2, ⟨q1, q2, q3, q4⟩, a4, a5, _, a7, a8⟩ := hok
        rcases ih r1 w1 a1 a2 (by omega) with
          ⟨ps, r2, w2, hd, hg, ⟨b1, b2, b3, b4⟩, hz, hh, ho⟩ | ⟨hd, hno⟩
        · exact Or.inl ⟨p :: ps, r2, w2, by simp [hd], hg,
            ⟨b1.trans q1, b2.trans q2, b3.trans q3, b4.trans q4⟩, hz, fun h => hh (a7 h),
            fun h => (ho (by omega)).trans (a8 h)⟩
        · exact Or.inr ⟨by simp [hd], fun h => hno (a5 h)⟩
    · rw [hrun]
      exact Or.inr ⟨rfl, hno⟩

/-! ## `recdiropen` and the walk from the root -/

theorem recdiropen_some {path : CStr} {root : FsNode} {ex : Option (CStr → Bool)} {mx mn : Nat}
    {v : Verbose} {w : World} {r : RECDIR} {w1 : World}
    (h : recdiropen path root ex mx mn v w = (some r, w1)) :
    path ≠ [] ∧ root.attr.open_ok = true ∧ r = opened_state path root ex mx mn v w ∧
      w1 = opened_world path v w := by
  by_cases hp : path = []
  · simp [recdiropen, recdirpush, opendir, hp] at h
  by_cases ho : root.attr.open_ok = true
  · refine ⟨hp, ho, ?_⟩
    unfold recdiropen at h
    rw [recdirpush_eq _ _ _ _ hp ho] at h
    simp only [Prod.mk.injEq, Option.some.injEq] at h
    obtain ⟨h1, h2⟩ := h
    subst h1; subst h2
    cases hs : v.stack <;> cases hh : v.hash <;>
      simp [opened_state, opened_world, RECDIR_LOG, RECDIR.zero, push_sz, hs, hh, FRAMES_REALLOC_SIZE]
  · simp [recdiropen, recdirpush, opendir, hp, ho] at h

theorem benign_no_fatal {s : DirStream} (h : benign s = true) : no_fatal s = true := by
  induction s with
  | eos => rfl
  | fail e => simp [benign] at h
  | ent d a sub rest ih1 ih2 =>
    simp only [benign, Bool.and_eq_true] at h
    simp only [no_fatal, Bool.and_eq_true, Bool.or_eq_true]
    exact ⟨Or.inr ⟨⟨h.1.1.1.2, h.1.1.2⟩, ih1 h.1.2⟩, ih2 h.2⟩

theorem listing_eq_walk_spec (ex : Option (CStr → Bool)) (mx mn : Nat) (s : DirStream) :
    benign s = true → ∀ (dir : CStr) (depth : Nat),
      listing ex mx mn s dir depth = walk_spec ex mx mn s dir depth := by
  induction s with
  | eos => intros; rfl
  | fail e => intro h; simp [benign] at h
  | ent d a sub rest ih1 ih2 =>
    intro h dir depth
    simp only [benign, Bool.and_eq_true] at h
    unfold listing walk_spec
    rw [ih2 h.2, ih1 h.1.2]
    simp [h.1.1.1.1]

theorem opened_refines (path : CStr) (root : FsNode) (ex : Option (CStr → Bool)) (mx mn : Nat)
    (v : Verbose) (w : World) (r : RECDIR) (w1 : World)
    (hopen : recdiropen path root ex mx mn v w = (some r, w1))
    (herr : w.errno = 0) (hclose : root.attr.close_ok = true) (hnf : no_fatal root.sub = true)
    (n : Nat) (hn : weight root.sub + 1 < n) :
    ∃ r' w', drain n r w1 = .done (listing ex mx mn root.sub path 1, r', w') ∧
      r'.frames = [] ∧ r'.depth = 0 := by
  obtain ⟨_, _, hr, hw⟩ := recdiropen_some hopen
  subst hr; subst hw
  have hI : Inv (opened_state path root ex mx mn v w) (opened_world path v w) := by
    refine ⟨rfl, herr, ?_⟩
    intro f hf
    simp only [opened_state, List.mem_singleton] at hf
    subst hf
    exact ⟨hclose, hnf⟩
  obtain ⟨r', w', h1, h2, h3⟩ := drain_refines n _ _ hI (by simp [opened_state])
    (by simpa [opened_state, stack_weight] using by omega)
  refine ⟨r', w', ?_, h2, h3⟩
  rw [h1]
  simp [remaining, opened_state, stack_listing]

theorem all_files_depth (ex : Option (CStr → Bool)) (s : DirStream) :
    ∀ (dir : CStr) (depth : Nat) (p : CStr) (k : Nat),
      (p, k) ∈ all_files ex s dir depth → depth ≤ k := by
  induction s with
  | eos => intro dir depth p k h; simp [all_files] at h
  | fail e => intro dir depth p k h; simp [all_files] at h
  | ent d a sub rest ih1 ih2 =>
    intro dir depth p k h
    unfold all_files at h
    rcases List.mem_append.1 h with h | h
    · by_cases hdot : is_dot d.d_name = true
      · simp [hdot] at h
      · simp only [hdot] at h
        cases hty : d.d_type with
        | DT_DIR =>
          simp only [hty] at h
          by_cases hex : excluded ex (makepath dir d.d_name) = true
          · simp [hex] at h
          · simp only [hex] at h
            have := ih1 _ _ _ _ h
            omega
        | DT_REG =>
          simp only [hty] at h
          simp at h
          omega
        | DT_OTHER => simp [hty] at h
    · exact ih2 _ _ _ _ h

theorem or_exists_split {A : Prop} {P R Q : Nat → Prop} (h : A ↔ ∃ k, P k ∧ Q k) :
    (A ∨ ∃ k, R k ∧ Q k) ↔ ∃ k, (P k ∨ R k) ∧ Q k := by
  rw [h]
  constructor
  · rintro (⟨k, h1, h2⟩ | ⟨k, h1, h2⟩)
    · exact ⟨k, Or.inl h1, h2⟩
    · exact ⟨k, Or.inr h1, h2⟩
  · rintro ⟨k, h1 | h1, h2⟩
    · exact Or.inl ⟨k, h1, h2⟩
    · exact Or.inr ⟨k, h1, h2⟩

theorem mem_walk_spec_iff (ex : Option (CStr → Bool)) (mx mn : Nat) (s : DirStream) :
    ∀ (dir : CStr) (depth : Nat) (p : CStr),
      p ∈ walk_spec ex mx mn s dir depth ↔
        ∃ k, (p, k) ∈ all_files ex s dir depth ∧ mn ≤ k ∧ (k ≤ mx ∨ k = depth) := by
  induction s with
  | eos => intro dir depth p; simp [walk_spec, all_files]
  | fail e => intro dir depth p; simp [walk_spec, all_files]
  | ent d a sub rest ih1 ih2 =>
    intro dir depth p
    unfold walk_spec all_files
    simp only [List.mem_append, ih2]
    apply or_exists_split
    by_cases hdot : is_dot d.d_name = true
    · simp [hdot]
    · simp only [hdot, if_false, Bool.false_eq_true]
      cases hty : d.d_type with
      | DT_DIR =>
        simp only []
        by_cases hex : excluded ex (makepath dir d.d_name) = true
        · simp [hex]
        · simp only [hex, if_false]
          simp only [Bool.not_eq_true] at hex
          simp only [hex, and_true]
          by_cases hlt : depth < mx
          · simp only [hlt, if_true, ih1]
            constructor
            · rintro ⟨k, h1, h2, h3⟩
              exact ⟨k, h1, h2, Or.inl (by omega)⟩
            · rintro ⟨k, h1, h2, h3⟩
              have := all_files_depth ex sub _ _ _ _ h1
              exact ⟨k, h1, h2, Or.inl (by omega)⟩
          · simp only [hlt, if_false, List.not_mem_nil, false_iff, not_exists, not_and]
            intro k h1 h2 h3
            have := all_files_depth ex sub _ _ _ _ h1
            omega
      | DT_REG =>
        simp only []
        by_cases hge : depth ≥ mn
        · simp only [hge, if_true, List.mem_singleton]
          constructor
          · intro h; exact ⟨depth, by simp [h], hge, Or.inr rfl⟩
          · rintro ⟨k, h1, _⟩
            simp at h1
            exact h1.1
        · simp only [hge, if_false, List.not_mem_nil, false_iff, not_exists, not_and]
          intro k h1 h2
          simp at h1
          omega
      | DT_OTHER => simp

theorem mem_eligible_closed_iff (ex : Option (CStr → Bool)) (mx mn : Nat) (s : DirStream)
    (dir : CStr) (p : CStr) :
    p ∈ eligible_closed ex mx mn s dir ↔ p ∈ walk_spec ex mx mn s dir 1 := by
  rw [mem_walk_spec_iff]
  simp only [eligible_closed, List.mem_map, List.mem_filter, decide_eq_true_eq, Prod.exists,
    exists_and_right, exists_eq_right]
  constructor
  · rintro ⟨k, h1, h2, h3⟩
    exact ⟨k, h1, h2, by omega⟩
  · rintro ⟨k, h1, h2, h3⟩
    have := all_files_depth ex s _ _ _ _ h1
    exact ⟨k, h1, h2, by omega⟩

/-! ## Joined paths -/

theorem makepath_eq_base (dir name : CStr) : makepath dir name = base dir ++ name := by
  unfold makepath base
  split <;> simp

theorem valid_name_iff (n : CStr) : valid_name n = true ↔ n ≠ [] ∧ '/' ∉ n := by
  simp [valid_name]

theorem base_makepath (dir name : CStr) (hv : valid_name name = true) :
    base (makepath dir name) = base dir ++ name ++ ['/'] := by
  obtain ⟨hne, hs⟩ := (valid_name_iff name).1 hv
  have hlast : (makepath dir name).getLast? ≠ some '/' := by
    rw [makepath_eq_base]
    rw [List.getLast?_append_of_ne_nil _ hne]
    intro h
    have := List.mem_of_getLast?_eq_some h
    exact hs this
  conv_lhs => unfold base
  simp only [hlast, ne_eq, not_false_eq_true, if_true]
  rw [makepath_eq_base]

theorem split_at_separator : ∀ (n n' x x' : CStr), '/' ∉ n → '/' ∉ n' → tail_like x → tail_like x' →
    n ++ x = n' ++ x' → n = n' := by
  intro n
  induction n with
  | nil =>
    intro n' x x' _ hn' hx _ h
    cases n' with
    | nil => rfl
    | cons c t =>
      rcases hx with hx | ⟨y, hx⟩
      · subst hx; simp at h
      · subst hx
        simp at h
        simp [← h.1] at hn'
  | cons c t ih =>
    intro n' x x' hn hn' hx hx' h
    cases n' with
    | nil =>
      rcases hx' with hx' | ⟨y, hx'⟩
      · subst hx'; simp at h
      · subst hx'
        simp at h
        simp [h.1] at hn
    | cons c' t' =>
      simp at h
      simp only [List.mem_cons, not_or] at hn hn'
      rw [h.1, ih t' x x' hn.2 hn'.2 hx hx' h.2]

theorem shaped_rest {d : dirent} {a : OsAttr} {sub rest : DirStream} {dir p : CStr}
    (h : Shaped rest dir p) : Shaped (.ent d a sub rest) dir p := by
  obtain ⟨n, hn, hv, x, hp, hx⟩ := h
  refine ⟨n, ?_, hv, x, hp, hx⟩
  unfold names
  split
  · exact hn
  · exact List.mem_cons_of_mem _ hn

theorem shaped_below {d : dirent} {a : OsAttr} {sub rest : DirStream} {dir p : CStr}
    (hdot : is_dot d.d_name = false) (hv : valid_name d.d_name = true)
    (h : Shaped sub (makepath dir d.d_name) p) : Shaped (.ent d a sub rest) dir p := by
  obtain ⟨n, _, _, x, hp, _⟩ := h
  refine ⟨d.d_name, by simp [names, hdot], hv, '/' :: (n ++ x), ?_, Or.inr ⟨_, rfl⟩⟩
  rw [hp, base_makepath _ _ hv]
  simp

theorem shaped_here {d : dirent} {a : OsAttr} {sub rest : DirStream} {dir : CStr}
    (hdot : is_dot d.d_name = false) (hv : valid_name d.d_name = true) :
    Shaped (.ent d a sub rest) dir (makepath dir d.d_name) :=
  ⟨d.d_name, by simp [names, hdot], hv, [], by simp [makepath_eq_base], Or.inl rfl⟩

theorem well_formed_ent {d : dirent} {a : OsAttr} {sub rest : DirStream}
    (h : well_formed (.ent d a sub rest) = true) :
    well_formed rest = true ∧ (is_dot d.d_name = false →
      valid_name d.d_name = true ∧ d.d_name ∉ names rest ∧ well_formed sub = true) := by
  simp only [well_formed, Bool.and_eq_true, Bool.or_eq_true, Bool.not_eq_true',
    List.contains_eq_any_beq, List.any_eq_false, beq_iff_eq] at h
  refine ⟨h.2, fun hdot => ?_⟩
  rcases h.1 with h1 | h1
  · rw [hdot] at h1; exact absurd h1 (by simp)
  · refine ⟨h1.1.1, ?_, h1.2⟩
    intro hm
    exact h1.1.2 _ hm rfl

theorem shaped_walk_spec (ex : Option (CStr → Bool)) (mx mn : Nat) (s : DirStream) :
    well_formed s = true → ∀ (dir : CStr) (depth : Nat) (p : CStr),
      p ∈ walk_spec ex mx mn s dir depth → Shaped s dir p := by
  induction s with
  | eos => intro _ dir depth p h; simp [walk_spec] at h
  | fail e => intro _ dir depth p h; simp [walk_spec] at h
  | ent d a sub rest ih1 ih2 =>
    intro hwf dir depth p h
    obtain ⟨hwr, hwd⟩ := well_formed_ent hwf
    unfold walk_spec at h
    rcases List.mem_append.1 h with h | h
    · by_cases hdot : is_dot d.d_name = true
      · simp [hdot] at h
      · simp only [hdot, if_false, Bool.false_eq_true] at h
        simp only [Bool.not_eq_true] at hdot
        obtain ⟨hv, _, hws⟩ := hwd hdot
        cases hty : d.d_type with
        | DT_DIR =>
          simp only [hty] at h
          split_ifs at h
          · exact shaped_below hdot hv (ih1 hws _ _ _ h)
          · simp at h
        | DT_REG =>
          simp only [hty] at h
          split_ifs at h
          · simp only [List.mem_singleton] at h
            subst h
            exact shaped_here hdot hv
          · simp at h
        | DT_OTHER => simp [hty] at h
    · exact shaped_rest (ih2 hwr _ _ _ h)

theorem shaped_dir_paths (s : DirStream) :
    well_formed s = true → ∀ (dir : CStr) (q : CStr), q ∈ dir_paths s dir → Shaped s dir q := by
  induction s with
  | eos => intro _ dir q h; simp [dir_paths] at h
  | fail e => intro _ dir q h; simp [dir_paths] at h
  | ent d a sub rest ih1 ih2 =>
    intro hwf dir q h
    obtain ⟨hwr, hwd⟩ := well_formed_ent hwf
    unfold dir_paths at h
    rcases List.mem_append.1 h with h | h
    · by_cases hdot : is_dot d.d_name = true
      · simp [hdot] at h
      · simp only [hdot, if_false, Bool.false_eq_true] at h
        simp only [Bool.not_eq_true] at hdot
        obtain ⟨hv, _, hws⟩ := hwd hdot
        cases hty : d.d_type with
        | DT_DIR =>
          simp only [hty, List.mem_cons] at h
          rcases h with h | h
          · subst h; exact shaped_here hdot hv
          · exact shaped_below hdot hv (ih1 hws _ _ h)
        | DT_REG => simp [hty] at h
        | DT_OTHER => simp [hty] at h
    · exact shaped_rest (ih2 hwr _ _ h)

/-- Two paths below differently named entries of one directory differ, and
neither lies beneath the other. -/
theorem shaped_name_eq (dir n n' x x' t : CStr) (hv : valid_name n = true)
    (hv' : valid_name n' = true) (hx : tail_like x) (hx' : tail_like x')
    (h : base dir ++ n ++ x ++ t = base dir ++ n' ++ x') (ht : t = [] ∨ ∃ y, t = '/' :: y) :
    n = n' := by
  have h2 : n ++ (x ++ t) = n' ++ x' := by
    have : base dir ++ (n ++ (x ++ t)) = base dir ++ (n' ++ x') := by
      simpa [List.append_assoc] using h
    exact List.append_cancel_left this
  refine split_at_separator n n' (x ++ t) x' ((valid_name_iff n).1 hv).2 ((valid_name_iff n').1 hv').2
    ?_ hx' h2
  rcases hx with hx | ⟨y, hx⟩
  · subst hx; simpa [tail_like] using ht
  · subst hx; exact Or.inr ⟨y ++ t, rfl⟩

theorem height_pos (s : DirStream) : 1 ≤ height s := by
  induction s with
  | eos => simp [height]
  | fail e => simp [height]
  | ent d a sub rest _ ih => simp only [height]; exact le_trans ih (le_max_right _ _)

theorem opened_state_ginv (path : CStr) (root : FsNode) (ex : Option (CStr → Bool)) (mx mn : Nat)
    (v : Verbose) (w : World) :
    GInv (opened_state path root ex mx mn v w) (opened_world path v w) ∧
      (opened_state path root ex mx mn v w).frames ≠ [] := by
  refine ⟨⟨rfl, ?_⟩, by simp [opened_state]⟩
  show 1 ≤ max mx 1
  omega

theorem opened_state_handles (path : CStr) (root : FsNode) (ex : Option (CStr → Bool)) (mx mn : Nat)
    (v : Verbose) (w : World) (h0 : w.opened = 0) (hc : w.closed = []) :
    Handles (opened_state path root ex mx mn v w) (opened_world path v w) := by
  cases hs : v.stack <;>
    simp [Handles, opened_state, opened_world, frame_ids, h0, hc, hs, List.range_succ]

theorem reachable_inv {r : RECDIR} {w : World} (h : Reachable r w) :
    GInv r w ∧ r.frames ≠ [] ∧ Handles r w := by
  induction h with
  | opened path root ex mx mn v w r w1 h0 hc hopen =>
    obtain ⟨_, _, hr, hw⟩ := recdiropen_some hopen
    subst hr; subst hw
    exact ⟨(opened_state_ginv ..).1, (opened_state_ginv ..).2, opened_state_handles _ _ _ _ _ _ _ h0 hc⟩
  | pass path path1 r r1 w w1 _ hb ih =>
    have := body_general path r w ih.1 ih.2.1
    rw [hb] at this
    exact ⟨this.1, this.2.1, this.2.2.2.2.2.1 ih.2.2⟩
  | yield path p r r1 w w1 _ hb ih =>
    have := body_general path r w ih.1 ih.2.1
    rw [hb] at this
    exact ⟨this.1, this.2.1, this.2.2.2.2.2.2.1 ih.2.2⟩
  | call p r w _ _ ih => exact ⟨⟨ih.1.1, ih.1.2⟩, ih.2.1, ih.2.2⟩

/-- Termination apart from the assertion.  For every directory tree and
every choice of `mindepth`, `maxdepth` and exclusion pattern, whatever
`errno` holds at entry and whichever entries are unreadable, `recdirread`
called until it returns `NULL` never runs out of fuel: it ends in finitely
many calls of finitely many passes each, or the process is aborted by the
`assert` after a failed `opendir`.  When no `opendir` fails, every call
returns and the last one returns `NULL`. -/
theorem walker_terminates (path : CStr) (root : FsNode)
    (exclude_reg : Option (CStr → Bool)) (maxdepth mindepth : Nat) (verbose : Verbose)
    (w : World) (r : RECDIR) (w1 : World)
    (hopen : recdiropen path root exclude_reg maxdepth mindepth verbose w = (some r, w1)) :
    (∃ N, ∀ n, N ≤ n →
      ((∃ ps r' w', drain n r w1 = .done (ps, r', w')) ∨ drain n r w1 = .abort) ∧
      (opens_ok root.sub = true → ∃ ps r' w', drain n r w1 = .done (ps, r', w'))) ∧
    (∀ r0 w0, Reachable r0 w0 → ∀ n, stack_weight r0.frames ≤ n →
      (∃ v r' w', recdirread n r0 w0 = .done (v, r', w')) ∨ recdirread n r0 w0 = .abort) := by
  refine ⟨?_, fun r0 w0 hr n hn => ?_⟩
  swap
  · obtain ⟨hg, hne, _⟩ := reachable_inv hr
    rcases recdirread_general n r0 w0 hg hne hn with ⟨v, r', w', h, _⟩ | ⟨h, _⟩
    · exact Or.inl ⟨v, r', w', h⟩
    · exact Or.inr h
  obtain ⟨_, _, hr, hw⟩ := recdiropen_some hopen
  subst hr; subst hw
  refine ⟨weight root.sub + 2, fun n hn => ?_⟩
  have hI := opened_state_ginv path root exclude_reg maxdepth mindepth verbose w
  have hwt : stack_weight (opened_state path root exclude_reg maxdepth mindepth verbose w).frames < n := by
    simp only [opened_state, stack_weight]; omega
  rcases drain_general n _ _ hI.1 hI.2 hwt with ⟨ps, r', w', hd, _⟩ | ⟨hd, hno⟩
  · exact ⟨Or.inl ⟨ps, r', w', hd⟩, fun _ => ⟨ps, r', w', hd⟩⟩
  · refine ⟨Or.inr hd, fun hop => absurd ?_ hno⟩
    intro f hf
    simp only [opened_state, List.mem_singleton] at hf
    subst hf
    exact hop

/-! ## Passes at `depth ≥ maxdepth` -/

theorem pop_no_push (path : Option CStr) (r r1 : RECDIR) (w w1 : World) (top1 : RECDIR_FRAME)
    (below : List RECDIR_FRAME) (hfr : r1.frames = top1 :: below) (hd : r1.depth = r.depth)
    (hd0 : r.depth ≠ 0) (ho : w1.opened = w.opened) :
    no_push_after r w (pop_or_return path r1 w1) := by
  unfold pop_or_return
  rw [recdirpop_eq r1 w1 top1 below hfr (by omega)]
  simp only [closedir]
  split_ifs <;> exact ⟨by show r1.depth - 1 ≤ r.depth; omega, ho⟩

theorem body_no_push (path : Option CStr) (r : RECDIR) (w : World) (hI : GInv r w)
    (hne : r.frames ≠ []) (hmax : r.maxdepth ≤ r.depth) :
    no_push_after r w (recdirread_body path r w) := by
  obtain ⟨hd, _⟩ := hI
  obtain ⟨frames, ex, fmt, fsz, mx, mn, depth, fpath⟩ := r
  cases frames with
  | nil => exact absurd rfl hne
  | cons top below =>
    simp only [List.length_cons] at hd
    subst hd
    have hpop : ∀ (s1 : DirStream) (w1 : World), w1.opened = w.opened →
        no_push_after ⟨top :: below, ex, fmt, fsz, mx, mn, below.length + 1, fpath⟩ w
          (pop_or_return path
            ⟨⟨top.path, ⟨top.dir.id, s1, top.dir.close_ok⟩⟩ :: below, ex, fmt, fsz, mx, mn,
              below.length + 1, fpath⟩ w1) :=
      fun s1 w1 ho => pop_no_push path _ _ w w1 _ below rfl rfl (by simp) ho
    unfold recdirread_body
    simp only [recdirtop, Nat.add_one_ne_zero, if_false, List.head?_cons, readdir_loop_eq,
      List.tail_cons]
    cases hs : skip_dots top.dir.stream with
    | eos =>
      simp only []
      split_ifs
      · exact hpop _ _ rfl
      · exact hpop _ _ (by simp [RECDIR_LOG_opened])
    | fail e1 =>
      simp only []
      split_ifs
      · exact hpop _ _ rfl
      · exact hpop _ _ (by simp [RECDIR_LOG_opened])
    | ent d a sub rest =>
      simp only []
      split_ifs
      · exact hpop _ _ rfl
      · exact ⟨le_refl _, rfl⟩
      · unfold recdirread_switch
        have hmax' : mx ≤ below.length + 1 := hmax
        cases hty : d.d_type with
        | DT_DIR =>
          simp only [hmax', if_true]
          exact ⟨le_refl _, rfl⟩
        | DT_REG =>
          simp only []
          split_ifs
          · exact ⟨le_refl _, rfl⟩
          · exact ⟨le_refl _, rfl⟩
        | DT_OTHER => exact ⟨le_refl _, by simp [RECDIR_LOG_opened]⟩

theorem walk_spec_maxdepth_one (ex : Option (CStr → Bool)) (mn : Nat) (s : DirStream) (dir : CStr)
    (hmn : mn ≤ 1) : walk_spec ex 1 mn s dir 1 = files_here s dir := by
  induction s with
  | eos => rfl
  | fail e => rfl
  | ent d a sub rest _ ih =>
    unfold walk_spec files_here
    rw [ih]
    congr 1
    split
    · rfl
    · cases hty : d.d_type <;> simp [hmn]

/-! ## Excluded directories -/

theorem not_beneath_excluded (ex : Option (CStr → Bool)) (mx mn : Nat) (s : DirStream) :
    well_formed s = true → ∀ (dir : CStr) (depth : Nat) (q p : CStr),
      q ∈ dir_paths s dir → excluded ex q = true → p ∈ walk_spec ex mx mn s dir depth →
      ¬ (q ++ ['/']) <+: p := by
  induction s with
  | eos => intro _ dir depth q p hq; simp [dir_paths] at hq
  | fail e => intro _ dir depth q p hq; simp [dir_paths] at hq
  | ent d a sub rest ih1 ih2 =>
    intro hwf dir depth q p hq hex hp
    obtain ⟨hwr, hwd⟩ := well_formed_ent hwf
    have hwf1 : well_formed (.ent d a sub .eos) = true := by
      simp only [well_formed, Bool.and_eq_true, Bool.or_eq_true] at hwf ⊢
      refine ⟨?_, trivial⟩
      rcases hwf.1 with h | h
      · exact Or.inl h
      · exact Or.inr (by simpa [names] using ⟨h.1.1, h.2⟩)
    -- the part of each list that comes from the first entry
    have hq' : q ∈ dir_paths (.ent d a sub .eos) dir ∨ q ∈ dir_paths rest dir := by
      unfold dir_paths at hq
      rcases List.mem_append.1 hq with h | h
      · left; unfold dir_paths; simpa [dir_paths] using h
      · exact Or.inr h
    have hp' : p ∈ walk_spec ex mx mn (.ent d a sub .eos) dir depth ∨
        p ∈ walk_spec ex mx mn rest dir depth := by
      unfold walk_spec at hp
      rcases List.mem_append.1 hp with h | h
      · left; unfold walk_spec; simpa [walk_spec] using h
      · exact Or.inr h
    have hcross : ∀ (s1 s2 : DirStream) (q p : CStr), Shaped s1 dir q → Shaped s2 dir p →
        (∀ n, n ∈ names s1 → n ∈ names s2 → False) → ¬ (q ++ ['/']) <+: p := by
      intro s1 s2 q p hsq hsp hdis hpre
      obtain ⟨t, ht⟩ := hpre
      obtain ⟨n, hn, hvn, x, hqx, hx⟩ := hsq
      obtain ⟨n', hn', hvn', x', hpx', hx'⟩ := hsp
      have := shaped_name_eq dir n n' x x' ('/' :: t) hvn hvn' hx hx'
        (by rw [← hqx, ← hpx', ← ht]; simp) (Or.inr ⟨t, rfl⟩)
      subst this
      exact hdis n hn hn'
    have hnames1 : ∀ n, n ∈ names (.ent d a sub .eos) → is_dot d.d_name = false ∧ n = d.d_name := by
      intro n hn
      by_cases hdot : is_dot d.d_name = true
      · simp [names, hdot] at hn
      · simp only [Bool.not_eq_true] at hdot
        simp only [names, hdot, Bool.false_eq_true, if_false, List.mem_singleton] at hn
        exact ⟨hdot, hn⟩
    rcases hq' with hq1 | hq2
    · rcases hp' with hp1 | hp2
      · -- both below the first entry
        by_cases hdot : is_dot d.d_name = true
        · simp [dir_paths, hdot] at hq1
        · simp only [Bool.not_eq_true] at hdot
          obtain ⟨hv, _, hws⟩ := hwd hdot
          cases hty : d.d_type with
          | DT_DIR =>
            simp only [walk_spec, hdot, hty, Bool.false_eq_true, if_false, List.append_nil] at hp1
            simp only [dir_paths, hdot, hty, Bool.false_eq_true, if_false, List.append_nil,
              List.mem_cons] at hq1
            split_ifs at hp1 with hdesc
            · rcases hq1 with h | h
              · subst h
                rw [hdesc.2] at hex
                exact absurd hex (by simp)
              · exact ih1 hws _ _ q p h hex hp1
            · simp at hp1
          | DT_REG => simp [dir_paths, hdot, hty] at hq1
          | DT_OTHER => simp [dir_paths, hdot, hty] at hq1
      · refine hcross _ _ q p (shaped_dir_paths _ hwf1 dir q hq1)
          (shaped_walk_spec ex mx mn rest hwr dir depth p hp2) ?_
        intro n hn hn2
        obtain ⟨hdot, hnd⟩ := hnames1 n hn
        subst hnd
        exact (hwd hdot).2.1 hn2
    · rcases hp' with hp1 | hp2
      · refine hcross _ _ q p (shaped_dir_paths _ hwr dir q hq2)
          (shaped_walk_spec ex mx mn _ hwf1 dir depth p hp1) ?_
        intro n hn2 hn
        obtain ⟨hdot, hnd⟩ := hnames1 n hn
        subst hnd
        exact (hwd hdot).2.1 hn2
      · exact ih2 hwr dir depth q p hq2 hex hp2


theorem excluded_dir_step (path : Option CStr) (r : RECDIR) (w : World) (top : RECDIR_FRAME)
    (d : dirent) (node : FsNode) (s1 : DirStream)
    (htop : recdirtop r = some top) (herr : w.errno = 0)
    (hread : readdir_loop top.dir.stream w.errno = (some (d, node), s1, w.errno))
    (hacc : node.attr.access_ok = true) (hty : d.d_type = .DT_DIR)
    (hex : excluded r.exclude_reg (makepath top.path d.d_name) = true) :
    ∃ p1 r1 w1, recdirread_body path r w = .continue_ p1 r1 w1 ∧
      r1.depth = r.depth ∧ r1.frames.length = r.frames.length ∧ w1.opened = w.opened ∧
      (r.maxdepth ≤ r.depth → w1.out = w.out) ∧
      (r.depth < r.maxdepth → ∀ width, r.fmt = some width →
        w1.out = w.out ++ [printf_fmt width "EXCLUDE".toList (makepath top.path d.d_name)]) ∧
      (r.depth < r.maxdepth → r.fmt = none → w1.out = w.out) := by
  have hlen : (r.frames.tail).length + 1 = r.frames.length := by
    unfold recdirtop at htop
    split_ifs at htop
    cases hf : r.frames with
    | nil => simp [hf] at htop
    | cons a b => simp
  rw [herr] at hread
  unfold recdirread_body
  simp only [htop, herr, hread, ne_eq, not_true_eq_false, if_false, hacc, Bool.true_eq_false]
  unfold recdirread_switch
  simp only [hty]
  by_cases hmx : r.maxdepth ≤ r.depth
  · simp only [hmx, if_true]
    refine ⟨_, _, _, rfl, rfl, by simpa using hlen, rfl, fun _ => ?_, fun h => ?_, fun h => ?_⟩
    · simp [← herr]
    · omega
    · omega
  · simp only [hmx, if_false, hex, if_true]
    refine ⟨_, _, _, rfl, rfl, by simpa using hlen, by simp [RECDIR_LOG_opened],
      fun h => absurd h (by simp), fun _ width hw => ?_, fun _ hn => ?_⟩
    · simp [RECDIR_LOG, hw, ← herr]
    · simp [RECDIR_LOG, hn, ← herr]

theorem mem_dropLast_cons {f g : RECDIR_FRAME} {l : List RECDIR_FRAME}
    (h : f ∈ (g :: l).dropLast) : f = g ∨ f ∈ l.dropLast := by
  cases l with
  | nil => simp at h
  | cons a b =>
    simp only [List.dropLast_cons₂, List.mem_cons] at h
    rcases h with h | h
    · exact Or.inl h
    · exact Or.inr h

theorem mem_dropLast_of_tail {f g : RECDIR_FRAME} {l : List RECDIR_FRAME}
    (h : f ∈ l.dropLast) : f ∈ (g :: l).dropLast := by
  cases l with
  | nil => simp at h
  | cons a b =>
    simp only [List.dropLast_cons₂, List.mem_cons]
    exact Or.inr h

theorem head_mem_dropLast {g : RECDIR_FRAME} {l : List RECDIR_FRAME} (hl : l ≠ []) :
    g ∈ (g :: l).dropLast := by
  cases l with
  | nil => exact absurd rfl hl
  | cons a b => simp

theorem pop_keeps_no_excluded (path : Option CStr) (r r1 : RECDIR) (w1 : World)
    (top top1 : RECDIR_FRAME) (below : List RECDIR_FRAME) (hr : r.frames = top :: below)
    (hfr : r1.frames = top1 :: below) (hd : r1.depth ≠ 0) (hex : r1.exclude_reg = r.exclude_reg) :
    keeps_no_excluded r (pop_or_return path r1 w1) := by
  unfold pop_or_return
  rw [recdirpop_eq r1 w1 top1 below hfr hd]
  have key : no_excluded_frame r → ∀ f, f ∈ below.dropLast → excluded r1.exclude_reg f.path = false := by
    intro h f hf
    rw [hex]
    exact h f (by rw [hr]; exact mem_dropLast_of_tail hf)
  simp only []
  split_ifs <;> exact key

theorem body_keeps_no_excluded (path : Option CStr) (r : RECDIR) (w : World) (hI : GInv r w)
    (hne : r.frames ≠ []) : keeps_no_excluded r (recdirread_body path r w) := by
  obtain ⟨hd, _⟩ := hI
  obtain ⟨frames, ex, fmt, fsz, mx, mn, depth, fpath⟩ := r
  cases frames with
  | nil => exact absurd rfl hne
  | cons top below =>
    simp only [List.length_cons] at hd
    subst hd
    have hpop : ∀ (s1 : DirStream) (w1 : World),
        keeps_no_excluded ⟨top :: below, ex, fmt, fsz, mx, mn, below.length + 1, fpath⟩
          (pop_or_return path
            ⟨⟨top.path, ⟨top.dir.id, s1, top.dir.close_ok⟩⟩ :: below, ex, fmt, fsz, mx, mn,
              below.length + 1, fpath⟩ w1) :=
      fun s1 w1 => pop_keeps_no_excluded path _ _ w1 top _ below rfl rfl (by simp) rfl
    have hupd : ∀ (s1 : DirStream),
        no_excluded_frame ⟨top :: below, ex, fmt, fsz, mx, mn, below.length + 1, fpath⟩ →
        ∀ f, f ∈ ((⟨top.path, ⟨top.dir.id, s1, top.dir.close_ok⟩⟩ : RECDIR_FRAME) :: below).dropLast →
          excluded ex f.path = false := by
      intro s1 h f hf
      rcases mem_dropLast_cons hf with h1 | h1
      · subst h1
        have hb : below ≠ [] := by
          intro hb; subst hb; simp at hf
        exact h top (head_mem_dropLast hb)
      · exact h f (mem_dropLast_of_tail h1)
    unfold recdirread_body
    simp only [recdirtop, Nat.add_one_ne_zero, if_false, List.head?_cons, readdir_loop_eq,
      List.tail_cons]
    cases hs : skip_dots top.dir.stream with
    | eos =>
      simp only []
      split_ifs
      · exact hpop _ _
      · exact hpop _ _
    | fail e1 =>
      simp only []
      split_ifs
      · exact hpop _ _
      · exact hpop _ _
    | ent d a sub rest =>
      simp only []
      split_ifs
      · exact hpop _ _
      · exact hupd _
      · unfold recdirread_switch
        cases hty : d.d_type with
        | DT_DIR =>
          simp only []
          split_ifs with h1 h2
          · exact hupd _
          · exact hupd _
          · by_cases hopen : a.open_ok = true
            · rw [recdirpush_eq _ _ _ ⟨a, sub⟩ (makepath_ne_nil _ _) hopen]
              simp only [recdirtop, Nat.add_one_ne_zero, if_false, List.head?_cons]
              intro h f hf
              rcases mem_dropLast_cons hf with h3 | h3
              · subst h3
                simpa using h2
              · exact hupd _ h f h3
            · have : recdirpush ⟨⟨top.path, ⟨top.dir.id, rest, top.dir.close_ok⟩⟩ :: below, ex,
                  fmt, fsz, mx, mn, below.length + 1, fpath⟩ (makepath top.path d.d_name)
                  ⟨a, sub⟩ ⟨w.errno, w.out, w.err, w.opened, w.closed, w.mallocs, w.frees⟩ =
                  (1, ⟨⟨top.path, ⟨top.dir.id, rest, top.dir.close_ok⟩⟩ :: below, ex,
                  fmt, fsz, mx, mn, below.length + 1, fpath⟩,
                  ⟨EMFILE, w.out, w.err, w.opened, w.closed, w.mallocs, w.frees⟩) := by
                simp [recdirpush, opendir, makepath_ne_nil, hopen]
              rw [this]
              trivial
        | DT_REG =>
          simp only []
          split_ifs
          · exact hupd _
          · exact hupd _
        | DT_OTHER => exact hupd _

theorem reachable_no_excluded {r : RECDIR} {w : World} (h : Reachable r w) :
    no_excluded_frame r := by
  induction h with
  | opened path root ex mx mn v w r w1 h0 hc hopen =>
    obtain ⟨_, _, hr, _⟩ := recdiropen_some hopen
    subst hr
    intro f hf
    simp [opened_state] at hf
  | pass path path1 r r1 w w1 hr hb ih =>
    obtain ⟨hg, hne, _⟩ := reachable_inv hr
    have := body_keeps_no_excluded path r w hg hne
    rw [hb] at this
    exact this ih
  | yield path p r r1 w w1 hr hb ih =>
    obtain ⟨hg, hne, _⟩ := reachable_inv hr
    have := body_keeps_no_excluded path r w hg hne
    rw [hb] at this
    exact this ih
  | call p r w _ _ ih => exact ih

/-! ## Capacity of the frame stack -/

theorem recdirpush_frames_sz (r : RECDIR) (path : CStr) (node : FsNode) (w : World) :
    (recdirpush r path node w).2.1.frames_sz = r.frames_sz ∨
    (recdirpush r path node w).2.1.frames_sz = r.frames_sz + FRAMES_REALLOC_SIZE := by
  by_cases hp : path = []
  · simp [recdirpush, opendir, hp]
  by_cases ho : node.attr.open_ok = true
  · rw [recdirpush_eq r w path node hp ho]
    simp only [push_sz]
    split_ifs
    · exact Or.inr rfl
    · exact Or.inl rfl
  · simp [recdirpush, opendir, hp, ho]

theorem recdirpush_ok {r : RECDIR} {path : CStr} {node : FsNode} {w : World} {r1 : RECDIR}
    {w1 : World} (h : recdirpush r path node w = (0, r1, w1)) :
    r1.depth = r.depth + 1 ∧ r1.frames_sz = push_sz r.frames_sz (r.depth + 1) := by
  by_cases hp : path = []
  · simp [recdirpush, opendir, hp] at h
  by_cases ho : node.attr.open_ok = true
  · rw [recdirpush_eq r w path node hp ho] at h
    simp only [Prod.mk.injEq, true_and] at h
    rw [← h.1]
    exact ⟨rfl, rfl⟩
  · simp [recdirpush, opendir, hp, ho] at h

theorem recdirpop_ok {r : RECDIR} {w : World} {x : Int} {r1 : RECDIR} {w1 : World}
    (h : recdirpop r w = .done (x, r1, w1)) :
    r.depth ≠ 0 ∧ r1.depth = r.depth - 1 ∧ r1.frames_sz = pop_sz r.frames_sz (r.depth - 1) := by
  by_cases hd : r.depth = 0
  · simp [recdirpop, hd] at h
  cases hf : r.frames with
  | nil => simp [recdirpop, hd, hf] at h
  | cons top below =>
    rw [recdirpop_eq r w top below hf hd] at h
    injection h with h
    injection h with _ h
    injection h with h _
    subst h
    exact ⟨hd, by simp only [], by simp only []⟩

theorem push_sz_cap (fsz depth : Nat) (h : fsz = 16 * (depth / 16 + 1)) :
    push_sz fsz (depth + 1) = 16 * ((depth + 1) / 16 + 1) ∧
    (push_sz fsz (depth + 1) ≠ fsz ↔ (depth + 1) % 16 = 0) := by
  unfold push_sz FRAMES_REALLOC_SIZE
  subst h
  split_ifs <;> omega

theorem pop_sz_cap (fsz depth : Nat) (h : fsz = 16 * ((depth + 1) / 16 + 1))
    (hlt : fsz < 2 ^ 64) :
    pop_sz fsz depth = 16 * (depth / 16 + 1) ∧
    (pop_sz fsz depth ≠ fsz ↔ (depth + 1) % 16 = 0) := by
  unfold pop_sz FRAMES_REALLOC_SIZE SIZE_MOD
  have e : (fsz + 2 ^ 64 - 16) % 2 ^ 64 = fsz - 16 := by
    have : fsz + 2 ^ 64 - 16 = (fsz - 16) + 2 ^ 64 := by omega
    rw [this, Nat.add_mod_right, Nat.mod_eq_of_lt (by omega)]
  rw [e]
  subst h
  split_ifs <;> omega

/-! ## The shape of one pass -/

theorem tail_skip_dots (s : DirStream) : Tail (skip_dots s) s := by
  induction s with
  | eos => exact Tail.refl _
  | fail e => exact Tail.refl _
  | ent d a sub rest _ ih =>
    unfold skip_dots
    split_ifs
    · exact Tail.skip d a sub rest _ ih
    · exact Tail.refl _

theorem tail_rest {d : dirent} {a : OsAttr} {sub rest s : DirStream}
    (h : Tail (.ent d a sub rest) s) : Tail rest s := by
  generalize hx : DirStream.ent d a sub rest = x at h
  induction h with
  | refl s => subst hx; exact Tail.skip d a sub rest rest (Tail.refl _)
  | skip d1 a1 sub1 rest1 s1 _ ih => exact Tail.skip d1 a1 sub1 rest1 _ (ih hx)

theorem tail_trans {s1 s2 s3 : DirStream} (h1 : Tail s1 s2) (h2 : Tail s2 s3) : Tail s1 s3 := by
  induction h2 with
  | refl s => exact h1
  | skip d a sub rest s _ ih => exact Tail.skip d a sub rest _ (ih h1)

theorem log_step_refl (r : RECDIR) (w w1 : World) (h : w1.out = w.out) : LogStep r w w1 :=
  Or.inl h

theorem log_step_log (r r1 : RECDIR) (w w1 : World) (tag p : CStr) (hf : r1.fmt = r.fmt)
    (ho : w1.out = w.out) (ht : tag ∈ log_tags) : LogStep r w (RECDIR_LOG r1 w1 tag p) := by
  unfold RECDIR_LOG LogStep
  rw [hf]
  cases hfm : r.fmt with
  | none => exact Or.inl ho
  | some width => exact Or.inr ⟨width, tag, p, rfl, ht, by simp [ho]⟩

theorem pop_shape (path : Option CStr) (r r1 : RECDIR) (w w1 : World) (top top1 : RECDIR_FRAME)
    (below : List RECDIR_FRAME) (hp : same_params r r1) (hfr : r.frames = top :: below)
    (hfr1 : r1.frames = top1 :: below) (hd : r.depth ≠ 0) (hd1 : r1.depth = r.depth)
    (hsz : r1.frames_sz = r.frames_sz) (hlog : LogStep r w w1) :
    StepS r w (pop_or_return path r1 w1) := by
  unfold pop_or_return
  rw [recdirpop_eq r1 w1 top1 below hfr1 (by omega)]
  have hpop : Popped r ⟨below, r1.exclude_reg, r1.fmt, pop_sz r1.frames_sz (r1.depth - 1),
      r1.maxdepth, r1.mindepth, r1.depth - 1, r1.fpath⟩ :=
    ⟨top, below, hfr, hd, rfl, by simp only [hd1], by simp only [hd1, hsz]⟩
  have hlog2 : LogStep r w (closedir top1.dir w1).2 := by
    have : (closedir top1.dir w1).2.out = w1.out := by
      unfold closedir; split_ifs <;> rfl
    rcases hlog with h | ⟨wd, tag, p, h1, h2, h3⟩
    · exact Or.inl (this.trans h)
    · exact Or.inr ⟨wd, tag, p, h1, h2, this.trans h3⟩
  simp only []
  split_ifs
  · exact ⟨hp, hlog2, hpop⟩
  · exact ⟨hp, hlog2, Or.inl hpop⟩

theorem body_shape (path : Option CStr) (r : RECDIR) (w : World) :
    StepS r w (recdirread_body path r w) := by
  obtain ⟨frames, ex, fmt, fsz, mx, mn, depth, fpath⟩ := r
  unfold recdirread_body
  by_cases hd : depth = 0
  · simp [recdirtop, hd, StepS]
  cases frames with
  | nil => simp [recdirtop, hd, StepS]
  | cons top below =>
    have hpop : ∀ (s1 : DirStream) (w1 : World),
        LogStep ⟨top :: below, ex, fmt, fsz, mx, mn, depth, fpath⟩ w w1 →
        StepS ⟨top :: below, ex, fmt, fsz, mx, mn, depth, fpath⟩ w
          (pop_or_return path
            ⟨⟨top.path, ⟨top.dir.id, s1, top.dir.close_ok⟩⟩ :: below, ex, fmt, fsz, mx, mn,
              depth, fpath⟩ w1) := by
      intro s1 w1 hl
      exact pop_shape path _ _ w w1 top _ below ⟨rfl, rfl, rfl, rfl⟩ rfl rfl hd rfl rfl hl
    have hlogc : ∀ (s1 : DirStream) (e : Nat),
        LogStep ⟨top :: below, ex, fmt, fsz, mx, mn, depth, fpath⟩ w
          (RECDIR_LOG ⟨⟨top.path, ⟨top.dir.id, s1, top.dir.close_ok⟩⟩ :: below, ex, fmt, fsz, mx,
            mn, depth, fpath⟩ ⟨e, w.out, w.err, w.opened, w.closed, w.mallocs, w.frees⟩
            "CLOSE".toList top.path) := by
      intro s1 e
      exact log_step_log _ _ _ _ _ _ rfl rfl (by decide)
    simp only [recdirtop, hd, if_false, List.head?_cons, readdir_loop_eq, List.tail_cons]
    have htl := tail_skip_dots top.dir.stream
    cases hs : skip_dots top.dir.stream with
    | eos =>
      by_cases he : w.errno = 0
      · simp only [he, ne_eq, not_true_eq_false, if_false]
        exact hpop _ _ (hlogc _ _)
      · simp only [ne_eq, he, not_false_eq_true, if_true]
        exact hpop _ _ (Or.inl rfl)
    | fail e1 =>
      by_cases he : e1 = 0
      · simp only [he, ne_eq, not_true_eq_false, if_false]
        exact hpop _ _ (hlogc _ _)
      · simp only [ne_eq, he, not_false_eq_true, if_true]
        exact hpop _ _ (Or.inl rfl)
    | ent d a sub rest =>
      rw [hs] at htl
      have hnd := skip_dots_not_dot hs
      by_cases he : w.errno = 0
      · simp only [he, ne_eq, not_true_eq_false, if_false]
        have hstay : Stayed ⟨top :: below, ex, fmt, fsz, mx, mn, depth, fpath⟩
            ⟨⟨top.path, ⟨top.dir.id, rest, top.dir.close_ok⟩⟩ :: below, ex, fmt, fsz, mx, mn,
              depth, fpath⟩ :=
          ⟨top, below, rest, rfl, hd, tail_rest htl, rfl, rfl, rfl⟩
        have hcont : ∀ (p : Option CStr) (w1 : World),
            LogStep ⟨top :: below, ex, fmt, fsz, mx, mn, depth, fpath⟩ w w1 →
            StepS ⟨top :: below, ex, fmt, fsz, mx, mn, depth, fpath⟩ w
              (.continue_ p ⟨⟨top.path, ⟨top.dir.id, rest, top.dir.close_ok⟩⟩ :: below, ex, fmt,
                fsz, mx, mn, depth, fpath⟩ w1) :=
          fun p w1 hl => ⟨⟨rfl, rfl, rfl, rfl⟩, hl, Or.inr (Or.inl hstay)⟩
        by_cases hacc : a.access_ok = false
        · simp only [hacc, if_true]
          exact hcont _ _ (Or.inl rfl)
        · simp only [hacc, if_false]
          unfold recdirread_switch
          cases hty : d.d_type with
          | DT_DIR =>
            simp only []
            by_cases hmx1 : mx ≤ depth
            · simp only [hmx1, if_true]
              exact hcont _ _ (Or.inl rfl)
            · simp only [hmx1, if_false]
              by_cases hex : excluded ex (makepath top.path d.d_name) = true
              · simp only [hex, if_true]
                exact hcont _ _ (log_step_log _ _ _ _ _ _ rfl rfl (by decide))
              · simp only [hex]
                by_cases hopen : a.open_ok = true
                · rw [recdirpush_eq _ _ _ ⟨a, sub⟩ (makepath_ne_nil _ _) hopen]
                  simp only [recdirtop, Nat.add_one_ne_zero, if_false, List.head?_cons]
                  refine ⟨⟨rfl, rfl, rfl, rfl⟩, log_step_log _ _ _ _ _ _ rfl rfl (by decide),
                    Or.inr (Or.inr ?_)⟩
                  exact ⟨top, below, d, a, sub, rest, w.opened, rfl, hd, htl, hnd, hty,
                    by show depth < mx; omega, by simpa using hex, rfl, rfl, rfl⟩
                · have : recdirpush ⟨⟨top.path, ⟨top.dir.id, rest, top.dir.close_ok⟩⟩ :: below, ex,
                      fmt, fsz, mx, mn, depth, fpath⟩ (makepath top.path d.d_name)
                      ⟨a, sub⟩ ⟨0, w.out, w.err, w.opened, w.closed, w.mallocs, w.frees⟩ =
                      (1, ⟨⟨top.path, ⟨top.dir.id, rest, top.dir.close_ok⟩⟩ :: below, ex,
                      fmt, fsz, mx, mn, depth, fpath⟩,
                      ⟨EMFILE, w.out, w.err, w.opened, w.closed, w.mallocs, w.frees⟩) := by
                    simp [recdirpush, opendir, makepath_ne_nil, hopen]
                  rw [this]
                  exact trivial
          | DT_REG =>
            simp only []
            by_cases hmn : mn > depth
            · simp only [hmn, if_true]
              exact hcont _ _ (Or.inl rfl)
            · simp only [hmn, if_false]
              exact ⟨⟨rfl, rfl, rfl, rfl⟩, rfl, top, below, d, a, sub, rest, rfl, hd, htl, hnd,
                hty, by show mn ≤ depth; omega, rfl, rfl, rfl, rfl⟩
          | DT_OTHER =>
            simp only []
            exact hcont _ _ (log_step_log _ _ _ _ _ _ rfl rfl (by decide))
      · simp only [ne_eq, he, not_false_eq_true, if_true]
        exact hpop _ _ (Or.inl rfl)


theorem chain_top_tail {rootpath : CStr} {root : DirStream} {top : RECDIR_FRAME}
    {below : List RECDIR_FRAME} {dir : DirStream} (h : Chain rootpath root (top :: below) dir) :
    Tail top.dir.stream dir := by
  cases h with
  | bottom _ _ ht => exact ht
  | above _ g b dir1 d a sub rest _ _ _ _ _ ht => exact ht

theorem chain_advance {rootpath : CStr} {root : DirStream} {top : RECDIR_FRAME}
    {below : List RECDIR_FRAME} {dir s1 : DirStream} (h : Chain rootpath root (top :: below) dir)
    (ht : Tail s1 top.dir.stream) : Chain rootpath root (advance top s1 :: below) dir := by
  cases h with
  | bottom _ hp h1 => exact Chain.bottom _ hp (tail_trans ht h1)
  | above _ g b dir1 d a sub rest hc h1 h2 h3 h4 h5 =>
    exact Chain.above _ g b dir1 d a _ rest hc h1 h2 h3 h4 (tail_trans ht h5)

theorem chain_pop {rootpath : CStr} {root : DirStream} {top : RECDIR_FRAME}
    {below : List RECDIR_FRAME} {dir : DirStream} (h : Chain rootpath root (top :: below) dir) :
    below = [] ∨ ∃ dir1, Chain rootpath root below dir1 := by
  cases h with
  | bottom _ _ _ => exact Or.inl rfl
  | above _ g b dir1 d a sub rest hc _ _ _ _ _ => exact Or.inr ⟨dir1, hc⟩

theorem chain_push {rootpath : CStr} {root : DirStream} {top : RECDIR_FRAME}
    {below : List RECDIR_FRAME} {dir : DirStream} {d : dirent} {a : OsAttr} {sub rest : DirStream}
    (id : Nat) (h : Chain rootpath root (top :: below) dir)
    (ht : Tail (.ent d a sub rest) top.dir.stream) (hnd : is_dot d.d_name = false)
    (hty : d.d_type = .DT_DIR) :
    Chain rootpath root
      (⟨makepath top.path d.d_name, ⟨id, sub, a.close_ok⟩⟩ :: advance top rest :: below) sub :=
  Chain.above _ _ below dir d a sub rest (chain_advance h (tail_rest ht))
    (tail_trans ht (chain_top_tail h)) hnd hty rfl (Tail.refl _)

theorem chain_last {rootpath : CStr} {root : DirStream} {fs : List RECDIR_FRAME}
    {dir : DirStream} (h : Chain rootpath root fs dir) :
    ∃ f, fs.getLast? = some f ∧ f.path = rootpath := by
  induction h with
  | bottom f hp _ => exact ⟨f, rfl, hp⟩
  | above f g b dir1 d a sub rest _ _ _ _ _ _ ih =>
    obtain ⟨x, h1, h2⟩ := ih
    exact ⟨x, by rw [List.getLast?_cons_cons]; exact h1, h2⟩

theorem mem_names_of_tail {d : dirent} {a : OsAttr} {sub rest s : DirStream}
    (h : Tail (.ent d a sub rest) s) (hnd : is_dot d.d_name = false) : d.d_name ∈ names s := by
  generalize hx : DirStream.ent d a sub rest = x at h
  induction h with
  | refl s => subst hx; simp [names, hnd]
  | skip d1 a1 sub1 rest1 s1 _ ih =>
    have := ih hx
    unfold names
    split_ifs
    · exact this
    · exact List.mem_cons_of_mem _ this

theorem chain_links {rootpath : CStr} {root : DirStream} {fs : List RECDIR_FRAME}
    {dir : DirStream} (h : Chain rootpath root fs dir) :
    List.Chain' (fun f g => ∃ name, is_dot name = false ∧ f.path = makepath g.path name) fs := by
  induction h with
  | bottom f _ _ => exact List.chain'_singleton f
  | above f g b dir1 d a sub rest _ _ hnd _ hp _ ih =>
    exact List.Chain'.cons ⟨d.d_name, hnd, hp⟩ ih

theorem all_files_tail (ex : Option (CStr → Bool)) {s1 s : DirStream} (h : Tail s1 s)
    (dir : CStr) (k : Nat) (x : CStr × Nat) (hx : x ∈ all_files ex s1 dir k) :
    x ∈ all_files ex s dir k := by
  induction h with
  | refl s => exact hx
  | skip d a sub rest s1 _ ih =>
    unfold all_files
    exact List.mem_append_right _ (ih hx)

theorem all_files_sub {d : dirent} {a : OsAttr} {sub rest s : DirStream}
    (h : Tail (.ent d a sub rest) s) (hnd : is_dot d.d_name = false) (hty : d.d_type = .DT_DIR)
    (dir : CStr) (k : Nat) (x : CStr × Nat)
    (hx : x ∈ all_files none sub (makepath dir d.d_name) (k + 1)) :
    x ∈ all_files none s dir k := by
  apply all_files_tail none h
  unfold all_files
  simp only [hnd, hty, excluded, Bool.false_eq_true, if_false]
  exact List.mem_append_left _ hx

theorem all_files_file {d : dirent} {a : OsAttr} {sub rest s : DirStream}
    (h : Tail (.ent d a sub rest) s) (hnd : is_dot d.d_name = false) (hty : d.d_type = .DT_REG)
    (dir : CStr) (k : Nat) : (makepath dir d.d_name, k) ∈ all_files none s dir k := by
  apply all_files_tail none h
  unfold all_files
  simp only [hnd, hty, Bool.false_eq_true, if_false]
  exact List.mem_append_left _ (List.mem_singleton_self _)

theorem chain_all_files {rootpath : CStr} {root : DirStream} {fs : List RECDIR_FRAME}
    {dir : DirStream} (h : Chain rootpath root fs dir) :
    ∀ top below, fs = top :: below → ∀ x, x ∈ all_files none dir top.path fs.length →
      x ∈ all_files none root rootpath 1 := by
  induction h with
  | bottom f hp _ =>
    intro top below he x hx
    simp only [List.cons.injEq] at he
    rw [← he.1, hp] at hx
    exact hx
  | above f g b dir1 d a sub rest _ ht hnd hty hp _ ih =>
    intro top below he x hx
    simp only [List.cons.injEq] at he
    rw [← he.1, hp] at hx
    exact ih g b rfl x (all_files_sub ht hnd hty g.path _ x hx)

theorem height_tail {s1 s : DirStream} (h : Tail s1 s) : height s1 ≤ height s := by
  induction h with
  | refl s => exact le_refl _
  | skip d a sub rest s1 _ ih =>
    simp only [height]
    exact le_trans ih (le_max_right _ _)

theorem chain_height {rootpath : CStr} {root : DirStream} {fs : List RECDIR_FRAME}
    {dir : DirStream} (h : Chain rootpath root fs dir) :
    fs.length + height dir ≤ height root + 1 := by
  induction h with
  | bottom f _ _ => simp; omega
  | above f g b dir1 d a sub rest _ ht hnd hty _ _ ih =>
    have h1 := height_tail ht
    have h2 : height sub + 1 ≤ height (.ent d a sub rest) := by
      simp only [height, hnd, hty, Bool.false_eq_true, if_false]
      exact le_max_left _ _
    simp only [List.length_cons] at ih ⊢
    omega

theorem on_branch_depth {rootpath : CStr} {root : DirStream} {r : RECDIR}
    (h : on_branch rootpath root r) : r.depth ≤ height root := by
  obtain ⟨h1, h2⟩ := h
  rcases h2 with h2 | ⟨dir, h2⟩
  · rw [h1, h2]; simp
  · have := chain_height h2
    have := height_pos dir
    omega

theorem step_on_branch (rootpath : CStr) (root : DirStream) (r : RECDIR) (w : World)
    (h : on_branch rootpath root r) :
    ∀ step, StepS r w step → match step with
      | .continue_ _ r1 _ => on_branch rootpath root r1
      | .return_ _ r1 _ => on_branch rootpath root r1
      | .abort => True
      | .ub => True := by
  obtain ⟨hd, hc⟩ := h
  have hpop : ∀ r1, Popped r r1 → on_branch rootpath root r1 := by
    rintro r1 ⟨top, below, hf, hd0, hf1, hd1, _⟩
    rw [hf] at hc hd
    rcases hc with hc | ⟨dir, hc⟩
    · simp at hc
    · refine ⟨by rw [hd1, hf1, hd]; simp, ?_⟩
      rw [hf1]
      exact chain_pop hc
  have hstay : ∀ r1, Stayed r r1 → on_branch rootpath root r1 := by
    rintro r1 ⟨top, below, s1, hf, hd0, ht, hf1, hd1, _⟩
    rw [hf] at hc hd
    rcases hc with hc | ⟨dir, hc⟩
    · simp at hc
    · refine ⟨by rw [hd1, hf1, hd]; simp, Or.inr ⟨dir, ?_⟩⟩
      rw [hf1]
      exact chain_advance hc ht
  have hpush : ∀ r1, Pushed r r1 → on_branch rootpath root r1 := by
    rintro r1 ⟨top, below, d, a, sub, rest, id, hf, hd0, ht, hnd, hty, _, _, hf1, hd1, _⟩
    rw [hf] at hc hd
    rcases hc with hc | ⟨dir, hc⟩
    · simp at hc
    · refine ⟨by rw [hd1, hf1, hd]; simp, Or.inr ⟨sub, ?_⟩⟩
      rw [hf1]
      exact chain_push id hc ht hnd hty
  intro step hs
  cases step with
  | continue_ p r1 w1 =>
    obtain ⟨_, _, h3⟩ := hs
    rcases h3 with h3 | h3 | h3
    · exact hpop r1 h3
    · exact hstay r1 h3
    · exact hpush r1 h3
  | return_ v r1 w1 =>
    cases v with
    | none => exact hpop r1 hs.2.2
    | some p =>
      obtain ⟨_, _, top, below, d, a, sub, rest, hf, hd0, ht, _, _, _, _, hf1, hd1, hsz⟩ := hs
      exact hstay r1 ⟨top, below, rest, hf, hd0, tail_rest ht, hf1, hd1, hsz⟩
  | abort => trivial
  | ub => trivial

theorem walk_on_branch (rootpath : CStr) (root : DirStream) (r0 : RECDIR) (w0 : World)
    (h0 : on_branch rootpath root r0) (r : RECDIR) (w : World) (h : Walk r0 w0 r w) :
    on_branch rootpath root r := by
  induction h with
  | start => exact h0
  | pass path path1 r r1 w w1 _ hb ih =>
    have := step_on_branch rootpath root r w ih _ (body_shape path r w)
    rw [hb] at this
    exact this
  | ret path v r r1 w w1 _ hb ih =>
    have := step_on_branch rootpath root r w ih _ (body_shape path r w)
    rw [hb] at this
    exact this
  | call p r w _ _ ih => exact ih

theorem opened_on_branch (path : CStr) (root : FsNode) (ex : Option (CStr → Bool)) (mx mn : Nat)
    (v : Verbose) (w : World) :
    on_branch path root.sub (opened_state path root ex mx mn v w) :=
  ⟨rfl, Or.inr ⟨root.sub, Chain.bottom _ rfl (Tail.refl _)⟩⟩

theorem loop_walk (r0 : RECDIR) (w0 : World) :
    ∀ (fuel : Nat) (path : Option CStr) (r : RECDIR) (w : World) (v : Option CStr) (r1 : RECDIR)
      (w1 : World), Walk r0 w0 r w → recdirread_loop fuel path r w = .done (v, r1, w1) →
      Walk r0 w0 r1 w1 := by
  intro fuel
  induction fuel with
  | zero => intro path r w v r1 w1 _ h; simp [recdirread_loop] at h
  | succ n ih =>
    intro path r w v r1 w1 hw h
    unfold recdirread_loop at h
    cases hb : recdirread_body path r w with
    | continue_ p2 r2 w2 =>
      rw [hb] at h
      exact ih p2 r2 w2 v r1 w1 (Walk.pass path p2 r r2 w w2 hw hb) h
    | return_ v2 r2 w2 =>
      rw [hb] at h
      simp only [Outcome.done.injEq, Prod.mk.injEq] at h
      obtain ⟨e1, e2, e3⟩ := h
      subst e1; subst e2; subst e3
      exact Walk.ret path v2 r r2 w w2 hw hb
    | abort => rw [hb] at h; simp at h
    | ub => rw [hb] at h; simp at h

theorem recdirread_walk (r0 : RECDIR) (w0 : World) (fuel : Nat) (r : RECDIR) (w : World)
    (v : Option CStr) (r1 : RECDIR) (w1 : World) (hw : Walk r0 w0 r w)
    (h : recdirread fuel r w = .done (v, r1, w1)) : Walk r0 w0 r1 w1 := by
  unfold recdirread at h
  cases hf : r.fpath with
  | none =>
    rw [hf] at h
    exact loop_walk r0 w0 fuel none r w v r1 w1 hw h
  | some p =>
    rw [hf] at h
    exact loop_walk r0 w0 fuel none _ _ v r1 w1 (Walk.call p r w hw hf) h


theorem walk_log (r0 : RECDIR) (w0 : World) (r : RECDIR) (w : World) (h : Walk r0 w0 r w) :
    r.fmt = r0.fmt ∧ ∃ lines, w.out = w0.out ++ lines ∧
      ∀ l ∈ lines, ∃ width tag p, r0.fmt = some width ∧ tag ∈ log_tags ∧
        l = printf_fmt width tag p := by
  have hstep : ∀ (r r1 : RECDIR) (w w1 : World), same_params r r1 → LogStep r w w1 →
      (r.fmt = r0.fmt ∧ ∃ lines, w.out = w0.out ++ lines ∧
        ∀ l ∈ lines, ∃ width tag p, r0.fmt = some width ∧ tag ∈ log_tags ∧
          l = printf_fmt width tag p) →
      (r1.fmt = r0.fmt ∧ ∃ lines, w1.out = w0.out ++ lines ∧
        ∀ l ∈ lines, ∃ width tag p, r0.fmt = some width ∧ tag ∈ log_tags ∧
          l = printf_fmt width tag p) := by
    intro r r1 w w1 hp hl ⟨hf, lines, ho, hall⟩
    refine ⟨hp.2.2.2.trans hf, ?_⟩
    rcases hl with hl | ⟨width, tag, p, h1, h2, h3⟩
    · exact ⟨lines, hl.trans ho, hall⟩
    · refine ⟨lines ++ [printf_fmt width tag p], by rw [h3, ho, List.append_assoc], ?_⟩
      intro l hl
      rcases List.mem_append.1 hl with hl | hl
      · exact hall l hl
      · rw [List.mem_singleton] at hl
        exact ⟨width, tag, p, by rw [← hf]; exact h1, h2, hl⟩
  induction h with
  | start => exact ⟨rfl, [], by simp, by simp⟩
  | pass path path1 r r1 w w1 _ hb ih =>
    have hs := body_shape path r w
    rw [hb] at hs
    exact hstep r r1 w w1 hs.1 hs.2.1 ih
  | ret path v r r1 w w1 _ hb ih =>
    have hs := body_shape path r w
    rw [hb] at hs
    cases v with
    | none => exact hstep r r1 w w1 hs.1 hs.2.1 ih
    | some p => exact hstep r r1 w w1 hs.1 (Or.inl hs.2.1) ih
  | call p r w _ _ ih => exact ih

theorem base_length (p1 : CStr) : (base p1).length ≤ p1.length + 1 := by
  unfold base; split <;> simp

theorem no_double_in_base (p1 pre c : CStr) (htrail : ¬ (['/', '/'] <:+ p1))
    (h : base p1 = pre ++ '/' :: '/' :: c) : pre.length + 2 < p1.length := by
  unfold base at h
  split_ifs at h with hl
  · -- p1 does not end with the separator
    rcases List.eq_nil_or_concat c with hc | ⟨c3, x, hc⟩
    · subst hc
      have h2 : p1 ++ ['/'] = (pre ++ ['/']) ++ ['/'] := by simpa using h
      have h3 := List.append_cancel_right h2
      exact absurd (by rw [h3]; simp) hl
    · subst hc
      have h2 : p1 ++ ['/'] = (pre ++ '/' :: '/' :: c3) ++ [x] := by simpa using h
      have hx : p1 = pre ++ '/' :: '/' :: c3 := by
        have := List.append_inj' h2 rfl
        exact this.1
      cases c3 with
      | nil => exact absurd (by rw [hx]; simp) hl
      | cons y c4 => rw [hx]; simp
  · cases c with
    | nil => exact absurd ⟨pre, h.symm⟩ htrail
    | cons y c4 => rw [h]; simp

/-! ## Single passes that fail -/

theorem push_failure_step (path : Option CStr) (r : RECDIR) (w : World) (top : RECDIR_FRAME)
    (d : dirent) (node : FsNode) (s1 : DirStream)
    (htop : recdirtop r = some top) (herr : w.errno = 0)
    (hread : readdir_loop top.dir.stream w.errno = (some (d, node), s1, w.errno))
    (hacc : node.attr.access_ok = true) (hty : d.d_type = .DT_DIR)
    (hmx : r.depth < r.maxdepth)
    (hex : excluded r.exclude_reg (makepath top.path d.d_name) = false)
    (hopen : node.attr.open_ok = false) :
    recdirread_body path r w = .abort := by
  rw [herr] at hread
  unfold recdirread_body
  simp only [htop, herr, hread, ne_eq, not_true_eq_false, if_false, hacc, Bool.true_eq_false]
  unfold recdirread_switch
  have hmx2 : ¬ r.maxdepth ≤ r.depth := by omega
  simp only [hty, hmx2, if_false, hex, Bool.false_eq_true]
  simp [recdirpush, opendir, makepath_ne_nil, hopen]

theorem stale_errno_step (path : Option CStr) (r : RECDIR) (w : World) (top : RECDIR_FRAME)
    (ent : Option (dirent × FsNode)) (s1 : DirStream)
    (htop : recdirtop r = some top) (herr : w.errno ≠ 0)
    (hread : readdir_loop top.dir.stream w.errno = (ent, s1, w.errno)) :
    recdirread_body path r w =
      pop_or_return path
        { r with frames := { top with dir := { top.dir with stream := s1 } } :: r.frames.tail }
        { perror path w with errno := 0 } := by
  unfold recdirread_body
  simp only [htop, hread, ne_eq, herr, not_false_eq_true, if_true]

/-! ## Unreadable entries -/

theorem main_loop_succ (env : Env) (data : ExecutionData) (fuel : Nat) (r : RECDIR) (p : Proc) :
    main_loop env data (fuel + 1) r p =
      match main_iter env data (fuel + 1) r p with
      | .done (.leave r1 p1) => .done (r1, p1)
      | .done (.again r1 p1) => main_loop env data fuel r1 p1
      | .abort => .abort
      | .ub => .ub
      | .timeout => .timeout := by
  unfold main_iter
  conv_lhs => unfold main_loop
  cases hs : sched_point env p with
  | none => rfl
  | some p0 =>
    simp only []
    by_cases hf : fpath_freed r p0.w = true
    · simp only [hf, if_true]
    · simp only [hf, Bool.false_eq_true, if_false]
      cases hread : recdirread (fuel + 1) r p0.w with
      | abort => rfl
      | ub => rfl
      | timeout => rfl
      | done x =>
        obtain ⟨v, r1, w1⟩ := x
        cases v with
        | none => rfl
        | some path =>
          simp only []
          cases hs1 : sched_point env { p0 with w := w1 } with
          | none => rfl
          | some p1 =>
            simp only []
            by_cases ht : p1.terminated = true
            · simp only [ht, if_true]
            · rw [if_neg ht, if_neg ht]
              change (match barrier env (dispatch data r1 path p1) with
                | none => (Outcome.ub : Outcome (RECDIR × Proc))
                | some p3 => main_loop env data fuel r1 p3) = _
              generalize barrier env (dispatch data r1 path p1) = o
              cases o <;> rfl

theorem worker_frame_refl (p : Proc) : worker_frame p p :=
  ⟨rfl, rfl, rfl, rfl, rfl, rfl, rfl, rfl, fun h => h⟩

theorem worker_frame_trans {p p1 p2 : Proc} (h1 : worker_frame p p1) (h2 : worker_frame p1 p2) :
    worker_frame p p2 := by
  obtain ⟨a1, a2, a3, a4, a5, a6, a7, a8, a9⟩ := h1
  obtain ⟨b1, b2, b3, b4, b5, b6, b7, b8, b9⟩ := h2
  exact ⟨b1.trans a1, b2.trans a2, b3.trans a3, b4.trans a4, b5.trans a5, b6.trans a6,
    b7.trans a7, b8.trans a8, fun h => b9 (a9 h)⟩

theorem process_file_frame (env : Env) (d d1 : ExecutionData) (p p1 : Proc)
    (h : process_file env d p = some (d1, p1)) : worker_frame p p1 := by
  unfold process_file at h
  cases hf : d.fpath with
  | none =>
    rw [hf] at h
    simp only [Option.some.injEq, Prod.mk.injEq] at h
    rw [← h.2]
    exact worker_frame_refl p
  | some fp =>
    rw [hf] at h
    simp only [] at h
    split_ifs at h <;> simp only [Option.some.injEq, Prod.mk.injEq] at h <;> rw [← h.2] <;>
      exact ⟨rfl, rfl, rfl, rfl, rfl, rfl, rfl, rfl, by simp⟩

theorem run_pending_facts (env : Env) (sel : Nat → Bool) (ths : List Thread) :
    ∀ (i : Nat) (p : Proc) (ths1 : List Thread) (p1 : Proc),
      run_pending env sel ths i p = some (ths1, p1) →
      ths1.length = ths.length ∧ worker_frame p p1 := by
  induction ths with
  | nil =>
    intro i p ths1 p1 h
    simp only [run_pending, Option.some.injEq, Prod.mk.injEq] at h
    rw [← h.1, ← h.2]
    exact ⟨rfl, worker_frame_refl p⟩
  | cons th rest ih =>
    intro i p ths1 p1 h
    unfold run_pending at h
    split_ifs at h
    · cases hp : process_file env th.data p with
      | none => rw [hp] at h; simp at h
      | some x =>
        obtain ⟨d, q⟩ := x
        rw [hp] at h
        simp only [] at h
        cases hr : run_pending env sel rest (i + 1) q with
        | none => rw [hr] at h; simp at h
        | some y =>
          obtain ⟨rest1, q1⟩ := y
          rw [hr] at h
          simp only [Option.some.injEq, Prod.mk.injEq] at h
          obtain ⟨a1, a2⟩ := ih (i + 1) q rest1 q1 hr
          rw [← h.1, ← h.2]
          exact ⟨by simp [a1], worker_frame_trans (process_file_frame env _ _ _ _ hp) a2⟩
    · cases hr : run_pending env sel rest (i + 1) p with
      | none => rw [hr] at h; simp at h
      | some y =>
        obtain ⟨rest1, q1⟩ := y
        rw [hr] at h
        simp only [Option.some.injEq, Prod.mk.injEq] at h
        obtain ⟨a1, a2⟩ := ih (i + 1) p rest1 q1 hr
        rw [← h.1, ← h.2]
        exact ⟨by simp [a1], a2⟩

theorem sched_point_facts (env : Env) (p p0 : Proc) (h : sched_point env p = some p0) :
    p0.threads.length = p.threads.length ∧ p0.dispatched = p.dispatched ∧
    p0.joined = p.joined ∧ p0.w.errno = p.w.errno ∧
    (p.terminated = true → p0.terminated = true) := by
  unfold sched_point at h
  simp only [] at h
  by_cases hs : env.sigint p.clock = true
  · simp only [hs, if_true] at h
    cases hr : run_pending env (env.sched p.clock) (terminate p).threads 0 (terminate p) with
    | none => rw [hr] at h; simp at h
    | some y =>
      obtain ⟨ths, q⟩ := y
      rw [hr] at h
      simp only [Option.some.injEq] at h
      obtain ⟨a1, b1, b2, _, _, b5, _, _, _, b9⟩ := run_pending_facts env _ _ _ _ _ _ hr
      rw [← h]
      exact ⟨a1, b1, b2, b5, fun _ => b9 rfl⟩
  · have hs2 : env.sigint p.clock = false := by simpa using hs
    simp only [hs2, Bool.false_eq_true, if_false] at h
    cases hr : run_pending env (env.sched p.clock) p.threads 0 p with
    | none => rw [hr] at h; simp at h
    | some y =>
      obtain ⟨ths, q⟩ := y
      rw [hr] at h
      simp only [Option.some.injEq] at h
      obtain ⟨a1, b1, b2, _, _, b5, _, _, _, b9⟩ := run_pending_facts env _ _ _ _ _ _ hr
      rw [← h]
      exact ⟨a1, b1, b2, b5, b9⟩

theorem join_all_facts (env : Env) (p p1 : Proc) (h : join_all env p = some p1) :
    p1.threads = [] ∧ p1.dispatched = p.dispatched ∧
    p1.joined = p.joined + p.threads.length ∧ p1.w.errno = p.w.errno ∧
    (p.terminated = true → p1.terminated = true) := by
  unfold join_all at h
  cases hr : run_pending env (fun _ => true) p.threads 0 p with
  | none => rw [hr] at h; simp at h
  | some y =>
    obtain ⟨ths, q⟩ := y
    rw [hr] at h
    simp only [Option.some.injEq] at h
    obtain ⟨a1, b1, _, _, _, b5, _, _, _, b9⟩ := run_pending_facts env _ _ _ _ _ _ hr
    rw [← h]
    exact ⟨rfl, b1, by simp [a1], b5, b9⟩

theorem dispatch_barrier_facts (env : Env) (data : ExecutionData) (r1 : RECDIR) (path : CStr)
    (q : Proc) (hq : table_ok q) :
    (dispatch data r1 path q).threads.length = q.threads.length + 1 ∧
    (dispatch data r1 path q).threads.length ≤ THREADS_CAP ∧
    ∀ p3, barrier env (dispatch data r1 path q) = some p3 →
      p3.dispatched = q.dispatched ++ [path] ∧ table_ok p3 ∧
      (q.terminated = true → p3.terminated = true) ∧
      ((dispatch data r1 path q).threads.length = THREADS_CAP →
        p3.threads = [] ∧ p3.joined = p3.dispatched.length) ∧
      ((dispatch data r1 path q).threads.length < THREADS_CAP →
        p3 = dispatch data r1 path q) := by
  obtain ⟨h1, h2⟩ := hq
  have hlen : (dispatch data r1 path q).threads.length = q.threads.length + 1 := by
    simp [dispatch]
  have hdl : (dispatch data r1 path q).dispatched = q.dispatched ++ [path] := rfl
  have hj : (dispatch data r1 path q).joined = q.joined := rfl
  refine ⟨hlen, by omega, fun p3 hb => ?_⟩
  unfold barrier at hb
  split_ifs at hb with hc
  · obtain ⟨j1, j2, j3, _, j5⟩ := join_all_facts env _ p3 hb
    refine ⟨by rw [j2, hdl], ?_, j5, fun _ => ⟨j1, ?_⟩, fun h => by omega⟩
    · unfold table_ok
      rw [j1, j2, j3, hdl, hlen, hj]
      simp only [List.length_nil, List.length_append, List.length_singleton, THREADS_CAP]
      omega
    · rw [j2, j3, hdl, hlen, hj]
      simp only [List.length_append, List.length_singleton]
      omega
  · simp only [Option.some.injEq] at hb
    subst hb
    refine ⟨hdl, ?_, fun h => h, fun h => absurd h (by omega), fun _ => rfl⟩
    unfold table_ok
    rw [hdl, hlen, hj]
    simp only [List.length_append, List.length_singleton]
    omega

/-- What an iteration of the dispatch loop that ends normally has done. -/
theorem main_iter_cases (env : Env) (data : ExecutionData) (fuel : Nat) (r : RECDIR) (p : Proc)
    (s : LoopStep) (h : main_iter env data fuel r p = .done s) :
    ∃ p0, sched_point env p = some p0 ∧ fpath_freed r p0.w = false ∧
      ((∃ r1 w1, recdirread fuel r p0.w = .done (none, r1, w1) ∧
          s = .leave r1 { p0 with w := w1 }) ∨
       (∃ path r1 w1 p1, recdirread fuel r p0.w = .done (some path, r1, w1) ∧
          sched_point env { p0 with w := w1 } = some p1 ∧
          ((p1.terminated = true ∧ s = .leave r1 p1) ∨
           (p1.terminated = false ∧ ∃ p3, barrier env (dispatch data r1 path p1) = some p3 ∧
              s = .again r1 p3)))) := by
  unfold main_iter at h
  cases hs : sched_point env p with
  | none => rw [hs] at h; simp at h
  | some p0 =>
    rw [hs] at h
    simp only [] at h
    by_cases hf : fpath_freed r p0.w = true
    · simp [hf] at h
    · simp only [hf, Bool.false_eq_true, if_false] at h
      refine ⟨p0, rfl, by simpa using hf, ?_⟩
      cases hread : recdirread fuel r p0.w with
      | abort => rw [hread] at h; simp at h
      | ub => rw [hread] at h; simp at h
      | timeout => rw [hread] at h; simp at h
      | done x =>
        obtain ⟨v, r1, w1⟩ := x
        rw [hread] at h
        cases v with
        | none =>
          simp only [Outcome.done.injEq] at h
          exact Or.inl ⟨r1, w1, rfl, h.symm⟩
        | some path =>
          simp only [] at h
          cases hs1 : sched_point env { p0 with w := w1 } with
          | none => rw [hs1] at h; simp at h
          | some p1 =>
            rw [hs1] at h
            simp only [] at h
            refine Or.inr ⟨path, r1, w1, p1, rfl, hs1, ?_⟩
            by_cases ht : p1.terminated = true
            · simp only [ht, if_true, Outcome.done.injEq] at h
              exact Or.inl ⟨ht, h.symm⟩
            · simp only [ht, Bool.false_eq_true, if_false] at h
              cases hb : barrier env (dispatch data r1 path p1) with
              | none => rw [hb] at h; simp at h
              | some p3 =>
                rw [hb] at h
                simp only [Outcome.done.injEq] at h
                exact Or.inr ⟨by simpa using ht, p3, rfl, h.symm⟩


theorem table_ok_init (w : World) : table_ok (Proc.init w) := by
  simp [table_ok, Proc.init, THREADS_CAP]

theorem table_ok_of_eq {p q : Proc} (h : table_ok p) (h1 : q.threads.length = p.threads.length)
    (h2 : q.dispatched = p.dispatched) (h3 : q.joined = p.joined) : table_ok q := by
  unfold table_ok
  rw [h1, h2, h3]
  exact h

theorem main_iter_table (env : Env) (data : ExecutionData) (fuel : Nat) (r : RECDIR) (p : Proc)
    (hp : table_ok p) :
    (∀ r1 p1, main_iter env data fuel r p = .done (.again r1 p1) →
      table_ok p1 ∧ ∃ p0 path w1, sched_point env p = some p0 ∧
        recdirread fuel r p0.w = .done (some path, r1, w1) ∧
        p1.dispatched = p.dispatched ++ [path]) ∧
    (∀ r1 p1, main_iter env data fuel r p = .done (.leave r1 p1) →
      table_ok p1 ∧ p1.dispatched = p.dispatched ∧ p1.threads.length = p.threads.length) := by
  refine ⟨fun r1 p1 h => ?_, fun r1 p1 h => ?_⟩
  · obtain ⟨p0, hs, _, hc⟩ := main_iter_cases env data fuel r p _ h
    obtain ⟨s1, s2, s3, _⟩ := sched_point_facts env p p0 hs
    rcases hc with ⟨r2, w2, _, he⟩ | ⟨path, r2, w2, q, hread, hs1, hc⟩
    · simp at he
    · obtain ⟨a1, a2, a3, _⟩ := sched_point_facts env _ q hs1
      have hq : table_ok q :=
        table_ok_of_eq hp (a1.trans s1) (a2.trans s2) (a3.trans s3)
      rcases hc with ⟨_, he⟩ | ⟨_, p3, hb, he⟩
      · simp at he
      · simp only [LoopStep.again.injEq] at he
        obtain ⟨e1, e2⟩ := he
        subst e1; subst e2
        obtain ⟨d1, d2, _⟩ := (dispatch_barrier_facts env data r1 path q hq).2.2 p1 hb
        exact ⟨d2, p0, path, w2, hs, hread, by rw [d1, a2]; exact congrArg (· ++ [path]) s2⟩
  · obtain ⟨p0, hs, _, hc⟩ := main_iter_cases env data fuel r p _ h
    obtain ⟨s1, s2, s3, _⟩ := sched_point_facts env p p0 hs
    rcases hc with ⟨r2, w2, _, he⟩ | ⟨path, r2, w2, q, hread, hs1, hc⟩
    · simp only [LoopStep.leave.injEq] at he
      rw [he.2]
      exact ⟨table_ok_of_eq hp s1 s2 s3, s2, s1⟩
    · obtain ⟨a1, a2, a3, _⟩ := sched_point_facts env _ q hs1
      rcases hc with ⟨_, he⟩ | ⟨_, p3, hb, he⟩
      · simp only [LoopStep.leave.injEq] at he
        rw [he.2]
        exact ⟨table_ok_of_eq hp (a1.trans s1) (a2.trans s2) (a3.trans s3), a2.trans s2,
          a1.trans s1⟩
      · simp at he

theorem main_loop_table (env : Env) (data : ExecutionData) :
    ∀ (fuel : Nat) (r : RECDIR) (p : Proc) (r1 : RECDIR) (p1 : Proc),
      table_ok p → main_loop env data fuel r p = .done (r1, p1) → table_ok p1 := by
  intro fuel
  induction fuel with
  | zero => intro r p r1 p1 _ h; simp [main_loop] at h
  | succ n ih =>
    intro r p r1 p1 hp h
    rw [main_loop_succ] at h
    obtain ⟨i1, i2⟩ := main_iter_table env data (n + 1) r p hp
    cases hit : main_iter env data (n + 1) r p with
    | abort => rw [hit] at h; simp at h
    | ub => rw [hit] at h; simp at h
    | timeout => rw [hit] at h; simp at h
    | done s =>
      rw [hit] at h
      cases s with
      | leave r2 p2 =>
        simp only [Outcome.done.injEq, Prod.mk.injEq] at h
        rw [← h.2]
        exact (i2 r2 p2 hit).1
      | again r2 p2 =>
        simp only [] at h
        exact ih r2 p2 r1 p1 (i1 r2 p2 hit).1 h

theorem cleanup_facts (data : ExecutionData) (recdir : Option RECDIR) (p : Proc) :
    (cleanup data recdir p).2.threads = p.threads ∧
    (cleanup data recdir p).2.dispatched = p.dispatched ∧
    (cleanup data recdir p).2.joined = p.joined ∧
    (cleanup data recdir p).2.terminated = p.terminated := by
  unfold cleanup
  cases recdir <;> simp only [] <;> split_ifs <;> exact ⟨rfl, rfl, rfl, rfl⟩

theorem main_joins (env : Env) (args : Args) (fuel : Nat) (w : World) (st : ExitStatus)
    (p : Proc) (h : main env args fuel w = .done (st, p)) :
    p.threads = [] ∧ p.joined = p.dispatched.length := by
  unfold main at h
  simp only [] at h
  split_ifs at h with hdb
  · simp only [Outcome.done.injEq] at h
    have := cleanup_facts { sql := false, args := args, excode := 1, fpath := none } none
      (Proc.init { w with errno := 0 })
    rw [h] at this
    obtain ⟨c1, c2, c3, _⟩ := this
    simp only [] at c1 c2 c3
    rw [c1, c2, c3]
    exact ⟨rfl, rfl⟩
  · cases hopen : recdiropen args.path env.root args.exclude_reg args.maxdepth args.mindepth
        args.verbose w with
    | mk o w1 =>
      rw [hopen] at h
      cases o with
      | none =>
        simp only [Outcome.done.injEq] at h
        have := cleanup_facts { sql := args.db.isSome, args := args, excode := 1, fpath := none }
          none (Proc.init { perror (some args.path) w1 with errno := 0 })
        rw [h] at this
        obtain ⟨c1, c2, c3, _⟩ := this
        simp only [] at c1 c2 c3
        rw [c1, c2, c3]
        exact ⟨rfl, rfl⟩
      | some r =>
        simp only [] at h
        cases hl : main_loop env { sql := args.db.isSome, args := args, excode := 0, fpath := none }
            fuel r (Proc.init w1) with
        | abort => rw [hl] at h; simp at h
        | ub => rw [hl] at h; simp at h
        | timeout => rw [hl] at h; simp at h
        | done x =>
          obtain ⟨r1, p1⟩ := x
          rw [hl] at h
          simp only [] at h
          cases hj : join_all env p1 with
          | none => rw [hj] at h; simp at h
          | some p2 =>
            rw [hj] at h
            simp only [Outcome.done.injEq] at h
            have ht := main_loop_table env _ fuel r (Proc.init w1) r1 p1 (table_ok_init w1) hl
            obtain ⟨j1, j2, j3, _⟩ := join_all_facts env p1 p2 hj
            have := cleanup_facts
              { sql := args.db.isSome, args := args, excode := 0, fpath := none } (some r1) p2
            rw [h] at this
            obtain ⟨c1, c2, c3, _⟩ := this
            simp only [] at c1 c2 c3
            rw [c1, c2, c3, j1, j2, j3]
            exact ⟨rfl, ht.2.symm⟩


/-- C1 (as stated, refuted): on the tree `root/{a.txt, sub/{b.txt}}` with
`mindepth = 1` and `maxdepth = 1` the walker yields `root/a.txt`, a file of
depth 1, which is not in the set of files of depth in `[1, 1)`. -/
theorem half_open_interval_counterexample :
    recdiropen "root".toList example_root none 1 1 ⟨false, false⟩ World.init =
        (some (opened_state "root".toList example_root none 1 1 ⟨false, false⟩ World.init),
         opened_world "root".toList ⟨false, false⟩ World.init) ∧
    yielded (drain 10 (opened_state "root".toList example_root none 1 1 ⟨false, false⟩ World.init)
        (opened_world "root".toList ⟨false, false⟩ World.init)) = some ["root/a.txt".toList] ∧
    eligible_half_open none 1 1 example_tree "root".toList = [] ∧
    ¬ (∀ p, p ∈ ["root/a.txt".toList] ↔ p ∈ eligible_half_open none 1 1 example_tree "root".toList) := by
  refine ⟨rfl, by decide, by decide, ?_⟩
  intro h
  have := (h "root/a.txt".toList).1 (List.mem_singleton.2 rfl)
  revert this
  decide

/-- C1 (amended): for every directory tree in which every entry is readable
and no system call fails, the paths yielded by calling `recdirread` until it
returns `NULL` are exactly the regular files without an excluded ancestor
directory whose depth `d` (root = 1) satisfies `mindepth ≤ d ≤ maxdepth`;
the files of the root itself are in reach even for `maxdepth = 0`. -/
theorem yielded_set_closed_interval (path : CStr) (root : FsNode)
    (exclude_reg : Option (CStr → Bool)) (maxdepth mindepth : Nat) (verbose : Verbose)
    (w : World) (r : RECDIR) (w1 : World)
    (hopen : recdiropen path root exclude_reg maxdepth mindepth verbose w = (some r, w1))
    (herr : w.errno = 0) (hclose : root.attr.close_ok = true) (hb : benign root.sub = true) :
    ∃ N, ∀ n, N ≤ n → ∃ ps, yielded (drain n r w1) = some ps ∧
      ∀ p, p ∈ ps ↔ p ∈ eligible_closed exclude_reg maxdepth mindepth root.sub path := by
  refine ⟨weight root.sub + 2, fun n hn => ?_⟩
  obtain ⟨r', w', h, _, _⟩ := opened_refines path root exclude_reg maxdepth mindepth verbose w r w1
    hopen herr hclose (benign_no_fatal hb) n (by omega)
  refine ⟨_, by rw [h]; rfl, fun p => ?_⟩
  rw [mem_eligible_closed_iff, listing_eq_walk_spec _ _ _ _ hb]

/-- Witness for C1 (amended): the example tree with `mindepth = 1`,
`maxdepth = 1`. -/
theorem yielded_set_closed_interval_witness :
    recdiropen "root".toList example_root none 1 1 ⟨false, false⟩ World.init =
        (some (opened_state "root".toList example_root none 1 1 ⟨false, false⟩ World.init),
         opened_world "root".toList ⟨false, false⟩ World.init) ∧
    World.init.errno = 0 ∧ example_root.attr.close_ok = true ∧ benign example_root.sub = true ∧
    eligible_closed none 1 1 example_root.sub "root".toList = ["root/a.txt".toList] ∧
    ∃ N, ∀ n, N ≤ n → ∃ ps,
      yielded (drain n (opened_state "root".toList example_root none 1 1 ⟨false, false⟩ World.init)
        (opened_world "root".toList ⟨false, false⟩ World.init)) = some ps ∧
      ∀ p, p ∈ ps ↔ p ∈ eligible_closed none 1 1 example_root.sub "root".toList :=
  ⟨rfl, rfl, rfl, by decide, by decide,
    yielded_set_closed_interval "root".toList example_root none 1 1 ⟨false, false⟩ World.init _ _
      rfl rfl rfl (by decide)⟩

/-! ## C2: the exit status after a failed insert -/

/-- The value `main` returns is the `excode` of its own `ExecutionData`: 0,
or 1 when the store or the root directory failed to open.  No worker can
change it. -/
theorem main_returns_excode_of_main (env : Env) (args : Args) (fuel : Nat) (w : World)
    (c : Int) (p : Proc) (h : main env args fuel w = .done (.returned c, p)) :
    c = 0 ∨ (c = 1 ∧ ((args.db.isSome = true ∧ env.sql_open_ok = false) ∨
      (recdiropen args.path env.root args.exclude_reg args.maxdepth args.mindepth args.verbose w).1 = none)) := by
  unfold main at h
  split_ifs at h with h1
  · simp only [cleanup] at h
    split_ifs at h
    · have h2 := congrArg exit_status h
      simp [exit_status] at h2
    · have h2 := congrArg exit_status h
      simp only [exit_status, Option.some.injEq, ExitStatus.returned.injEq] at h2
      exact Or.inr ⟨h2.symm, Or.inl h1⟩
  · revert h
    cases ho : recdiropen args.path env.root args.exclude_reg args.maxdepth args.mindepth args.verbose w with
    | mk o w1 =>
      cases o with
      | none =>
        intro h
        simp only [cleanup] at h
        split_ifs at h
        · have h2 := congrArg exit_status h
          simp [exit_status] at h2
        · have h2 := congrArg exit_status h
          simp only [exit_status, Option.some.injEq, ExitStatus.returned.injEq] at h2
          exact Or.inr ⟨h2.symm, Or.inr rfl⟩
      | some r =>
        simp only []
        cases hl : main_loop env { sql := args.db.isSome, args := args, excode := 0, fpath := none } fuel r (Proc.init w1) with
        | done x =>
          simp only []
          cases hj : join_all env x.2 with
          | none => intro h; simp at h
          | some p2 =>
            intro h
            simp only [cleanup] at h
            split_ifs at h
            · have h2 := congrArg exit_status h
              simp [exit_status] at h2
            · have h2 := congrArg exit_status h
              simp only [exit_status, Option.some.injEq, ExitStatus.returned.injEq] at h2
              exact Or.inl h2.symm
        | abort => intro h; simp at h
        | ub => intro h; simp at h
        | timeout => intro h; simp at h

/-- C2 (the code at the failing input): scanning `root/{a.txt}` into a store
whose insert fails, the worker sets the termination flag and stores nothing,
the path block is freed once, by the walker, and `main` returns 0. -/
theorem insert_failure_exit_status_zero :
    exit_status (main failing_insert_env failing_insert_args 10 World.init) = some (.returned 0) ∧
    exit_terminated (main failing_insert_env failing_insert_args 10 World.init) = some true ∧
    exit_stored (main failing_insert_env failing_insert_args 10 World.init) = some [] ∧
    exit_dispatched (main failing_insert_env failing_insert_args 10 World.init) =
      some ["root/a.txt".toList] ∧
    exit_frees (main failing_insert_env failing_insert_args 10 World.init) = some [0] := by
  decide

/-! ## C3: refinement of the recursive listing -/

/-- C3 (as stated, refuted): in `root/{x, a.txt, sub/{b.txt}}` the file `x`
fails the readability check.  The recursive listing of the claim holds
`root/x`; the walker reports the error and yields `root/a.txt` and
`root/sub/b.txt` only. -/
theorem unreadable_listing_counterexample :
    recdiropen "root".toList unreadable_root none 100 1 ⟨false, false⟩ World.init =
        (some (opened_state "root".toList unreadable_root none 100 1 ⟨false, false⟩ World.init),
         opened_world "root".toList ⟨false, false⟩ World.init) ∧
    walk_spec none 100 1 unreadable_root.sub "root".toList 1 =
      ["root/x".toList, "root/a.txt".toList, "root/sub/b.txt".toList] ∧
    (∀ n : Nat, yielded (drain (n + 4)
        (opened_state "root".toList unreadable_root none 100 1 ⟨false, false⟩ World.init)
        (opened_world "root".toList ⟨false, false⟩ World.init)) =
      some ["root/a.txt".toList, "root/sub/b.txt".toList]) ∧
    (∀ n : Nat, yielded (drain n
        (opened_state "root".toList unreadable_root none 100 1 ⟨false, false⟩ World.init)
        (opened_world "root".toList ⟨false, false⟩ World.init)) ≠
      some (walk_spec none 100 1 unreadable_root.sub "root".toList 1)) := by
  have h4 : ∀ n : Nat, yielded (drain (n + 4)
        (opened_state "root".toList unreadable_root none 100 1 ⟨false, false⟩ World.init)
        (opened_world "root".toList ⟨false, false⟩ World.init)) =
      some ["root/a.txt".toList, "root/sub/b.txt".toList] := fun _ => rfl
  refine ⟨rfl, by decide, h4, fun n => ?_⟩
  match n with
  | 0 => decide
  | 1 => decide
  | 2 => decide
  | 3 => decide
  | n + 4 => rw [h4 n]; decide

/-- C3 (amended): the iterative frame-stack walker refines the recursive
pre-order listing: for every directory tree in which every entry is
readable and on which no system call fails, with `errno` clear at entry, the
sequence of paths returned by successive `recdirread` calls, up to the
`NULL` that ends it, is `walk_spec` of the root at depth 1. -/
theorem walker_refines_walk_spec (path : CStr) (root : FsNode)
    (exclude_reg : Option (CStr → Bool)) (maxdepth mindepth : Nat) (verbose : Verbose)
    (w : World) (r : RECDIR) (w1 : World)
    (hopen : recdiropen path root exclude_reg maxdepth mindepth verbose w = (some r, w1))
    (herr : w.errno = 0) (hclose : root.attr.close_ok = true) (hb : benign root.sub = true) :
    ∃ N, ∀ n, N ≤ n →
      yielded (drain n r w1) = some (walk_spec exclude_reg maxdepth mindepth root.sub path 1) := by
  refine ⟨weight root.sub + 2, fun n hn => ?_⟩
  obtain ⟨r', w', h, _, _⟩ := opened_refines path root exclude_reg maxdepth mindepth verbose w r w1
    hopen herr hclose (benign_no_fatal hb) n (by omega)
  rw [h, listing_eq_walk_spec _ _ _ _ hb]
  rfl

/-- Witness for C3 (amended): the example tree, `mindepth = 1`, `maxdepth = 100`. -/
theorem walker_refines_walk_spec_witness :
    recdiropen "root".toList example_root none 100 1 ⟨true, false⟩ World.init =
        (some (opened_state "root".toList example_root none 100 1 ⟨true, false⟩ World.init),
         opened_world "root".toList ⟨true, false⟩ World.init) ∧
    World.init.errno = 0 ∧ example_root.attr.close_ok = true ∧ benign example_root.sub = true ∧
    walk_spec none 100 1 example_root.sub "root".toList 1 =
      ["root/a.txt".toList, "root/sub/b.txt".toList] ∧
    ∃ N, ∀ n, N ≤ n →
      yielded (drain n (opened_state "root".toList example_root none 100 1 ⟨true, false⟩ World.init)
        (opened_world "root".toList ⟨true, false⟩ World.init)) =
      some (walk_spec none 100 1 example_root.sub "root".toList 1) :=
  ⟨rfl, rfl, rfl, by decide, by decide,
    walker_refines_walk_spec "root".toList example_root none 100 1 ⟨true, false⟩ World.init _ _
      rfl rfl rfl (by decide)⟩

/-! ## C4: no path is yielded twice -/

/-- C5 (the code at the failing input): in `root/{a.txt, sub/}` the
directory `sub` passes the readability check and `opendir` fails for it.
The first call of `recdirread` returns `root/a.txt`; the second runs into
`assert(0 && "UNREACHABLE?")` and the process is aborted.  Whatever the
fuel, the walk never ends with `NULL`: the second call does not return. -/
theorem walk_aborted_before_null :
    recdiropen "root".toList open_fail_root none 100 1 ⟨false, false⟩ World.init =
        (some (opened_state "root".toList open_fail_root none 100 1 ⟨false, false⟩ World.init),
         opened_world "root".toList ⟨false, false⟩ World.init) ∧
    (∀ n : Nat, call_summary (recdirread (n + 1)
        (opened_state "root".toList open_fail_root none 100 1 ⟨false, false⟩ World.init)
        (opened_world "root".toList ⟨false, false⟩ World.init)) =
      some (some "root/a.txt".toList, 1, 1, [], 0)) ∧
    (∀ n : Nat, drain (n + 2)
        (opened_state "root".toList open_fail_root none 100 1 ⟨false, false⟩ World.init)
        (opened_world "root".toList ⟨false, false⟩ World.init) = .abort) ∧
    (∀ (n : Nat) (ps : List CStr) (r : RECDIR) (w : World), drain n
        (opened_state "root".toList open_fail_root none 100 1 ⟨false, false⟩ World.init)
        (opened_world "root".toList ⟨false, false⟩ World.init) ≠ .done (ps, r, w)) := by
  have h2 : ∀ n : Nat, drain (n + 2)
        (opened_state "root".toList open_fail_root none 100 1 ⟨false, false⟩ World.init)
        (opened_world "root".toList ⟨false, false⟩ World.init) = .abort := fun _ => rfl
  refine ⟨rfl, fun _ => rfl, h2, fun n ps r w h => ?_⟩
  match n with
  | 0 =>
    have h0 : drain 0
        (opened_state "root".toList open_fail_root none 100 1 ⟨false, false⟩ World.init)
        (opened_world "root".toList ⟨false, false⟩ World.init) = .timeout := rfl
    rw [h0] at h
    exact absurd h (by simp)
  | 1 =>
    have h1 : drain 1
        (opened_state "root".toList open_fail_root none 100 1 ⟨false, false⟩ World.init)
        (opened_world "root".toList ⟨false, false⟩ World.init) = .timeout := rfl
    rw [h1] at h
    exact absurd h (by simp)
  | n + 2 =>
    rw [h2 n] at h
    exact absurd h (by simp)

/-! ## C6: descent policy for `maxdepth` -/

/-- C6 (as stated, refuted): with `maxdepth = 1` and `mindepth = 2` the walk
of `root/{a.txt, sub/{b.txt}}` yields nothing, although `root/a.txt` is a
regular file directly in the root.  And with `maxdepth = 1`, `mindepth = 1`
the walk of `root/{x, a.txt, sub/{b.txt}}`, where `x` fails the readability
check, yields `root/a.txt` only, although `root/x` is a regular file
directly in the root as well. -/
theorem maxdepth_one_counterexample :
    recdiropen "root".toList example_root none 1 2 ⟨false, false⟩ World.init =
        (some (opened_state "root".toList example_root none 1 2 ⟨false, false⟩ World.init),
         opened_world "root".toList ⟨false, false⟩ World.init) ∧
    yielded (drain 10 (opened_state "root".toList example_root none 1 2 ⟨false, false⟩ World.init)
        (opened_world "root".toList ⟨false, false⟩ World.init)) = some [] ∧
    files_here example_tree "root".toList = ["root/a.txt".toList] ∧
    yielded (drain 10
        (opened_state "root".toList unreadable_root none 1 1 ⟨false, false⟩ World.init)
        (opened_world "root".toList ⟨false, false⟩ World.init)) = some ["root/a.txt".toList] ∧
    files_here unreadable_root.sub "root".toList = ["root/x".toList, "root/a.txt".toList] :=
  ⟨rfl, by decide, by decide, by decide, by decide⟩

/-- C6 (amended): descent policy for `maxdepth`.  In every reachable state
with `depth ≥ maxdepth` a pass through the loop pushes no frame and opens no
directory; hence for `maxdepth ≥ 1` the depth never exceeds `maxdepth`; and
with `maxdepth = 1` and `mindepth ≤ 1`, on a tree in which every entry is
readable and no system call fails, with `errno` clear at entry, the walk
opens the root only and yields exactly the regular files directly in the
root. -/
theorem maxdepth_descent_policy :
    (∀ (path : Option CStr) (r : RECDIR) (w : World), Reachable r w → r.maxdepth ≤ r.depth →
      no_push_after r w (recdirread_body path r w)) ∧
    (∀ (r : RECDIR) (w : World), Reachable r w → 1 ≤ r.maxdepth → r.depth ≤ r.maxdepth) ∧
    (∀ (path : CStr) (root : FsNode) (exclude_reg : Option (CStr → Bool)) (mindepth : Nat)
        (verbose : Verbose) (w : World) (r : RECDIR) (w1 : World),
      recdiropen path root exclude_reg 1 mindepth verbose w = (some r, w1) →
      w.errno = 0 → root.attr.close_ok = true → benign root.sub = true → mindepth ≤ 1 →
      ∃ N, ∀ n, N ≤ n → ∃ r' w',
        drain n r w1 = .done (files_here root.sub path, r', w') ∧ w'.opened = w.opened + 1) := by
  refine ⟨?_, ?_, ?_⟩
  · intro path r w hr hmax
    obtain ⟨hg, hne, _⟩ := reachable_inv hr
    exact body_no_push path r w hg hne hmax
  · intro r w hr h1
    obtain ⟨hg, _, _⟩ := reachable_inv hr
    have := hg.2
    omega
  · intro path root ex mn verbose w r w1 hopen herr hclose hb hmn
    refine ⟨weight root.sub + 2, fun n hn => ?_⟩
    obtain ⟨r', w', h, _, _⟩ := opened_refines path root ex 1 mn verbose w r w1
      hopen herr hclose (benign_no_fatal hb) n (by omega)
    rw [listing_eq_walk_spec _ _ _ _ hb, walk_spec_maxdepth_one _ _ _ _ hmn] at h
    refine ⟨r', w', h, ?_⟩
    obtain ⟨_, _, hr, hw⟩ := recdiropen_some hopen
    subst hr; subst hw
    have hI := opened_state_ginv path root ex 1 mn verbose w
    have hwt : stack_weight (opened_state path root ex 1 mn verbose w).frames < n := by
      simp only [opened_state, stack_weight]; omega
    rcases drain_general n _ _ hI.1 hI.2 hwt with ⟨ps, r2, w2, hd, _, _, _, _, ho⟩ | ⟨hd, _⟩
    · rw [hd] at h
      injection h with h
      have hw2 : w2 = w' := by
        injection h with _ h
        injection h
      subst hw2
      rw [ho (le_refl _)]
      cases hs : verbose.stack <;> simp [opened_world, hs]
    · rw [hd] at h
      exact absurd h (by simp)

/-- Witness for C6 (amended): `root/{a.txt, sub/{b.txt}}` with `maxdepth = 1`
yields `root/a.txt` only, and `sub` is never opened. -/
theorem maxdepth_descent_policy_witness :
    recdiropen "root".toList example_root none 1 1 ⟨false, false⟩ World.init =
        (some (opened_state "root".toList example_root none 1 1 ⟨false, false⟩ World.init),
         opened_world "root".toList ⟨false, false⟩ World.init) ∧
    World.init.errno = 0 ∧ example_root.attr.close_ok = true ∧ benign example_root.sub = true ∧
    (1 : Nat) ≤ 1 ∧
    files_here example_root.sub "root".toList = ["root/a.txt".toList] ∧
    ∃ N, ∀ n, N ≤ n → ∃ r' w',
      drain n (opened_state "root".toList example_root none 1 1 ⟨false, false⟩ World.init)
        (opened_world "root".toList ⟨false, false⟩ World.init) =
        .done (files_here example_root.sub "root".toList, r', w') ∧
      w'.opened = World.init.opened + 1 :=
  ⟨rfl, rfl, rfl, by decide, le_refl _, by decide,
    maxdepth_descent_policy.2.2 "root".toList example_root none 1 ⟨false, false⟩ World.init _ _
      rfl rfl rfl (by decide) (le_refl _)⟩

/-! ## C7: exclusion -/

/-- C7 (as stated, refuted): with `maxdepth = 1`, a pattern matching `sub`
and structural logging enabled, the walk of `root/{a.txt, sub/{b.txt}}`
meets the directory `root/sub`, whose path matches, and logs no `EXCLUDE`
line: the depth test comes first. -/
theorem exclude_log_counterexample :
    recdiropen "root".toList example_root (some matches_sub) 1 1 ⟨true, false⟩ World.init =
        (some (opened_state "root".toList example_root (some matches_sub) 1 1 ⟨true, false⟩ World.init),
         opened_world "root".toList ⟨true, false⟩ World.init) ∧
    "root/sub".toList ∈ dir_paths example_tree "root".toList ∧
    matches_sub "root/sub".toList = true ∧
    logged (drain 10
        (opened_state "root".toList example_root (some matches_sub) 1 1 ⟨true, false⟩ World.init)
        (opened_world "root".toList ⟨true, false⟩ World.init)) =
      some ["OPEN        root\n".toList, "CLOSE       root\n".toList] ∧
    printf_fmt 10 "EXCLUDE".toList "root/sub".toList ∉
      ["OPEN        root\n".toList, "CLOSE       root\n".toList] :=
  ⟨rfl, by decide, by decide, by decide, by decide⟩

/-- C7 (amended): exclusion.  In no reachable state does a frame above the
root's hold a path that matches the pattern: such a directory is never
pushed.  When the walker reads a readable directory entry whose joined path
matches the pattern, it pushes no frame and opens no directory; if the
current depth is below `maxdepth` it logs the `EXCLUDE` line with that path
when logging is enabled, and at `depth ≥ maxdepth` it logs nothing.  On a
well-formed tree without system-call failures no yielded path lies beneath
a directory whose path matches the pattern. -/
theorem exclusion_policy :
    (∀ (r : RECDIR) (w : World), Reachable r w → no_excluded_frame r) ∧
    (∀ (path : Option CStr) (r : RECDIR) (w : World) (top : RECDIR_FRAME) (d : dirent)
        (node : FsNode) (s1 : DirStream),
      recdirtop r = some top → w.errno = 0 →
      readdir_loop top.dir.stream w.errno = (some (d, node), s1, w.errno) →
      node.attr.access_ok = true → d.d_type = .DT_DIR →
      excluded r.exclude_reg (makepath top.path d.d_name) = true →
      ∃ p1 r1 w1, recdirread_body path r w = .continue_ p1 r1 w1 ∧
        r1.depth = r.depth ∧ r1.frames.length = r.frames.length ∧ w1.opened = w.opened ∧
        (r.maxdepth ≤ r.depth → w1.out = w.out) ∧
        (r.depth < r.maxdepth → ∀ width, r.fmt = some width →
          w1.out = w.out ++ [printf_fmt width "EXCLUDE".toList (makepath top.path d.d_name)]) ∧
        (r.depth < r.maxdepth → r.fmt = none → w1.out = w.out)) ∧
    (∀ (path : CStr) (root : FsNode) (exclude_reg : Option (CStr → Bool))
        (maxdepth mindepth : Nat) (verbose : Verbose) (w : World) (r : RECDIR) (w1 : World),
      recdiropen path root exclude_reg maxdepth mindepth verbose w = (some r, w1) →
      w.errno = 0 → root.attr.close_ok = true → benign root.sub = true →
      well_formed root.sub = true →
      ∃ N, ∀ n, N ≤ n → ∃ ps, yielded (drain n r w1) = some ps ∧
        ∀ q, q ∈ dir_paths root.sub path → excluded exclude_reg q = true →
          ∀ p, p ∈ ps → ¬ (q ++ ['/']) <+: p) := by
  refine ⟨fun r w hr => reachable_no_excluded hr, excluded_dir_step, ?_⟩
  intro path root ex mx mn verbose w r w1 hopen herr hclose hb hwf
  refine ⟨weight root.sub + 2, fun n hn => ?_⟩
  obtain ⟨r', w', h, _, _⟩ := opened_refines path root ex mx mn verbose w r w1
    hopen herr hclose (benign_no_fatal hb) n (by omega)
  rw [listing_eq_walk_spec _ _ _ _ hb] at h
  refine ⟨_, by rw [h]; rfl, fun q hq hex p hp => ?_⟩
  exact not_beneath_excluded ex mx mn root.sub hwf path 1 q p hq hex hp

/-- Witness for C7 (amended): with a pattern matching `sub`,
`root/{a.txt, sub/{b.txt}}` yields `root/a.txt` only and the log records the
exclusion of `root/sub`. -/
theorem exclusion_policy_witness :
    recdiropen "root".toList example_root (some matches_sub) 100 1 ⟨true, false⟩ World.init =
        (some (opened_state "root".toList example_root (some matches_sub) 100 1 ⟨true, false⟩
          World.init), opened_world "root".toList ⟨true, false⟩ World.init) ∧
    World.init.errno = 0 ∧ example_root.attr.close_ok = true ∧ benign example_root.sub = true ∧
    well_formed example_root.sub = true ∧
    yielded (drain 10
        (opened_state "root".toList example_root (some matches_sub) 100 1 ⟨true, false⟩ World.init)
        (opened_world "root".toList ⟨true, false⟩ World.init)) = some ["root/a.txt".toList] ∧
    logged (drain 10
        (opened_state "root".toList example_root (some matches_sub) 100 1 ⟨true, false⟩ World.init)
        (opened_world "root".toList ⟨true, false⟩ World.init)) =
      some ["OPEN        root\n".toList, "EXCLUDE     root/sub\n".toList,
        "CLOSE       root\n".toList] ∧
    ∃ N, ∀ n, N ≤ n → ∃ ps,
      yielded (drain n
        (opened_state "root".toList example_root (some matches_sub) 100 1 ⟨true, false⟩ World.init)
        (opened_world "root".toList ⟨true, false⟩ World.init)) = some ps ∧
      ∀ q, q ∈ dir_paths example_root.sub "root".toList → excluded (some matches_sub) q = true →
        ∀ p, p ∈ ps → ¬ (q ++ ['/']) <+: p :=
  ⟨rfl, rfl, rfl, by decide, by decide, by decide, by decide,
    exclusion_policy.2.2 "root".toList example_root (some matches_sub) 100 1 ⟨true, false⟩
      World.init _ _ rfl rfl rfl (by decide) (by decide)⟩

/-! ## C8: release of directory handles -/

/-- C8 (the code at the failing input): a scan of `root/{a.txt, sub/{b.txt}}`
interrupted while the first path is produced leaves the loop with the root
frame on the stack; `main` calls `recdirclose` and returns, and the handle
of the root (id 0) has been opened and never passed to `closedir`.
`recdirclose` changes nothing outside the walker's own memory. -/
theorem recdirclose_leaves_handles_open :
    exit_status (main interrupted_env interrupted_args 10 World.init) = some (.returned 0) ∧
    exit_terminated (main interrupted_env interrupted_args 10 World.init) = some true ∧
    (exit_world (main interrupted_env interrupted_args 10 World.init)).map
      (fun w => (w.opened, w.closed)) = some (1, []) ∧
    (∀ (r : RECDIR) (w : World), recdirclose r w = w) :=
  ⟨by decide, by decide, by decide, fun _ _ => rfl⟩

/-! ## C9: when `recdirread` returns `NULL` -/

/-- C10 (as stated, refuted): fifteen directories deep the capacity is 16;
the push to depth 16 grows it to 32, the pop that follows shrinks it to 16,
and so on: alternating between depths 15 and 16 reallocates on every
operation. -/
theorem capacity_thrash_counterexample :
    depth_and_capacity depth_fifteen.1 = (15, 16) ∧
    depth_and_capacity (push_once depth_fifteen).1 = (16, 32) ∧
    depth_and_capacity (pop_once (push_once depth_fifteen)).1 = (15, 16) ∧
    depth_and_capacity (push_once (pop_once (push_once depth_fifteen))).1 = (16, 32) ∧
    depth_and_capacity (pop_once (push_once (pop_once (push_once depth_fifteen)))).1 = (15, 16) := by
  decide

/-- C10 (amended): the capacity `frames_sz` changes only in steps of
`FRAMES_REALLOC_SIZE = 16` and, from `recdiropen` on, is the least multiple
of 16 above `depth`.  A push reallocates exactly when it reaches a depth
that is a multiple of 16, a pop exactly when it leaves one.  So a push
followed by a pop restores the capacity; both reallocate when the deeper of
the two depths is a multiple of 16, and neither does otherwise. -/
theorem capacity_steps :
    (∀ (r : RECDIR) (path : CStr) (node : FsNode) (w : World),
      (recdirpush r path node w).2.1.frames_sz = r.frames_sz ∨
      (recdirpush r path node w).2.1.frames_sz = r.frames_sz + FRAMES_REALLOC_SIZE) ∧
    (∀ (r : RECDIR) (w : World) (x : Int) (r1 : RECDIR) (w1 : World),
      recdirpop r w = .done (x, r1, w1) → FRAMES_REALLOC_SIZE ≤ r.frames_sz →
      r.frames_sz < SIZE_MOD →
      r1.frames_sz = r.frames_sz ∨ r1.frames_sz + FRAMES_REALLOC_SIZE = r.frames_sz) ∧
    (∀ (path : CStr) (root : FsNode) (exclude_reg : Option (CStr → Bool))
        (maxdepth mindepth : Nat) (verbose : Verbose) (w : World) (r : RECDIR) (w1 : World),
      recdiropen path root exclude_reg maxdepth mindepth verbose w = (some r, w1) → cap_ok r) ∧
    (∀ (r : RECDIR) (path : CStr) (node : FsNode) (w : World) (r1 : RECDIR) (w1 : World),
      cap_ok r → recdirpush r path node w = (0, r1, w1) →
      r1.depth = r.depth + 1 ∧ (r1.frames_sz ≠ r.frames_sz ↔ r1.depth % 16 = 0) ∧
      (r1.frames_sz + FRAMES_REALLOC_SIZE < SIZE_MOD → cap_ok r1)) ∧
    (∀ (r : RECDIR) (w : World) (x : Int) (r1 : RECDIR) (w1 : World),
      cap_ok r → recdirpop r w = .done (x, r1, w1) →
      r1.depth + 1 = r.depth ∧ (r1.frames_sz ≠ r.frames_sz ↔ r.depth % 16 = 0) ∧ cap_ok r1) ∧
    (∀ (r : RECDIR) (path : CStr) (node : FsNode) (w : World) (r1 : RECDIR) (w1 : World)
        (x : Int) (r2 : RECDIR) (w2 : World),
      cap_ok r → recdirpush r path node w = (0, r1, w1) → recdirpop r1 w1 = .done (x, r2, w2) →
      r2.depth = r.depth ∧ r2.frames_sz = r.frames_sz ∧
      (r1.depth % 16 = 0 → r1.frames_sz ≠ r.frames_sz ∧ r2.frames_sz ≠ r1.frames_sz) ∧
      (r1.depth % 16 ≠ 0 → r1.frames_sz = r.frames_sz ∧ r2.frames_sz = r1.frames_sz)) := by
  have hpush : ∀ (r : RECDIR) (path : CStr) (node : FsNode) (w : World) (r1 : RECDIR) (w1 : World),
      cap_ok r → recdirpush r path node w = (0, r1, w1) →
      r1.depth = r.depth + 1 ∧ (r1.frames_sz ≠ r.frames_sz ↔ r1.depth % 16 = 0) ∧
      r1.frames_sz = 16 * (r1.depth / 16 + 1) ∧ r1.frames_sz ≤ r.frames_sz + 16 := by
    intro r path node w r1 w1 hc hp
    obtain ⟨h1, h2⟩ := recdirpush_ok hp
    obtain ⟨c1, c2⟩ := hc
    simp only [FRAMES_REALLOC_SIZE] at c1
    obtain ⟨p1, p2⟩ := push_sz_cap r.frames_sz r.depth c1
    rw [h1, h2]
    refine ⟨rfl, p2, p1, ?_⟩
    unfold push_sz FRAMES_REALLOC_SIZE
    split_ifs <;> omega
  have hpop : ∀ (r : RECDIR) (w : World) (x : Int) (r1 : RECDIR) (w1 : World),
      r.frames_sz = 16 * (r.depth / 16 + 1) → r.frames_sz < 2 ^ 64 →
      recdirpop r w = .done (x, r1, w1) →
      r1.depth + 1 = r.depth ∧ (r1.frames_sz ≠ r.frames_sz ↔ r.depth % 16 = 0) ∧
      r1.frames_sz = 16 * (r1.depth / 16 + 1) ∧ r1.frames_sz ≤ r.frames_sz := by
    intro r w x r1 w1 c1 c2 hp
    obtain ⟨h0, h1, h2⟩ := recdirpop_ok hp
    have hd : r.depth - 1 + 1 = r.depth := by omega
    obtain ⟨p1, p2⟩ := pop_sz_cap r.frames_sz (r.depth - 1) (by rw [hd]; exact c1) c2
    rw [hd] at p2
    rw [h1, h2]
    refine ⟨hd, p2, p1, ?_⟩
    by_cases hne : pop_sz r.frames_sz (r.depth - 1) = r.frames_sz
    · omega
    · have := p2.1 hne
      rw [p1, c1]
      omega
  refine ⟨recdirpush_frames_sz, ?_, ?_, ?_, ?_, ?_⟩
  · intro r w x r1 w1 hp h16 hlt
    obtain ⟨_, _, h2⟩ := recdirpop_ok hp
    rw [h2]
    unfold pop_sz
    have e : (r.frames_sz + SIZE_MOD - FRAMES_REALLOC_SIZE) % SIZE_MOD = r.frames_sz - FRAMES_REALLOC_SIZE := by
      have : r.frames_sz + SIZE_MOD - FRAMES_REALLOC_SIZE = (r.frames_sz - FRAMES_REALLOC_SIZE) + SIZE_MOD := by
        omega
      rw [this, Nat.add_mod_right, Nat.mod_eq_of_lt (by omega)]
    rw [e]
    split_ifs
    · right; omega
    · left; rfl
  · intro path root ex mx mn verbose w r w1 hopen
    obtain ⟨_, _, hr, _⟩ := recdiropen_some hopen
    subst hr
    exact ⟨by simp [opened_state, FRAMES_REALLOC_SIZE], by simp [opened_state, FRAMES_REALLOC_SIZE, SIZE_MOD]⟩
  · intro r path node w r1 w1 hc hp
    obtain ⟨a1, a2, a3, _⟩ := hpush r path node w r1 w1 hc hp
    exact ⟨a1, a2, fun h => ⟨by simpa [FRAMES_REALLOC_SIZE] using a3, h⟩⟩
  · intro r w x r1 w1 hc hp
    obtain ⟨c1, c2⟩ := hc
    simp only [FRAMES_REALLOC_SIZE, SIZE_MOD] at c1 c2
    obtain ⟨a1, a2, a3, a4⟩ := hpop r w x r1 w1 c1 (by omega) hp
    refine ⟨a1, a2, by simpa [FRAMES_REALLOC_SIZE] using a3, ?_⟩
    simp only [FRAMES_REALLOC_SIZE, SIZE_MOD]
    omega
  · intro r path node w r1 w1 x r2 w2 hc hp hq
    obtain ⟨a1, a2, a3, a4⟩ := hpush r path node w r1 w1 hc hp
    obtain ⟨c1, c2⟩ := hc
    simp only [FRAMES_REALLOC_SIZE, SIZE_MOD] at c1 c2
    obtain ⟨b1, b2, b3, b4⟩ := hpop r1 w1 x r2 w2 a3 (by omega) hq
    have hd : r2.depth = r.depth := by omega
    have hs : r2.frames_sz = r.frames_sz := by rw [b3, c1, hd]
    refine ⟨hd, hs, fun h => ⟨a2.2 h, b2.2 h⟩, fun h => ?_⟩
    have e1 : r1.frames_sz = r.frames_sz := by
      by_contra hne
      exact h (a2.1 hne)
    exact ⟨e1, by rw [hs, e1]⟩

/-- Witness for C10 (amended): at depth 15 the push and the pop both
reallocate. -/
theorem capacity_steps_witness :
    cap_ok depth_fifteen.1 ∧
    recdirpush depth_fifteen.1 "d".toList example_root depth_fifteen.2 =
      (0, (push_once depth_fifteen).1, (push_once depth_fifteen).2) ∧
    recdirpop (push_once depth_fifteen).1 (push_once depth_fifteen).2 =
      .done (0, (pop_once (push_once depth_fifteen)).1, (pop_once (push_once depth_fifteen)).2) ∧
    ((pop_once (push_once depth_fifteen)).1.depth = depth_fifteen.1.depth ∧
      (pop_once (push_once depth_fifteen)).1.frames_sz = depth_fifteen.1.frames_sz ∧
      ((push_once depth_fifteen).1.depth % 16 = 0 →
        (push_once depth_fifteen).1.frames_sz ≠ depth_fifteen.1.frames_sz ∧
        (pop_once (push_once depth_fifteen)).1.frames_sz ≠ (push_once depth_fifteen).1.frames_sz) ∧
      ((push_once depth_fifteen).1.depth % 16 ≠ 0 →
        (push_once depth_fifteen).1.frames_sz = depth_fifteen.1.frames_sz ∧
        (pop_once (push_once depth_fifteen)).1.frames_sz = (push_once depth_fifteen).1.frames_sz)) :=
  ⟨⟨by decide, by decide⟩, rfl, rfl,
    capacity_steps.2.2.2.2.2 depth_fifteen.1 "d".toList example_root depth_fifteen.2 _ _ 0 _ _
      ⟨by decide, by decide⟩ rfl rfl⟩

/-! ## C11: bounded concurrency -/

/-- C12: cooperative cancellation.  When the loop condition of `main` finds
`terminated` set after `recdirread` has returned a path, the loop is left
with the thread table and the list of dispatched paths as they were: no
thread is created for the path just read.  An iteration entered with the
flag set never dispatches.  And whenever `main` returns, the table is empty
and the number of joins equals the number of threads created. -/
theorem cooperative_cancellation (env : Env) :
    (∀ (data : ExecutionData) (fuel : Nat) (r : RECDIR) (p p0 : Proc) (path : CStr)
        (r1 : RECDIR) (w1 : World) (p1 : Proc),
      sched_point env p = some p0 → fpath_freed r p0.w = false →
      recdirread fuel r p0.w = .done (some path, r1, w1) →
      sched_point env { p0 with w := w1 } = some p1 → p1.terminated = true →
      main_iter env data fuel r p = .done (.leave r1 p1) ∧
      p1.dispatched = p.dispatched ∧ p1.threads.length = p.threads.length) ∧
    (∀ (data : ExecutionData) (fuel : Nat) (r : RECDIR) (p : Proc) (r1 : RECDIR) (p1 : Proc),
      p.terminated = true → main_iter env data fuel r p ≠ .done (.again r1 p1)) ∧
    (∀ (args : Args) (fuel : Nat) (w : World) (st : ExitStatus) (p : Proc),
      main env args fuel w = .done (st, p) →
      p.threads = [] ∧ p.joined = p.dispatched.length) := by
  refine ⟨?_, ?_, fun args fuel w st p h => main_joins env args fuel w st p h⟩
  · intro data fuel r p p0 path r1 w1 p1 hs hf hread hs1 ht
    obtain ⟨s1, s2, _⟩ := sched_point_facts env p p0 hs
    obtain ⟨a1, a2, _⟩ := sched_point_facts env _ p1 hs1
    refine ⟨?_, a2.trans s2, a1.trans s1⟩
    unfold main_iter
    rw [hs]
    simp only [hf, Bool.false_eq_true, if_false]
    rw [hread]
    simp only []
    rw [hs1]
    simp only [ht, if_true]
  · intro data fuel r p r1 p1 ht h
    obtain ⟨p0, hs, _, hc⟩ := main_iter_cases env data fuel r p _ h
    have h0 := (sched_point_facts env p p0 hs).2.2.2.2 ht
    rcases hc with ⟨r2, w2, _, he⟩ | ⟨path, r2, w2, q, _, hs1, hc⟩
    · simp at he
    · have hq := (sched_point_facts env _ q hs1).2.2.2.2 h0
      rcases hc with ⟨_, he⟩ | ⟨hf, _⟩
      · simp at he
      · rw [hq] at hf; simp at hf

/-- Witness for C12: the interrupt arrives while the first path is being
read; `main` returns without having created a thread. -/
theorem cooperative_cancellation_witness :
    (∃ p0 path r1 w1 p1,
      sched_point interrupted_env
        (Proc.init (opened_world "root".toList ⟨false, false⟩ World.init)) = some p0 ∧
      fpath_freed (opened_state "root".toList example_root none 100 1 ⟨false, false⟩ World.init)
        p0.w = false ∧
      recdirread 20 (opened_state "root".toList example_root none 100 1 ⟨false, false⟩ World.init)
        p0.w = .done (some path, r1, w1) ∧
      path = "root/a.txt".toList ∧
      sched_point interrupted_env { p0 with w := w1 } = some p1 ∧
      p1.terminated = true ∧
      main_iter interrupted_env { sql := false, args := interrupted_args, excode := 0, fpath := none }
        20 (opened_state "root".toList example_root none 100 1 ⟨false, false⟩ World.init)
        (Proc.init (opened_world "root".toList ⟨false, false⟩ World.init)) =
        .done (.leave r1 p1)) ∧
    exit_dispatched (main interrupted_env interrupted_args 20 World.init) = some [] ∧
    exit_terminated (main interrupted_env interrupted_args 20 World.init) = some true :=
  ⟨⟨_, _, _, _, _, rfl, rfl, rfl, rfl, rfl, rfl,
    ((cooperative_cancellation interrupted_env).1
      { sql := false, args := interrupted_args, excode := 0, fpath := none } 20
      (opened_state "root".toList example_root none 100 1 ⟨false, false⟩ World.init)
      (Proc.init (opened_world "root".toList ⟨false, false⟩ World.init)) _ _ _ _ _
      rfl rfl rfl rfl rfl).1⟩, by decide, by decide⟩

/-! ## C13: unreadable entries -/

/-- C14 (the code at the failing input): in `root/{a.txt, sub/}` where `sub`
passes the readability check and `opendir` fails for it, the first call of
`recdirread` returns `root/a.txt` and the second reaches the branch of the
failed `recdirpush`, whose `assert(0 && "UNREACHABLE?")` aborts the process:
the walk does not continue.  The same holds in every state in which
`recdirpush` fails. -/
theorem opendir_failure_aborts :
    recdiropen "root".toList open_fail_root none 100 1 ⟨false, false⟩ World.init =
        (some (opened_state "root".toList open_fail_root none 100 1 ⟨false, false⟩ World.init),
         opened_world "root".toList ⟨false, false⟩ World.init) ∧
    call_summary (recdirread 10
        (opened_state "root".toList open_fail_root none 100 1 ⟨false, false⟩ World.init)
        (opened_world "root".toList ⟨false, false⟩ World.init)) =
      some (some "root/a.txt".toList, 1, 1, [], 0) ∧
    outcome_kind (drain 10
        (opened_state "root".toList open_fail_root none 100 1 ⟨false, false⟩ World.init)
        (opened_world "root".toList ⟨false, false⟩ World.init)) = .abort ∧
    (∀ (path : Option CStr) (r : RECDIR) (w : World) (top : RECDIR_FRAME) (d : dirent)
        (node : FsNode) (s1 : DirStream),
      recdirtop r = some top → w.errno = 0 →
      readdir_loop top.dir.stream w.errno = (some (d, node), s1, w.errno) →
      node.attr.access_ok = true → d.d_type = .DT_DIR → r.depth < r.maxdepth →
      excluded r.exclude_reg (makepath top.path d.d_name) = false →
      node.attr.open_ok = false →
      recdirread_body path r w = .abort) :=
  ⟨rfl, by decide, by decide, push_failure_step⟩

/-! ## C15: the format of the structural log -/

/-- C15 (as stated, refuted): with structural and digest logging both on,
the event tag is padded to 64 characters, not to 10: the scan of the
example tree logs `OPEN` followed by 62 spaces and `root`. -/
theorem log_width_counterexample :
    (recdiropen "root".toList example_root none 100 1 ⟨true, true⟩ World.init).2.out =
      ["OPEN".toList ++ List.replicate 60 ' ' ++ "  root\n".toList] ∧
    "OPEN".toList ++ List.replicate 60 ' ' ++ "  root\n".toList ≠
      "OPEN".toList ++ List.replicate 6 ' ' ++ "  root\n".toList ∧
    logged (drain 20 (opened_state "root".toList example_root none 100 1 ⟨true, true⟩ World.init)
      (opened_world "root".toList ⟨true, true⟩ World.init)) =
      some ["OPEN".toList ++ List.replicate 60 ' ' ++ "  root\n".toList,
        "OPEN".toList ++ List.replicate 60 ' ' ++ "  root/sub\n".toList,
        "CLOSE".toList ++ List.replicate 59 ' ' ++ "  root/sub\n".toList,
        "CLOSE".toList ++ List.replicate 59 ' ' ++ "  root\n".toList] := by
  decide

/-- C15 (amended): when structural logging is on, every line `recdiropen`
and `recdirread` log is one of the event tags `OPEN`, `CLOSE`, `EXCLUDE`,
`SKIP [T]`, left-justified and padded with spaces to exactly `W`
characters, then two spaces, a path and a newline, where `W = 10` when
digest logging is off and `W = 64` when it is on; `recdiropen` logs `OPEN`
and the root path.  When structural logging is off nothing is logged. -/
theorem log_line_format (path : CStr) (root : FsNode) (exclude_reg : Option (CStr → Bool))
    (maxdepth mindepth : Nat) (verbose : Verbose) (w : World) (r : RECDIR) (w1 : World)
    (hopen : recdiropen path root exclude_reg maxdepth mindepth verbose w = (some r, w1)) :
    (verbose.stack = true →
      w1.out = w.out ++ [printf_fmt (if verbose.hash then 64 else 10) "OPEN".toList path] ∧
      ∀ r2 w2, Walk r w1 r2 w2 → ∃ lines, w2.out = w1.out ++ lines ∧
        ∀ l ∈ lines, ∃ tag p, tag ∈ log_tags ∧
          l = tag ++ List.replicate ((if verbose.hash then 64 else 10) - tag.length) ' ' ++
            [' ', ' '] ++ p ++ ['\n'] ∧
          (tag ++ List.replicate ((if verbose.hash then 64 else 10) - tag.length) ' ').length =
            (if verbose.hash then 64 else 10)) ∧
    (verbose.stack = false → w1.out = w.out ∧ ∀ r2 w2, Walk r w1 r2 w2 → w2.out = w.out) ∧
    (∀ (fuel : Nat) (r2 : RECDIR) (w2 : World) (v : Option CStr) (r3 : RECDIR) (w3 : World),
      Walk r w1 r2 w2 → recdirread fuel r2 w2 = .done (v, r3, w3) → Walk r w1 r3 w3) := by
  obtain ⟨_, _, hr, hw⟩ := recdiropen_some hopen
  subst hr; subst hw
  refine ⟨fun hv => ⟨by simp [opened_world, hv], fun r2 w2 hwalk => ?_⟩,
    fun hv => ⟨by simp [opened_world, hv], fun r2 w2 hwalk => ?_⟩,
    fun fuel r2 w2 v r3 w3 hwalk h => recdirread_walk _ _ fuel r2 w2 v r3 w3 hwalk h⟩
  · obtain ⟨_, lines, h1, h2⟩ := walk_log _ _ r2 w2 hwalk
    refine ⟨lines, h1, fun l hl => ?_⟩
    obtain ⟨width, tag, p, h3, h4, h5⟩ := h2 l hl
    simp only [opened_state, hv, if_true, Option.some.injEq] at h3
    subst h3
    refine ⟨tag, p, h4, h5, ?_⟩
    simp only [log_tags, List.mem_cons, List.mem_singleton, List.not_mem_nil, or_false] at h4
    rcases h4 with h4 | h4 | h4 | h4 <;> subst h4 <;> cases verbose.hash <;> decide
  · obtain ⟨_, lines, h1, h2⟩ := walk_log _ _ r2 w2 hwalk
    cases lines with
    | nil => simpa [opened_world, hv] using h1
    | cons l ls =>
      obtain ⟨width, tag, p, h3, _⟩ := h2 l (List.mem_cons_self _ _)
      simp [opened_state, hv] at h3

/-- Witness for C15 (amended): structural logging alone on the example
tree. -/
theorem log_line_format_witness :
    recdiropen "root".toList example_root none 100 1 ⟨true, false⟩ World.init =
      (some (opened_state "root".toList example_root none 100 1 ⟨true, false⟩ World.init),
        opened_world "root".toList ⟨true, false⟩ World.init) ∧
    (opened_world "root".toList ⟨true, false⟩ World.init).out =
      World.init.out ++ ["OPEN".toList ++ List.replicate 6 ' ' ++ "  root\n".toList] ∧
    logged (drain 20 (opened_state "root".toList example_root none 100 1 ⟨true, false⟩ World.init)
      (opened_world "root".toList ⟨true, false⟩ World.init)) =
      some ["OPEN".toList ++ List.replicate 6 ' ' ++ "  root\n".toList,
        "OPEN".toList ++ List.replicate 6 ' ' ++ "  root/sub\n".toList,
        "CLOSE".toList ++ List.replicate 5 ' ' ++ "  root/sub\n".toList,
        "CLOSE".toList ++ List.replicate 5 ' ' ++ "  root\n".toList] :=
  ⟨rfl, ((log_line_format "root".toList example_root none 100 1 ⟨true, false⟩ World.init _ _
    rfl).1 rfl).1, by decide⟩

/-! ## C16: the Path Builder -/

/-- C16: the Path Builder.  For every non-empty directory path `p1` and
every entry name `p2`, `makepath` returns `p1 ++ p2` when `p1` ends with
`/` and `p1 ++ "/" ++ p2` otherwise; the result and its terminator fit in
`strlen(p1) + strlen(p2) + 2` bytes; and when `p1` does not end with two
separators (and `p2`, an entry name, does not start with one) every `//`
in the result lies strictly inside `p1` or inside `p2`, none at the seam. -/
theorem makepath_joins (p1 p2 : CStr) (hne : p1 ≠ []) :
    (p1.getLast? = some '/' → makepath p1 p2 = p1 ++ p2) ∧
    (p1.getLast? ≠ some '/' → makepath p1 p2 = p1 ++ ['/'] ++ p2) ∧
    (makepath p1 p2).length + 1 ≤ p1.length + p2.length + 2 ∧
    (¬ (['/', '/'] <:+ p1) → p2.head? ≠ some '/' →
      ∀ pre post, makepath p1 p2 = pre ++ '/' :: '/' :: post →
        pre.length + 2 < p1.length ∨ (makepath p1 p2).length - p2.length ≤ pre.length) := by
  have _ := hne
  refine ⟨fun h => by simp [makepath, h], fun h => by simp [makepath, h], ?_, ?_⟩
  · rw [makepath_eq_base]
    have := base_length p1
    simp only [List.length_append]
    omega
  · intro htrail hhead pre post h
    rw [makepath_eq_base] at h ⊢
    simp only [List.length_append, Nat.add_sub_cancel]
    rcases List.append_eq_append_iff.1 h with ⟨a, ha, _⟩ | ⟨c, hc, hc2⟩
    · right; rw [ha]; simp
    · cases c with
      | nil => right; rw [hc]; simp
      | cons x c1 =>
        cases c1 with
        | nil =>
          simp at hc2
          rw [← hc2.2] at hhead
          exact absurd rfl hhead
        | cons y c2 =>
          simp at hc2
          obtain ⟨hx, hy, _⟩ := hc2
          subst hx; subst hy
          left
          exact no_double_in_base p1 pre c2 htrail hc

/-- Witness for C16: `makepath("root", "a.txt")` and `makepath("root/", "a.txt")`. -/
theorem makepath_joins_witness :
    "root".toList ≠ [] ∧
    makepath "root".toList "a.txt".toList = "root/a.txt".toList ∧
    makepath "root/".toList "a.txt".toList = "root/a.txt".toList ∧
    ((makepath "root".toList "a.txt".toList).length + 1 ≤
      "root".toList.length + "a.txt".toList.length + 2) :=
  ⟨by decide, by decide, by decide,
    (makepath_joins "root".toList "a.txt".toList (by decide)).2.2.1⟩

/-! ## C17: the paths on the frame stack -/

/-- C17: the frame-stack path invariant.  In every state reached from a
successful `recdiropen` by passes of `recdirread`, `depth` counts the
frames; the bottom frame holds the root path; the path of every other
frame is `makepath` of the path of the frame below it and the name of an
entry of that frame's directory; the stack lies along a branch of the
tree, so it is no deeper than the tree.  When a pass returns a file path,
that path is `makepath` of the top frame's path and the name of a regular
file in the top frame's directory, and the pair of the path and `depth` is
in the list of the files of the tree with the depths of the directories
that hold them, the root being at depth 1. -/
theorem frame_stack_paths (path : CStr) (root : FsNode) (exclude_reg : Option (CStr → Bool))
    (maxdepth mindepth : Nat) (verbose : Verbose) (w : World) (r : RECDIR) (w1 : World)
    (hopen : recdiropen path root exclude_reg maxdepth mindepth verbose w = (some r, w1)) :
    (∀ r2 w2, Walk r w1 r2 w2 →
      r2.depth = r2.frames.length ∧ r2.depth ≤ height root.sub ∧
      (∀ f, r2.frames.getLast? = some f → f.path = path) ∧
      List.Chain' (fun f g => ∃ name, is_dot name = false ∧ f.path = makepath g.path name)
        r2.frames ∧
      (r2.frames = [] ∨ ∃ dir, Chain path root.sub r2.frames dir) ∧
      ∀ (p0 : Option CStr) (p : CStr) (r3 : RECDIR) (w3 : World),
        recdirread_body p0 r2 w2 = .return_ (some p) r3 w3 →
        r3.depth = r2.depth ∧
        (∃ top below name, r2.frames = top :: below ∧ is_dot name = false ∧
          p = makepath top.path name) ∧
        (p, r3.depth) ∈ all_files none root.sub path 1) ∧
    (∀ (fuel : Nat) (r2 : RECDIR) (w2 : World) (v : Option CStr) (r3 : RECDIR) (w3 : World),
      Walk r w1 r2 w2 → recdirread fuel r2 w2 = .done (v, r3, w3) → Walk r w1 r3 w3) := by
  obtain ⟨_, _, hr, hw⟩ := recdiropen_some hopen
  subst hr; subst hw
  refine ⟨fun r2 w2 hwalk => ?_,
    fun fuel r2 w2 v r3 w3 hwalk h => recdirread_walk _ _ fuel r2 w2 v r3 w3 hwalk h⟩
  have hb := walk_on_branch path root.sub _ _
    (opened_on_branch path root exclude_reg maxdepth mindepth verbose w) r2 w2 hwalk
  refine ⟨hb.1, on_branch_depth hb, ?_, ?_, hb.2, ?_⟩
  · intro f hf
    rcases hb.2 with h | ⟨dir, h⟩
    · rw [h] at hf; simp at hf
    · obtain ⟨x, h1, h2⟩ := chain_last h
      rw [h1] at hf
      simp only [Option.some.injEq] at hf
      rw [← hf]; exact h2
  · rcases hb.2 with h | ⟨dir, h⟩
    · rw [h]; exact List.chain'_nil
    · exact chain_links h
  · intro p0 p r3 w3 hbody
    have hs := body_shape p0 r2 w2
    rw [hbody] at hs
    obtain ⟨_, _, top, below, d, a, sub, rest, hf, hd0, ht, hnd, hty, _, hp, hf1, hd1, _⟩ := hs
    refine ⟨hd1, ⟨top, below, d.d_name, hf, hnd, hp⟩, ?_⟩
    rcases hb.2 with h | ⟨dir, h⟩
    · rw [h] at hf; simp at hf
    · have hlen : r3.depth = r2.frames.length := by rw [hd1]; exact hb.1
      rw [hlen, hp]
      apply chain_all_files h top below hf
      rw [hf] at h
      exact all_files_file (tail_trans ht (chain_top_tail h)) hnd hty top.path _

/-- Witness for C17: the example tree; the first call returns `root/a.txt`
with one frame on the stack. -/
theorem frame_stack_paths_witness :
    recdiropen "root".toList example_root none 100 1 ⟨false, false⟩ World.init =
      (some (opened_state "root".toList example_root none 100 1 ⟨false, false⟩ World.init),
        opened_world "root".toList ⟨false, false⟩ World.init) ∧
    call_summary (recdirread 20
      (opened_state "root".toList example_root none 100 1 ⟨false, false⟩ World.init)
      (opened_world "root".toList ⟨false, false⟩ World.init)) =
      some (some "root/a.txt".toList, 1, 1, [], 0) ∧
    all_files none example_root.sub "root".toList 1 =
      [("root/a.txt".toList, 1), ("root/sub/b.txt".toList, 2)] ∧
    ∀ r2 w2,
      Walk (opened_state "root".toList example_root none 100 1 ⟨false, false⟩ World.init)
        (opened_world "root".toList ⟨false, false⟩ World.init) r2 w2 →
      r2.depth = r2.frames.length ∧ r2.depth ≤ height example_root.sub ∧
      (∀ f, r2.frames.getLast? = some f → f.path = "root".toList) ∧
      List.Chain' (fun f g => ∃ name, is_dot name = false ∧ f.path = makepath g.path name)
        r2.frames ∧
      (r2.frames = [] ∨ ∃ dir, Chain "root".toList example_root.sub r2.frames dir) ∧
      ∀ (p0 : Option CStr) (p : CStr) (r3 : RECDIR) (w3 : World),
        recdirread_body p0 r2 w2 = .return_ (some p) r3 w3 →
        r3.depth = r2.depth ∧
        (∃ top below name, r2.frames = top :: below ∧ is_dot name = false ∧
          p = makepath top.path name) ∧
        (p, r3.depth) ∈ all_files none example_root.sub "root".toList 1 :=
  ⟨rfl, by decide, by decide,
    (frame_stack_paths "root".toList example_root none 100 1 ⟨false, false⟩ World.init _ _ rfl).1⟩

/-! ## C18: ownership of a yielded path -/

/-- C18 (the code at the failing input): an uneventful scan of
`root/{a.txt, sub/{b.txt}}` without a store.  The first iteration hands the
block of `root/a.txt` (address 0) to a worker while the walker keeps the
pointer.  When the workers run at once, the worker frees block 0 and the
`free(recdir->fpath)` of the next `recdirread` frees it a second time.  When
they run only at the join, the walker frees blocks 0 and 1 in its next two
calls and each worker then reads its path from a freed block.  Either way
the run ends in undefined behaviour and `main` does not return, for every
fuel that lets the loop come that far. -/
theorem yielded_path_freed_twice :
    heap_view (first_iter plain_env) = some (some 0, [], [(some 0, false)]) ∧
    (then_sched plain_env (first_iter plain_env)).map (fun p => p.w.frees) = some [0] ∧
    then_double_free plain_env (first_iter plain_env) = some true ∧
    outcome_kind (next_iter plain_env (first_iter plain_env)) = .ub ∧
    (∀ n : Nat, outcome_kind (main plain_env plain_args (n + 2) World.init) = .ub) ∧
    heap_view (first_iter lazy_env) = some (some 0, [], [(some 0, false)]) ∧
    heap_view (next_iter lazy_env (first_iter lazy_env)) =
      some (some 1, [0], [(some 0, false), (some 1, false)]) ∧
    heap_view (next_iter lazy_env (next_iter lazy_env (first_iter lazy_env))) =
      some (none, [0, 1], [(some 0, false), (some 1, false)]) ∧
    goes_on (next_iter lazy_env (next_iter lazy_env (first_iter lazy_env))) = false ∧
    (then_join lazy_env (next_iter lazy_env (next_iter lazy_env (first_iter lazy_env)))).map
      (fun o => o.isSome) = some false ∧
    (∀ n : Nat, outcome_kind (main lazy_env plain_args (n + 4) World.init) = .ub) :=
  ⟨by decide, by decide, by decide, by decide, fun _ => rfl, by decide, by decide, by decide,
    by decide, by decide, fun _ => rfl⟩

/-! ## C19: the capacity of the frame stack -/

/-- C20 (the code at the failing input): `recdirread` is entered with
`errno = ENOTTY` on `root/{a.txt, sub/{b.txt}}`.  `readdir` returns the entry
`a.txt` without failing, the test `errno != 0` takes it for a read error,
the root's frame is popped and the call returns `NULL`: the entry is
discarded and nothing is yielded, where the same call with `errno = 0`
yields `root/a.txt`.  In every state, whatever entry the inner loop has
read, a non-zero `errno` at entry leads to the pop. -/
theorem stale_errno_discards_entry :
    readdir_loop example_tree ENOTTY =
      (some ({ d_name := "a.txt".toList, d_type := .DT_REG }, { attr := attr_ok, sub := .eos }),
        dir_entry "sub" (file_entry "b.txt" .eos) .eos, ENOTTY) ∧
    call_summary (recdirread 10
        (opened_state "root".toList example_root none 100 1 ⟨false, false⟩ World.init)
        { opened_world "root".toList ⟨false, false⟩ World.init with errno := ENOTTY }) =
      some (none, 0, 1, [0], 0) ∧
    call_summary (recdirread 10
        (opened_state "root".toList example_root none 100 1 ⟨false, false⟩ World.init)
        (opened_world "root".toList ⟨false, false⟩ World.init)) =
      some (some "root/a.txt".toList, 1, 1, [], 0) ∧
    (∀ (path : Option CStr) (r : RECDIR) (w : World) (top : RECDIR_FRAME)
        (ent : Option (dirent × FsNode)) (s1 : DirStream),
      recdirtop r = some top → w.errno ≠ 0 →
      readdir_loop top.dir.stream w.errno = (ent, s1, w.errno) →
      recdirread_body path r w =
        pop_or_return path
          { r with frames := { top with dir := { top.dir with stream := s1 } } :: r.frames.tail }
          { perror path w with errno := 0 }) :=
  ⟨by decide, by decide, by decide, stale_errno_step⟩

end Dedup
